import Mathlib

/-!
# CudaPix: the two filter engines and the "Apply filter" step of the GUI

A shallow embedding of `src/core/image.h`, `src/core/filters_cpu.cpp` and of the
"Apply filter" handler of `src/gui/main_gui.cpp`, and a model of the parallel engine
declared in `src/core/filters_cuda.h`, followed by theorems about them.

Modelling conventions.

* `int` is the 32-bit signed type.  Signed overflow has no defined result in C++: the
  index arithmetic `(y * width + x) * stride + c` of the filters is computed step by step
  (`intVal`, `pixelIndex`), and a step whose value leaves `[-2^31, 2^31 - 1]` makes the
  whole call return `none`.  The other `int` values of the filters (loop counters, `x + kx`,
  `y + ky`, `width - 1`, `height - 1`, `sum`, `count`, kernel subscripts) lie between `-1`
  and the largest of `width`, `height`, `channels` and `9 * 255`, the fields of an image
  being `int` values; none of them overflows, and they are carried as integers.  A
  well-formed image has `width * height * channels` within `int`, as `load_image` computes
  that product in `int`.
* `uint8_t` values are natural numbers; a well-formed image holds values below 256, and
  every value a filter stores is below 256.
* `std::vector::operator[]` is bounds-checked: an access outside the buffer makes the
  whole call return `none`.  A filter returns an image unless an index overflows or leaves
  the buffer.
* `float` is IEEE-754 binary32 with round-to-nearest-even (`F32` below), every operation
  of the source rounded on its own (no excess precision, no fused multiply-add).
* `static_cast<uint8_t>` of a `float` whose truncation is outside `[0, 255]`, or of a NaN, is
  undefined in C++; the filters take a parameter `ub` that supplies the byte produced in
  that case, and every theorem holds for every `ub`.
* The functions `apply_*` of `src/core/filters_cuda.h` are declared but not defined in the
  sources; they are modelled from the specification of the parallel engine: independent
  units of work, one per output pixel, that complete in an arbitrary order, the filter
  rules and the rounding rule of the specification, binary32 arithmetic, and floating-point
  sums added in an arbitrary order.  The parallel engine has an undefined conversion of
  its own (its own `ub`), unrelated to that of the sequential engine.
-/

namespace CudaPix

/-! ## Image buffer (`src/core/image.h`) -/

/-- Simple 8-bit interleaved RGB image stored row-major (`struct Image`). -/
structure Image where
  width : Int
  height : Int
  channels : Int
  pixels : List Nat
  deriving DecidableEq, Repr

/-- The data-model invariant of an image: positive dimensions, three channels, a buffer of
`width * height * 3` values, each of them a byte, and a byte count `width * height * 3`
that is a value of type `int` (`load_image` computes it in `int`). -/
def Image.WellFormed (img : Image) : Prop :=
  0 < img.width ∧ 0 < img.height ∧ img.channels = 3 ∧
    (img.pixels.length : Int) = img.width * img.height * 3 ∧
    (∀ p ∈ img.pixels, p < 256) ∧ img.width * img.height * 3 ≤ 2147483647

instance (img : Image) : Decidable img.WellFormed := by
  unfold Image.WellFormed; infer_instance

/-- The weaker shape under which the traversals of the filters stay inside the buffer and
inside `int`: positive dimensions, at least three channels, at least
`width * height * channels` bytes, and `width * height * channels` within `int`.  Every
well-formed image has it. -/
def Image.Covered (img : Image) : Prop :=
  0 < img.width ∧ 0 < img.height ∧ 3 ≤ img.channels ∧
    img.width * img.height * img.channels ≤ (img.pixels.length : Int) ∧
    img.width * img.height * img.channels ≤ 2147483647

instance (img : Image) : Decidable img.Covered := by
  unfold Image.Covered; infer_instance

/-- Read `v[i]` for an `int` index `i`; `none` when `i` is outside the vector. -/
def readAt (v : List Nat) (i : Int) : Option Nat :=
  if i < 0 then none else v[i.toNat]?

/-- Assign `v[i] = b` for an `int` index `i`; `none` when `i` is outside the vector. -/
def writeAt (v : List Nat) (i : Int) (b : Nat) : Option (List Nat) :=
  if i < 0 then none
  else if i.toNat < v.length then some (v.set i.toNat b) else none

/-- The value of an `int` expression whose mathematical value is `r`: `r` itself when it is
in the range of `int`, and no defined value (`none`) on signed overflow. -/
def intVal (r : Int) : Option Int :=
  if -2147483648 ≤ r ∧ r ≤ 2147483647 then some r else none

/-- The expression `(y * img.width + x) * stride` of the filters, `stride = img.channels`,
each of its three operations computed in `int`. -/
def pixelIndex (img : Image) (x y : Int) : Option Int := do
  let a ← intVal (y * img.width)
  let b ← intVal (a + x)
  intVal (b * img.channels)

/-- The loop `for (int i = 0; i < n; ++i) body(i)` over a state `σ`: the iterations
`0, 1, ..., n - 1` run in order and the first failing one aborts the loop. -/
def forLoop {σ : Type} (n : Nat) (body : Int → σ → Option σ) (s : σ) : Option σ :=
  match n with
  | 0 => some s
  | k + 1 => (forLoop k body s).bind (body (k : Int))

/-- The function `std::clamp(v, lo, hi)` on `int`. -/
def clampInt (v lo hi : Int) : Int :=
  if v < lo then lo else if hi < v then hi else v

/-- The conversion `static_cast<uint8_t>(n)` of an `int`: reduction modulo 256. -/
def intToByte (n : Int) : Nat := (n % 256).toNat

/-- The values taken by `ky` and `kx` in `for (int k = -1; k <= 1; ++k)`. -/
def kernelOffsets : List Int := [-1, 0, 1]

/-! ## Box blur (`cpu_box_blur`) -/

/-- The lambda `sample` of `cpu_box_blur`: clamp-to-edge read of channel `c` of the pixel
at `(x, y)` from the input buffer. -/
def sample (img : Image) (x y c : Int) : Option Nat := do
  let x := clampInt x 0 (img.width - 1)
  let y := clampInt y 0 (img.height - 1)
  let idx ← pixelIndex img x y
  readAt img.pixels (← intVal (idx + c))

/-- The two inner loops of `cpu_box_blur`: `sum` and `count` over the 3×3 neighbourhood. -/
def boxAccumulate (img : Image) (x y c : Int) : Option (Int × Int) :=
  kernelOffsets.foldlM (fun acc ky =>
    kernelOffsets.foldlM (fun (acc : Int × Int) kx => do
      let s ← sample img (x + kx) (y + ky) c
      pure (acc.1 + (s : Int), acc.2 + 1)) acc) ((0, 0) : Int × Int)

/-- The body of the channel loop of `cpu_box_blur`: one output byte. -/
def boxBlurStore (img : Image) (x y c : Int) (out : List Nat) : Option (List Nat) := do
  let (sum, count) ← boxAccumulate img x y c
  let idx ← pixelIndex img x y
  writeAt out (← intVal (idx + c)) (intToByte (Int.tdiv sum count))

/-- The function `cpu_box_blur`: 3×3 mean filter written to a fresh buffer that replaces
the image's buffer at the end. -/
def cpu_box_blur (img : Image) : Option Image := do
  let output : List Nat := List.replicate img.pixels.length 0
  let output ← forLoop img.height.toNat (fun y out =>
    forLoop img.width.toNat (fun x out =>
      forLoop img.channels.toNat (fun c out => boxBlurStore img x y c out) out) out) output
  pure { img with pixels := output }

/-- Invariant of a raster traversal that fills a buffer front to back: the buffer has
length `L` and its first `m` bytes are given by `f`. -/
def FilledTo (L : Nat) (f : Nat → Nat) (m : Nat) (out : List Nat) : Prop :=
  out.length = L ∧ ∀ j, j < m → out[j]? = some (f j)

/-- Channel `c` of the pixel at `(x, y)` in a buffer `px` of an image `w` pixels wide with
`ch` channels (0 outside the buffer). -/
def byteAt (px : List Nat) (w ch x y c : Int) : Nat :=
  px.getD ((y * w + x) * ch + c).toNat 0

/-- The clamp-to-edge coordinate: `v` brought into `[0, n - 1]`. -/
def clampEdge (v n : Int) : Int := max 0 (min (n - 1) v)

/-- The sum of the nine clamp-to-edge samples around `(x, y)` in channel `c`, all read
from the buffer `px`. -/
def boxSum (px : List Nat) (w h ch x y c : Int) : Nat :=
  (kernelOffsets.map fun ky => (kernelOffsets.map fun kx =>
      byteAt px w ch (clampEdge (x + kx) w) (clampEdge (y + ky) h) c).sum).sum

/-- The truncated mean of the nine clamp-to-edge samples around `(x, y)` in channel `c`,
all read from the buffer `px`. -/
def boxMean (px : List Nat) (w h ch x y c : Int) : Nat :=
  boxSum px w h ch x y c / 9

/-! ## Binary32 arithmetic

A finite `float` is carried as the rational number it denotes; every arithmetic operation
computes the exact rational result and rounds it to the nearest binary32 value, ties to
even (the default rounding mode, one rounding per operation).  The two zeros are
identified: in the filters a zero only meets additions, subtractions, multiplications, the
division by `255.0f`, a square root, comparisons and the conversion to `uint8_t`, whose
results differ at most in the sign of a zero between `+0` and `-0`. -/

/-- Exponent of the unit in the last place of binary32 at `q`: `e - 23` in the binade
`[2^e, 2^(e+1))` of a normal number and `-149` for a subnormal number.  (At `q = 0` the
value is of no consequence: 0 rounds to 0 on every grid.) -/
def ulpExp (q : ℚ) : Int := max (Int.log 2 |q|) (-126) - 23

/-- The integer nearest to `q`, a tie going to the even neighbour. -/
def roundHalfEven (q : ℚ) : Int :=
  let f := ⌊q⌋
  let r := q - f
  if r < 1 / 2 then f else if 1 / 2 < r then f + 1 else if f % 2 = 0 then f else f + 1

/-- Round-to-nearest-even of a rational to the binary32 grid (exponent range unbounded
above). -/
def roundToF32 (q : ℚ) : ℚ := roundHalfEven (q / 2 ^ ulpExp q) * 2 ^ ulpExp q

/-- Values of the type `float`. -/
inductive F32 where
  | nan : F32
  | inf (neg : Bool) : F32
  | fin (q : ℚ) : F32
  deriving DecidableEq, Repr

/-- A rational on the binary32 grid: `m * 2^e` with `|m| ≤ 2^24` and `e ≥ -149`. -/
def Representable (q : ℚ) : Prop :=
  ∃ m e : Int, |m| ≤ 2 ^ 24 ∧ -149 ≤ e ∧ q = m * (2 : ℚ) ^ e

namespace F32

/-- Rounding of an exact result to a `float`; a result that rounds to `2^128` or beyond
overflows to an infinity. -/
def ofRat (q : ℚ) : F32 :=
  let r := roundToF32 q
  if 2 ^ 128 ≤ |r| then inf (decide (r < 0)) else fin r

/-- A decimal literal such as `0.299f`: the nearest `float`. -/
def lit (q : ℚ) : F32 := ofRat q

/-- Conversion of an integer (`int`, or a promoted `uint8_t`) to `float`. -/
def ofInt (n : Int) : F32 := ofRat n

/-- Negation. -/
def neg : F32 → F32
  | nan => nan
  | inf s => inf (!s)
  | fin q => fin (-q)

/-- Addition. -/
def add : F32 → F32 → F32
  | fin a, fin b => ofRat (a + b)
  | fin _, inf s => inf s
  | inf s, fin _ => inf s
  | inf s, inf t => if s = t then inf s else nan
  | nan, _ => nan
  | _, nan => nan

/-- Subtraction. -/
def sub (a b : F32) : F32 := add a (neg b)

/-- Multiplication. -/
def mul : F32 → F32 → F32
  | fin a, fin b => ofRat (a * b)
  | fin a, inf s => if a = 0 then nan else inf (xor s (decide (a < 0)))
  | inf s, fin b => if b = 0 then nan else inf (xor s (decide (b < 0)))
  | inf s, inf t => inf (xor s t)
  | nan, _ => nan
  | _, nan => nan

/-- Division. -/
def div : F32 → F32 → F32
  | fin a, fin b =>
      if b = 0 then (if a = 0 then nan else inf (decide (a < 0))) else ofRat (a / b)
  | fin _, inf _ => fin 0
  | inf s, fin b => inf (xor s (decide (b < 0)))
  | inf _, inf _ => nan
  | nan, _ => nan
  | _, nan => nan

/-- The function `std::sqrt` on `float`, correctly rounded.  With `r` the integer square
root of `⌊q * 2^200⌋`, the exact root lies in `[r, r + 1) / 2^100`; the root of a positive
`float` is at least `2^-75`, and from there on every binary32 value and every midpoint of
two neighbouring ones is an integer multiple of `2^-100`; so the root rounds as
`r / 2^100` when it is exact and as `(r + 1/2) / 2^100` otherwise. -/
def sqrt : F32 → F32
  | nan => nan
  | inf s => if s then nan else inf false
  | fin q =>
      if q < 0 then nan
      else
        let n := ⌊q * 2 ^ 200⌋.toNat
        let r := Nat.sqrt n
        let sticky : ℚ := if (r : ℚ) * r = q * 2 ^ 200 then 0 else 1
        ofRat ((2 * r + sticky) / 2 ^ 101)

/-- The comparison `a < b`; false when either side is a NaN. -/
def lt : F32 → F32 → Bool
  | fin a, fin b => decide (a < b)
  | fin _, inf s => !s
  | inf s, fin _ => s
  | inf s, inf t => s && !t
  | nan, _ => false
  | _, nan => false

instance : Neg F32 := ⟨neg⟩
instance : Add F32 := ⟨add⟩
instance : Sub F32 := ⟨sub⟩
instance : Mul F32 := ⟨mul⟩
instance : Div F32 := ⟨div⟩

/-- The function `std::clamp(v, lo, hi)` on `float`. -/
def clamp (v lo hi : F32) : F32 :=
  if lt v lo then lo else if lt hi v then hi else v

/-- The function `std::max(a, b)` on `float`. -/
def max (a b : F32) : F32 := if lt a b then b else a

/-- The conversion `static_cast<uint8_t>(v)`: truncation toward zero.  When the truncated
value is not in `[0, 255]`, or `v` is not finite, C++ leaves the conversion undefined;
`ub v` stands for the byte an implementation produces there. -/
def toByte (ub : F32 → Nat) : F32 → Nat
  | fin q =>
      let t : Int := if 0 ≤ q then ⌊q⌋ else ⌈q⌉
      if 0 ≤ t ∧ t ≤ 255 then t.toNat else ub (fin q) % 256
  | v => ub v % 256

end F32

/-! ## Pointwise filters and edge detection (`src/core/filters_cpu.cpp`) -/

/-- The function `clamp_byte`. -/
def clamp_byte (ub : F32 → Nat) (v : F32) : Nat :=
  let v := F32.clamp v (F32.lit 0) (F32.lit 255)
  F32.toByte ub (v + F32.lit (1 / 2))

/-- The function `to_gray`: `0.299f * r + 0.587f * g + 0.114f * b`. -/
def to_gray (r g b : Nat) : F32 :=
  F32.lit (299 / 1000) * F32.ofInt r + F32.lit (587 / 1000) * F32.ofInt g +
    F32.lit (114 / 1000) * F32.ofInt b

/-- The loop body of `cpu_grayscale`: the pixel at `(x, y)` is replaced in place by its
luma in all three channels. -/
def grayscalePixel (ub : F32 → Nat) (img : Image) (x y : Int) (px : List Nat) :
    Option (List Nat) := do
  let idx ← pixelIndex img x y
  let r ← readAt px idx
  let g ← readAt px (← intVal (idx + 1))
  let b ← readAt px (← intVal (idx + 2))
  let gv := clamp_byte ub (to_gray r g b)
  let px ← writeAt px (← intVal (idx + 2)) gv
  let px ← writeAt px (← intVal (idx + 1)) gv
  writeAt px idx gv

/-- The function `cpu_grayscale`. -/
def cpu_grayscale (ub : F32 → Nat) (img : Image) : Option Image := do
  let px ← forLoop img.height.toNat (fun y px =>
    forLoop img.width.toNat (fun x px => grayscalePixel ub img x y px) px) img.pixels
  pure { img with pixels := px }

/-- The arithmetic of the channel loop of `cpu_brightness` on one byte `p`, `delta`
already clamped. -/
def brightnessByte (ub : F32 → Nat) (delta : F32) (p : Nat) : Nat :=
  let v := F32.ofInt p / F32.lit 255
  let v := F32.clamp (v + delta) (F32.lit 0) (F32.lit 1)
  clamp_byte ub (v * F32.lit 255)

/-- The body of the channel loop of `cpu_brightness`, `idx` being the index of the pixel. -/
def brightnessStore (ub : F32 → Nat) (delta : F32) (idx c : Int) (px : List Nat) :
    Option (List Nat) := do
  let p ← readAt px (← intVal (idx + c))
  writeAt px (← intVal (idx + c)) (brightnessByte ub delta p)

/-- The function `cpu_brightness`. -/
def cpu_brightness (ub : F32 → Nat) (img : Image) (delta : F32) : Option Image := do
  let delta := F32.clamp delta (F32.lit (-1)) (F32.lit 1)
  let px ← forLoop img.height.toNat (fun y px =>
    forLoop img.width.toNat (fun x px => do
      let idx ← pixelIndex img x y
      forLoop img.channels.toNat (fun c px => brightnessStore ub delta idx c px) px) px)
    img.pixels
  pure { img with pixels := px }

/-- The arithmetic of the channel loop of `cpu_contrast` on one byte `p`, `factor`
already clamped. -/
def contrastByte (ub : F32 → Nat) (factor : F32) (p : Nat) : Nat :=
  let v := F32.ofInt p / F32.lit 255
  let v := (v - F32.lit (1 / 2)) * factor + F32.lit (1 / 2)
  let v := F32.clamp v (F32.lit 0) (F32.lit 1)
  clamp_byte ub (v * F32.lit 255)

/-- The body of the channel loop of `cpu_contrast`, `idx` being the index of the pixel. -/
def contrastStore (ub : F32 → Nat) (factor : F32) (idx c : Int) (px : List Nat) :
    Option (List Nat) := do
  let p ← readAt px (← intVal (idx + c))
  writeAt px (← intVal (idx + c)) (contrastByte ub factor p)

/-- The function `cpu_contrast`. -/
def cpu_contrast (ub : F32 → Nat) (img : Image) (factor : F32) : Option Image := do
  let factor := F32.max factor (F32.lit 0)
  let px ← forLoop img.height.toNat (fun y px =>
    forLoop img.width.toNat (fun x px => do
      let idx ← pixelIndex img x y
      forLoop img.channels.toNat (fun c px => contrastStore ub factor idx c px) px) px)
    img.pixels
  pure { img with pixels := px }

/-- The horizontal kernel `gx` of `cpu_sobel`. -/
def gx : List (List Int) := [[-1, 0, 1], [-2, 0, 2], [-1, 0, 1]]

/-- The vertical kernel `gy` of `cpu_sobel`. -/
def gy : List (List Int) := [[1, 2, 1], [0, 0, 0], [-1, -2, -1]]

/-- The entry `k[i][j]` of a 3×3 kernel. -/
def kernelAt (k : List (List Int)) (i j : Int) : Int :=
  (k.getD i.toNat []).getD j.toNat 0

/-- The lambda `sample_gray` of `cpu_sobel`: luma of the clamp-to-edge pixel at `(x, y)` of
the input buffer. -/
def sample_gray (img : Image) (x y : Int) : Option F32 := do
  let x := clampInt x 0 (img.width - 1)
  let y := clampInt y 0 (img.height - 1)
  let idx ← pixelIndex img x y
  let r ← readAt img.pixels idx
  let g ← readAt img.pixels (← intVal (idx + 1))
  let b ← readAt img.pixels (← intVal (idx + 2))
  pure (to_gray r g b)

/-- The two inner loops of `cpu_sobel`: `sum_x` and `sum_y` over the 3×3 neighbourhood. -/
def sobelAccumulate (img : Image) (x y : Int) : Option (F32 × F32) :=
  kernelOffsets.foldlM (fun acc ky =>
    kernelOffsets.foldlM (fun (acc : F32 × F32) kx => do
      let g ← sample_gray img (x + kx) (y + ky)
      pure (acc.1 + g * F32.ofInt (kernelAt gx (ky + 1) (kx + 1)),
        acc.2 + g * F32.ofInt (kernelAt gy (ky + 1) (kx + 1)))) acc)
    ((F32.lit 0, F32.lit 0) : F32 × F32)

/-- The loop body of `cpu_sobel`: gradient magnitude of the pixel at `(x, y)`, stored in
all three channels of the output. -/
def sobelPixel (ub : F32 → Nat) (img : Image) (x y : Int) (out : List Nat) :
    Option (List Nat) := do
  let (sum_x, sum_y) ← sobelAccumulate img x y
  let mag := F32.sqrt (sum_x * sum_x + sum_y * sum_y)
  let o := clamp_byte ub mag
  let idx ← pixelIndex img x y
  let out ← writeAt out (← intVal (idx + 2)) o
  let out ← writeAt out (← intVal (idx + 1)) o
  writeAt out idx o

/-- The function `cpu_sobel`. -/
def cpu_sobel (ub : F32 → Nat) (img : Image) : Option Image := do
  let output : List Nat := List.replicate img.pixels.length 0
  let output ← forLoop img.height.toNat (fun y out =>
    forLoop img.width.toNat (fun x out => sobelPixel ub img x y out) out) output
  pure { img with pixels := output }

/-- Invariant of a traversal that rewrites a buffer in place: the buffer keeps the length
of the original `orig`, the bytes marked by `done` hold the value given by `f` and the
others are still those of `orig`. -/
def RewrittenTo (orig : List Nat) (f : Nat → Nat) (done : Nat → Bool) (px : List Nat) : Prop :=
  px.length = orig.length ∧
    ∀ j, j < orig.length → px[j]? = some (if done j then f j else orig.getD j 0)

/-- The byte `cpu_grayscale` stores for the pixel number `p` of a buffer with `ch`
channels per pixel. -/
def grayAt (ub : F32 → Nat) (px : List Nat) (ch p : Nat) : Nat :=
  clamp_byte ub (to_gray (px.getD (p * ch) 0) (px.getD (p * ch + 1) 0) (px.getD (p * ch + 2) 0))

/-- The bytes `cpu_grayscale` has rewritten once `k` pixels are done: the first three
channels of the first `k` pixels. -/
def grayDone (ch k : Nat) : Nat → Bool := fun j => decide (j < k * ch ∧ j % ch < 3)

/-- Every pixel of the image has the colour `(r, g, b)`. -/
def Image.Uniform (img : Image) (r g b : Nat) : Prop :=
  ∀ j, j < img.pixels.length →
    img.pixels[j]? = some (if j % 3 = 0 then r else if j % 3 = 1 then g else b)

instance (img : Image) (r g b : Nat) : Decidable (img.Uniform r g b) := by
  unfold Image.Uniform; infer_instance

/-- The image of the end-to-end scenario: 4×4, every pixel `(100, 150, 200)`. -/
def scenarioImage : Image := ⟨4, 4, 3, (List.replicate 16 [100, 150, 200]).flatten⟩

/-- The accumulation of `cpu_sobel` over given samples: `s kx ky` is the luma sampled
at offset `(kx, ky)`; the result is `(sum_x, sum_y)`. -/
def sobelFold (s : Int → Int → F32) : F32 × F32 :=
  kernelOffsets.foldl (fun acc ky =>
    kernelOffsets.foldl (fun (acc : F32 × F32) kx =>
      (acc.1 + s kx ky * F32.ofInt (kernelAt gx (ky + 1) (kx + 1)),
        acc.2 + s kx ky * F32.ofInt (kernelAt gy (ky + 1) (kx + 1)))) acc)
    ((F32.lit 0, F32.lit 0) : F32 × F32)

/-- The byte `cpu_sobel` stores for a pixel whose neighbourhood has the lumas `s`. -/
def sobelByte (ub : F32 → Nat) (s : Int → Int → F32) : Nat :=
  clamp_byte ub (F32.sqrt ((sobelFold s).1 * (sobelFold s).1 + (sobelFold s).2 * (sobelFold s).2))

/-- The luma `sample_gray` reads at `(x, y)` after clamping the coordinates. -/
def grayAtXY (px : List Nat) (w h ch x y : Int) : F32 :=
  to_gray (byteAt px w ch (clampEdge x w) (clampEdge y h) 0)
    (byteAt px w ch (clampEdge x w) (clampEdge y h) 1)
    (byteAt px w ch (clampEdge x w) (clampEdge y h) 2)

/-- A 2×1 image with four channels per pixel and one byte more than `2 * 1 * 4`: neither
its channel count nor its buffer length is that of a well-formed image. -/
def fourChannelImage : Image := ⟨2, 1, 4, [10, 20, 30, 40, 50, 60, 70, 80, 90]⟩

/-! ## The "Apply filter" step of the GUI (`src/gui/main_gui.cpp`) -/

/-- The enumeration `FilterType` of `main`. -/
inductive FilterType where
  | None
  | Grayscale
  | Brightness
  | Contrast
  | Blur
  | Sobel
  deriving DecidableEq, Repr

/-- What one `switch (current_filter)` over the functions of an engine does inside the `try`
block: it returns, leaving the processed copy, or an exception leaves it. -/
inductive EngineRun where
  | returned (img : Image)
  | threw
  deriving DecidableEq, Repr

/-- The locals of `main` that the "Apply filter" handler reads or assigns.  The timings
are `double` values; they are only stored and divided once, and are carried as
rationals. -/
structure GuiState where
  current_filter : FilterType
  brightness_delta : F32
  contrast_factor : F32
  last_cpu_ms : ℚ
  last_gpu_ms : ℚ
  last_speedup : ℚ
  have_timings : Bool
  original_image : Image
  processed_image : Image
  has_image : Bool
  deriving DecidableEq, Repr

/-- The effect of one pass over the handler: the new state, whether the parallel engine was
invoked and whether the `catch` block ran. -/
structure ApplyResult where
  state : GuiState
  gpu_invoked : Bool
  caught : Bool
  deriving DecidableEq, Repr

/-- The handler `if (ImGui::Button("Apply filter") && has_image) { ... }`.  `cpu` is the
switch over `cpu_grayscale`, ..., `cpu_sobel` and `gpu` the switch over `apply_grayscale`,
..., `apply_sobel`, each run on its own copy of `original_image`; `cpu_ms` and `gpu_ms` are
the two measured durations.  The texture upload is left out. -/
def applyFilter (cpu gpu : FilterType → F32 → F32 → Image → EngineRun) (cpu_ms gpu_ms : ℚ)
    (clicked : Bool) (s : GuiState) : ApplyResult :=
  if clicked && s.has_image then
    if s.current_filter = FilterType.None then
      ⟨{ s with processed_image := s.original_image, have_timings := false }, false, false⟩
    else
      match cpu s.current_filter s.brightness_delta s.contrast_factor s.original_image with
      | EngineRun.threw => ⟨s, false, true⟩
      | EngineRun.returned _ =>
          let s1 := { s with last_cpu_ms := cpu_ms }
          match gpu s.current_filter s.brightness_delta s.contrast_factor s.original_image with
          | EngineRun.threw => ⟨s1, true, true⟩
          | EngineRun.returned gpu_image =>
              let s2 := { s1 with last_gpu_ms := gpu_ms }
              let s3 := { s2 with
                last_speedup := if 0 < s2.last_gpu_ms then s2.last_cpu_ms / s2.last_gpu_ms else 0 }
              ⟨{ s3 with have_timings := true, processed_image := gpu_image }, true, false⟩
  else ⟨s, false, false⟩

/-- The sequential engine of the handler: the first `switch (current_filter)`.  The `cpu_*`
functions throw nothing of their own; a run that leaves the buffer or `int` has no defined
outcome and is shown as `threw`. -/
def cpuSwitch (ub : F32 → Nat) (f : FilterType) (delta factor : F32) (img : Image) :
    EngineRun :=
  let r : Option Image :=
    match f with
    | FilterType.Grayscale => cpu_grayscale ub img
    | FilterType.Brightness => cpu_brightness ub img delta
    | FilterType.Contrast => cpu_contrast ub img factor
    | FilterType.Blur => cpu_box_blur img
    | FilterType.Sobel => cpu_sobel ub img
    | FilterType.None => some img
  match r with
  | some out => EngineRun.returned out
  | none => EngineRun.threw

/-- A state of the GUI after a successful run on a 1×1 image: timings on display. -/
def shownState : GuiState :=
  { current_filter := FilterType.Grayscale
    brightness_delta := F32.fin 0
    contrast_factor := F32.fin 1
    last_cpu_ms := 1
    last_gpu_ms := 2
    last_speedup := 1 / 2
    have_timings := true
    original_image := ⟨1, 1, 3, [10, 20, 30]⟩
    processed_image := ⟨1, 1, 3, [18, 18, 18]⟩
    has_image := true }

/-! ## Parallel engine (`src/core/filters_cuda.h`)

The header declares `apply_grayscale`, `apply_brightness`, `apply_contrast`,
`apply_box_blur` and `apply_sobel`; the file that defines them is not among the sources.
The definitions of this section follow the specification of the parallel engine instead:
one unit of work per output pixel, every unit reading the input buffer only and storing
the three bytes of its own pixel, the units completing in any order, the filter rules and
the rounding rule of the sequential engine, and floating-point sums whose terms may be
added in another order. -/

/-- Modelled from the spec: the order in which a unit of work adds the terms of a
floating-point sum, which the specification lets differ from the sequential engine (the
definitions of the `apply_*` functions declared in `filters_cuda.h` are missing from the
sources).  An order is a binary tree: `term i` is the term number `i`, and `plus l r` adds
the sum obtained by `l` to the sum obtained by `r`. -/
inductive SumOrder where
  | term (i : Nat) : SumOrder
  | plus (l r : SumOrder) : SumOrder
  deriving DecidableEq, Repr

namespace SumOrder

/-- Modelled from the spec: the numbers of the terms an order adds, left to right (part of
the model of the summation order of the missing `apply_*` definitions). -/
def terms : SumOrder → List Nat
  | term i => [i]
  | plus l r => l.terms ++ r.terms

/-- Modelled from the spec: the floating-point sum of the terms `ts` added in the order
`o`, every addition rounded (part of the model of the missing `apply_*` definitions). -/
def sum (o : SumOrder) (ts : List F32) : F32 :=
  match o with
  | term i => ts.getD i (F32.lit 0)
  | plus l r => l.sum ts + r.sum ts

/-- Modelled from the spec: `o` is an order of a sum of `n` terms, each term added exactly
once (part of the model of the missing `apply_*` definitions). -/
def Covers (o : SumOrder) (n : Nat) : Prop := o.terms.Perm (List.range n)

instance (o : SumOrder) (n : Nat) : Decidable (o.Covers n) := by
  unfold Covers; infer_instance

end SumOrder

/-- Modelled from the spec: the parallel execution of the missing `apply_*` definitions,
one unit of work per output pixel.  The units complete in the order `sched`; the unit of
the pixel number `p` stores the byte `unit p c` in channel `c` of the pixel `p` of the
output buffer and touches nothing else. -/
def runUnits (sched : List Nat) (unit : Nat → Nat → Nat) (out : List Nat) : List Nat :=
  sched.foldl (fun out p =>
    ((out.set (3 * p) (unit p 0)).set (3 * p + 1) (unit p 1)).set (3 * p + 2) (unit p 2)) out

/-- Modelled from the spec: `sched` is a schedule of a call of a missing `apply_*`
definition on `img`: each of the `width * height` units of work runs exactly once, in
any order. -/
def Image.Schedule (img : Image) (sched : List Nat) : Prop :=
  sched.Perm (List.range (img.width * img.height).toNat)

instance (img : Image) (sched : List Nat) : Decidable (img.Schedule sched) := by
  unfold Image.Schedule; infer_instance

/-- Modelled from the spec: the luma `0.299*R + 0.587*G + 0.114*B` as a unit of work of
the missing `apply_grayscale` and `apply_sobel` definitions computes it, the three
products added in the order `o`. -/
def lumaIn (o : SumOrder) (r g b : Nat) : F32 :=
  o.sum [F32.lit (299 / 1000) * F32.ofInt r, F32.lit (587 / 1000) * F32.ofInt g,
    F32.lit (114 / 1000) * F32.ofInt b]

/-- Modelled from the spec: the rounding rule shared by the engines (clamp to `[0, 255]` as
floating point, add one half, truncate), as the missing `apply_*` definitions apply it. -/
def roundByte (ub : F32 → Nat) (v : F32) : Nat :=
  F32.toByte ub (F32.clamp v (F32.lit 0) (F32.lit 255) + F32.lit (1 / 2))

/-- Modelled from the spec: the function `apply_grayscale`, whose definition is missing
from the sources.  The unit of a pixel rounds its luma and stores it in all three
channels. -/
def apply_grayscale (ub : F32 → Nat) (o : SumOrder) (sched : List Nat) (img : Image) :
    Image :=
  ⟨img.width, img.height, img.channels,
    runUnits sched (fun p _ =>
      roundByte ub (lumaIn o (img.pixels.getD (3 * p) 0) (img.pixels.getD (3 * p + 1) 0)
        (img.pixels.getD (3 * p + 2) 0)))
      (List.replicate img.pixels.length 0)⟩

/-- Modelled from the spec: the function `apply_brightness`, whose definition is missing
from the sources.  `delta` is clamped to `[-1, 1]`; each channel value is normalised to
`[0, 1]`, `delta` is added, the sum is clamped to `[0, 1]`, scaled back and rounded. -/
def apply_brightness (ub : F32 → Nat) (sched : List Nat) (img : Image) (delta : F32) :
    Image :=
  let delta := F32.clamp delta (F32.lit (-1)) (F32.lit 1)
  ⟨img.width, img.height, img.channels,
    runUnits sched (fun p c =>
      let v := F32.ofInt (img.pixels.getD (3 * p + c) 0) / F32.lit 255
      roundByte ub (F32.clamp (v + delta) (F32.lit 0) (F32.lit 1) * F32.lit 255))
      (List.replicate img.pixels.length 0)⟩

/-- Modelled from the spec: the function `apply_contrast`, whose definition is missing
from the sources.  `factor` is clamped to `≥ 0`; each channel value `v` normalised to
`[0, 1]` becomes `(v - 0.5) * factor + 0.5`, clamped to `[0, 1]`, scaled back and
rounded. -/
def apply_contrast (ub : F32 → Nat) (sched : List Nat) (img : Image) (factor : F32) :
    Image :=
  let factor := F32.max factor (F32.lit 0)
  ⟨img.width, img.height, img.channels,
    runUnits sched (fun p c =>
      let v := F32.ofInt (img.pixels.getD (3 * p + c) 0) / F32.lit 255
      roundByte ub
        (F32.clamp ((v - F32.lit (1 / 2)) * factor + F32.lit (1 / 2)) (F32.lit 0) (F32.lit 1) *
          F32.lit 255))
      (List.replicate img.pixels.length 0)⟩

/-- Modelled from the spec: the function `apply_box_blur`, whose definition is missing
from the sources.  The unit of the pixel `(p % width, p / width)` stores, per channel, the
truncated integer mean of the nine clamp-to-edge samples of the input buffer. -/
def apply_box_blur (sched : List Nat) (img : Image) : Image :=
  ⟨img.width, img.height, img.channels,
    runUnits sched (fun p c =>
      boxMean img.pixels img.width img.height 3 ((p % img.width.toNat : Nat) : Int)
        ((p / img.width.toNat : Nat) : Int) (c : Int))
      (List.replicate img.pixels.length 0)⟩

/-- Modelled from the spec: the luma a unit of work of the missing `apply_sobel`
definition computes for the clamp-to-edge pixel at `(x, y)` of the input buffer, its three
products added in the order `o`. -/
def lumaAtXY (o : SumOrder) (px : List Nat) (w h x y : Int) : F32 :=
  lumaIn o (byteAt px w 3 (clampEdge x w) (clampEdge y h) 0)
    (byteAt px w 3 (clampEdge x w) (clampEdge y h) 1)
    (byteAt px w 3 (clampEdge x w) (clampEdge y h) 2)

/-- Modelled from the spec: the nine products of a 3×3 kernel `k` with the lumas `s` of
the neighbourhood, row by row (the terms of `Gx` and of `Gy` in the missing `apply_sobel`
definition). -/
def kernelTerms (k : List (List Int)) (s : Int → Int → F32) : List F32 :=
  kernelOffsets.flatMap fun ky => kernelOffsets.map fun kx =>
    s kx ky * F32.ofInt (kernelAt k (ky + 1) (kx + 1))

/-- Modelled from the spec: the byte a unit of work of the missing `apply_sobel`
definition stores for a pixel whose neighbourhood has the lumas `s`: `Gx` and `Gy` summed
in the orders `ox` and `oy`, the magnitude `sqrt(Gx² + Gy²)` rounded. -/
def sobelByteIn (ub : F32 → Nat) (ox oy : SumOrder) (s : Int → Int → F32) : Nat :=
  let sum_x := ox.sum (kernelTerms gx s)
  let sum_y := oy.sum (kernelTerms gy s)
  roundByte ub (F32.sqrt (sum_x * sum_x + sum_y * sum_y))

/-- Modelled from the spec: the function `apply_sobel`, whose definition is missing from
the sources.  The unit of the pixel `(p % width, p / width)` converts its neighbourhood to
luma on the fly and stores the rounded gradient magnitude in all three channels. -/
def apply_sobel (ub : F32 → Nat) (ol ox oy : SumOrder) (sched : List Nat) (img : Image) :
    Image :=
  ⟨img.width, img.height, img.channels,
    runUnits sched (fun p _ =>
      sobelByteIn ub ox oy fun kx ky =>
        lumaAtXY ol img.pixels img.width img.height
          (((p % img.width.toNat : Nat) : Int) + kx) (((p / img.width.toNat : Nat) : Int) + ky))
      (List.replicate img.pixels.length 0)⟩

/-- The images `a` and `b` have the same shape and differ by at most 1 in every byte. -/
def Image.Within1 (a b : Image) : Prop :=
  a.width = b.width ∧ a.height = b.height ∧ a.channels = b.channels ∧
    a.pixels.length = b.pixels.length ∧
    ∀ j, j < b.pixels.length →
      |(a.pixels.getD j 0 : Int) - (b.pixels.getD j 0 : Int)| ≤ 1

instance (a b : Image) : Decidable (a.Within1 b) := by
  unfold Image.Within1; infer_instance

/-- The order in which the loops of the sequential engine add `n + 1` terms: one after the
other, each to the sum of those before it. -/
def seqOrder (n : Nat) : SumOrder :=
  (List.range n).foldl (fun o i => .plus o (.term (i + 1))) (.term 0)

/-- The exact products of a 3×3 kernel `k` with rational lumas `g` of the neighbourhood,
row by row. -/
def kernelTermsQ (k : List (List Int)) (g : Int → Int → ℚ) : List ℚ :=
  kernelOffsets.flatMap fun ky => kernelOffsets.map fun kx =>
    g kx ky * (kernelAt k (ky + 1) (kx + 1) : ℚ)

/-- An order of three terms that differs from the sequential one: `c + (b + a)`. -/
def reverseOrder3 : SumOrder := .plus (.term 2) (.plus (.term 1) (.term 0))

/-- A pairwise order of nine terms, as a tree reduction adds them. -/
def treeOrder9 : SumOrder :=
  .plus (.plus (.plus (.term 8) (.term 0)) (.plus (.term 2) (.term 6)))
    (.plus (.plus (.term 3) (.term 5)) (.plus (.term 1) (.plus (.term 7) (.term 4))))

/-! ## Loops and indices -/

theorem forLoop_inv {σ : Type} (P : Nat → σ → Prop) (body : Int → σ → Option σ) :
    ∀ (n : Nat) (s : σ), P 0 s →
      (∀ k t, k < n → P k t → ∃ t', body (k : Int) t = some t' ∧ P (k + 1) t') →
      ∃ t, forLoop n body s = some t ∧ P n t
  | 0, s, h0, _ => ⟨s, rfl, h0⟩
  | n + 1, s, h0, hstep => by
      obtain ⟨t, ht, hP⟩ := forLoop_inv P body n s h0 (fun k t hk => hstep k t (by omega))
      obtain ⟨t', ht', hP'⟩ := hstep n t (by omega) hP
      exact ⟨t', by simp [forLoop, ht, ht'], hP'⟩

theorem forLoop_raster {σ : Type} (H W : Nat) (Inv : Nat → σ → Prop)
    (body : Int → Int → σ → Option σ)
    (hstep : ∀ y x t, y < H → x < W → Inv (y * W + x) t →
      ∃ t', body y x t = some t' ∧ Inv (y * W + x + 1) t')
    (s : σ) (h0 : Inv 0 s) :
    ∃ t, forLoop H (fun y t => forLoop W (fun x t => body y x t) t) s = some t ∧
      Inv (H * W) t := by
  apply forLoop_inv (fun y t => Inv (y * W) t) _ H s (by simpa using h0)
  intro y t hy hInv
  obtain ⟨t', h1, h2⟩ := forLoop_inv (fun x t => Inv (y * W + x) t) (fun x t => body y x t) W t
    (by simpa using hInv) (fun x t hx h => hstep y x t hy hx h)
  exact ⟨t', h1, by rw [Nat.succ_mul]; exact h2⟩

theorem raster_lt {H W y x : Nat} (hy : y < H) (hx : x < W) : y * W + x < H * W := by
  have : (y + 1) * W ≤ H * W := Nat.mul_le_mul_right W hy
  rw [Nat.succ_mul] at this
  omega

theorem raster_byte_lt {H W C y x c : Nat} (hy : y < H) (hx : x < W) (hc : c < C) :
    (y * W + x) * C + c < H * W * C := by
  have h1 := raster_lt hy hx
  have h2 : (y * W + x + 1) * C ≤ H * W * C := Nat.mul_le_mul_right C h1
  rw [Nat.succ_mul] at h2
  omega

theorem raster_decompose {W C y x c : Nat} (hx : x < W) (hc : c < C) :
    ((y * W + x) * C + c) % C = c ∧ ((y * W + x) * C + c) / C % W = x ∧
      ((y * W + x) * C + c) / C / W = y := by
  have hC : 0 < C := by omega
  have hW : 0 < W := by omega
  have h3 : ((y * W + x) * C + c) / C = y * W + x := by
    rw [Nat.add_comm, Nat.add_mul_div_right _ _ hC, Nat.div_eq_of_lt hc, Nat.zero_add]
  refine ⟨?_, ?_, ?_⟩
  · rw [Nat.add_comm, Nat.add_mul_mod_self_right, Nat.mod_eq_of_lt hc]
  · rw [h3, Nat.add_comm, Nat.add_mul_mod_self_right, Nat.mod_eq_of_lt hx]
  · rw [h3, Nat.add_comm, Nat.add_mul_div_right _ _ hW, Nat.div_eq_of_lt hx, Nat.zero_add]

theorem clampInt_eq (v n : Int) (hn : 0 < n) : clampInt v 0 (n - 1) = clampEdge v n := by
  unfold clampInt clampEdge
  split_ifs <;> omega

theorem clampEdge_range (v n : Int) (hn : 0 < n) : 0 ≤ clampEdge v n ∧ clampEdge v n < n := by
  unfold clampEdge; omega

theorem pixel_index_range {w h n x y c : Int} (hx0 : 0 ≤ x) (hx : x < w) (hy0 : 0 ≤ y)
    (hy : y < h) (hc0 : 0 ≤ c) (hc : c < n) :
    0 ≤ (y * w + x) * n + c ∧ (y * w + x) * n + c < w * h * n := by
  have h1 : 0 ≤ y * w := mul_nonneg hy0 (by omega)
  have h2 : (y + 1) * w ≤ h * w := mul_le_mul_of_nonneg_right (by omega) (by omega)
  have h3 : w * h = h * w := mul_comm _ _
  have h4 : 0 ≤ (y * w + x) * n := mul_nonneg (by omega) (by omega)
  have h5 : (y * w + x + 1) * n ≤ h * w * n :=
    mul_le_mul_of_nonneg_right (by rw [add_mul] at h2; omega) (by omega)
  constructor
  · omega
  · rw [h3]; rw [add_mul] at h5; omega

/-- With `width * height * channels` within `int`, every intermediate value of the index
arithmetic `(y * width + x) * channels + c` is within `int`. -/
theorem pixel_index_int_range {w h n x y c : Int} (hx0 : 0 ≤ x) (hx : x < w) (hy0 : 0 ≤ y)
    (hy : y < h) (hc0 : 0 ≤ c) (hc : c < n) (hfit : w * h * n ≤ 2147483647) :
    (0 ≤ y * w ∧ y * w ≤ 2147483647) ∧ (0 ≤ y * w + x ∧ y * w + x ≤ 2147483647) ∧
      (0 ≤ (y * w + x) * n ∧ (y * w + x) * n ≤ 2147483647) ∧
      (0 ≤ (y * w + x) * n + c ∧ (y * w + x) * n + c ≤ 2147483647) := by
  have hr := pixel_index_range hx0 hx hy0 hy hc0 hc
  have h1 : 0 ≤ y * w := mul_nonneg hy0 (by omega)
  have h2 : (y * w + x) * 1 ≤ (y * w + x) * n :=
    mul_le_mul_of_nonneg_left (by omega) (by omega)
  rw [mul_one] at h2
  refine ⟨⟨h1, ?_⟩, ⟨?_, ?_⟩, ⟨?_, ?_⟩, ⟨?_, ?_⟩⟩ <;> omega

theorem intVal_eq {r : Int} (h0 : 0 ≤ r) (h1 : r ≤ 2147483647) : intVal r = some r := by
  unfold intVal
  rw [if_pos ⟨by omega, h1⟩]

/-- On a covered image the index of a pixel inside the image is computed without
overflow. -/
theorem pixelIndex_eq (img : Image) (hcov : img.Covered) {x y : Int} (hx0 : 0 ≤ x)
    (hx : x < img.width) (hy0 : 0 ≤ y) (hy : y < img.height) :
    pixelIndex img x y = some ((y * img.width + x) * img.channels) := by
  obtain ⟨hw, hh, hch, hlen, hfit⟩ := hcov
  obtain ⟨a, b, c, _⟩ := pixel_index_int_range hx0 hx hy0 hy (c := 0) (n := img.channels)
    (by omega) (by omega) hfit
  simp only [pixelIndex, intVal_eq a.1 a.2, intVal_eq b.1 b.2, intVal_eq c.1 c.2, bind,
    Option.bind]

/-- On a covered image the index of a channel of a pixel inside the image is computed
without overflow. -/
theorem pixelOffset_eq (img : Image) (hcov : img.Covered) {x y c : Int} (hx0 : 0 ≤ x)
    (hx : x < img.width) (hy0 : 0 ≤ y) (hy : y < img.height) (hc0 : 0 ≤ c)
    (hc : c < img.channels) :
    intVal ((y * img.width + x) * img.channels + c) =
      some ((y * img.width + x) * img.channels + c) := by
  obtain ⟨hw, hh, hch, hlen, hfit⟩ := hcov
  obtain ⟨_, _, _, d⟩ := pixel_index_int_range hx0 hx hy0 hy hc0 hc hfit
  exact intVal_eq d.1 d.2

theorem readAt_of_lt (v : List Nat) (i : Int) (h0 : 0 ≤ i) (h1 : i < v.length) :
    readAt v i = some (v.getD i.toNat 0) := by
  have : i.toNat < v.length := by omega
  simp [readAt, not_lt.mpr h0, List.getD_eq_getElem?_getD, List.getElem?_eq_getElem this]

theorem writeAt_filled {L : Nat} {f : Nat → Nat} {m : Nat} {out : List Nat}
    (h : FilledTo L f m out) (hm : m < L) (i : Int) (hi : i = (m : Int)) (v : Nat)
    (hv : f m = v) :
    ∃ out', writeAt out i v = some out' ∧ FilledTo L f (m + 1) out' := by
  obtain ⟨hlen, hfill⟩ := h
  subst hi
  refine ⟨out.set m v, ?_, ?_, ?_⟩
  · simp [writeAt, hlen, hm]
  · simp [hlen]
  · intro j hj
    rw [List.getElem?_set]
    by_cases hjm : m = j
    · subst hjm; simp [hlen, hm, hv]
    · simp only [hjm, if_false]; exact hfill j (by omega)

theorem RewrittenTo.init (orig : List Nat) (f : Nat → Nat) (done : Nat → Bool)
    (h : ∀ j, j < orig.length → done j = false) : RewrittenTo orig f done orig := by
  refine ⟨rfl, fun j hj => ?_⟩
  rw [h j hj, List.getD_eq_getElem?_getD, List.getElem?_eq_getElem hj]
  simp

theorem RewrittenTo.read {orig : List Nat} {f : Nat → Nat} {done : Nat → Bool} {px : List Nat}
    (h : RewrittenTo orig f done px) (i : Nat) (hi : i < orig.length) (hd : done i = false)
    (idx : Int) (hidx : idx = (i : Int)) : readAt px idx = some (orig.getD i 0) := by
  subst hidx
  have := h.2 i hi
  rw [hd] at this
  simpa [readAt] using this

theorem RewrittenTo.write {orig : List Nat} {f : Nat → Nat} {done D : Nat → Bool}
    {px : List Nat} (h : RewrittenTo orig f done px) (i : Nat) (hi : i < orig.length)
    (hd : ∀ j, j < orig.length → D j = (done j || decide (j = i)))
    (idx : Int) (hidx : idx = (i : Int)) (v : Nat) (hv : v = f i) :
    ∃ px', writeAt px idx v = some px' ∧ RewrittenTo orig f D px' := by
  obtain ⟨hlen, hpt⟩ := h
  subst hidx
  refine ⟨px.set i v, ?_, ?_, ?_⟩
  · simp [writeAt, hlen, hi]
  · simp [hlen]
  · intro j hj
    rw [List.getElem?_set, hd j hj]
    by_cases hji : i = j
    · subst hji; simp [hlen, hi, hv]
    · have : ¬ j = i := fun h => hji h.symm
      simp only [hji, if_false, this, decide_False, Bool.or_false]
      exact hpt j hj

theorem block_div_mod {k C j : Nat} (h1 : k * C ≤ j) (h2 : j < (k + 1) * C) :
    j / C = k ∧ j % C = j - k * C := by
  have hC : 0 < C := by
    rcases Nat.eq_zero_or_pos C with h | h
    · subst h; simp at h2
    · exact h
  have hdiv : j / C = k := by
    apply Nat.div_eq_of_lt_le
    · exact h1
    · exact h2
  have := Nat.div_add_mod j C
  rw [hdiv, Nat.mul_comm] at this
  exact ⟨hdiv, by omega⟩

theorem Image.WellFormed.covered {img : Image} (h : img.WellFormed) : img.Covered := by
  obtain ⟨hw, hh, hch, hlen, _, hfit⟩ := h
  exact ⟨hw, hh, by omega, by rw [hch, hlen], by rw [hch]; exact hfit⟩

/-- Natural-number reading of the shape of a covered image. -/
theorem Image.Covered.natShape {img : Image} (h : img.Covered) :
    img.width = (img.width.toNat : Int) ∧ img.height = (img.height.toNat : Int) ∧
      img.channels = (img.channels.toNat : Int) ∧
      img.height.toNat * img.width.toNat * img.channels.toNat ≤ img.pixels.length := by
  obtain ⟨hw, hh, hch, hlen, _⟩ := h
  have hW : img.width = (img.width.toNat : Int) := (Int.toNat_of_nonneg hw.le).symm
  have hH : img.height = (img.height.toNat : Int) := (Int.toNat_of_nonneg hh.le).symm
  have hC : img.channels = (img.channels.toNat : Int) :=
    (Int.toNat_of_nonneg (by omega)).symm
  refine ⟨hW, hH, hC, ?_⟩
  have : ((img.height.toNat * img.width.toNat * img.channels.toNat : Nat) : Int) ≤
      (img.pixels.length : Int) := by
    push_cast; rw [← hW, ← hH, ← hC]
    calc img.height * img.width * img.channels = img.width * img.height * img.channels := by ring
      _ ≤ _ := hlen
  exact_mod_cast this

/-! ## Box blur -/

theorem byteAt_lt (px : List Nat) (hb : ∀ p ∈ px, p < 256) (w ch x y c : Int) :
    byteAt px w ch x y c < 256 := by
  unfold byteAt
  rw [List.getD_eq_getElem?_getD]
  cases h : px[((y * w + x) * ch + c).toNat]? with
  | none => simp
  | some v => simpa using hb v (List.getElem?_mem h)

theorem sample_eq (img : Image) (hcov : img.Covered) (x y c : Int) (hc0 : 0 ≤ c)
    (hc : c < img.channels) :
    sample img x y c = some (byteAt img.pixels img.width img.channels
      (clampEdge x img.width) (clampEdge y img.height) c) := by
  have hw := hcov.1
  have hh := hcov.2.1
  have hlen := hcov.2.2.2.1
  have hx := clampEdge_range x _ hw
  have hy := clampEdge_range y _ hh
  have hr := pixel_index_range hx.1 hx.2 hy.1 hy.2 hc0 hc
  unfold sample byteAt
  simp only [clampInt_eq _ _ hw, clampInt_eq _ _ hh,
    pixelIndex_eq img hcov hx.1 hx.2 hy.1 hy.2,
    pixelOffset_eq img hcov hx.1 hx.2 hy.1 hy.2 hc0 hc, bind, Option.bind]
  exact readAt_of_lt _ _ hr.1 (lt_of_lt_of_le hr.2 hlen)

theorem boxAccumulate_eq (img : Image) (hcov : img.Covered) (x y c : Int) (hc0 : 0 ≤ c)
    (hc : c < img.channels) :
    boxAccumulate img x y c =
      some ((boxSum img.pixels img.width img.height img.channels x y c : Int), 9) := by
  simp only [boxAccumulate, kernelOffsets, List.foldlM, sample_eq img hcov _ _ _ hc0 hc,
    boxSum, List.map, List.sum_cons, List.sum_nil, bind, Option.bind, pure]
  simp only [Option.some.injEq, Prod.mk.injEq]
  constructor
  · push_cast; ring
  · norm_num

theorem boxSum_le (px : List Nat) (hb : ∀ p ∈ px, p < 256) (w h ch x y c : Int) :
    boxSum px w h ch x y c ≤ 9 * 255 := by
  have hl := byteAt_lt px hb w ch
  simp only [boxSum, kernelOffsets, List.map, List.sum_cons, List.sum_nil]
  have h1 := hl (clampEdge (x + -1) w) (clampEdge (y + -1) h) c
  have h2 := hl (clampEdge (x + 0) w) (clampEdge (y + -1) h) c
  have h3 := hl (clampEdge (x + 1) w) (clampEdge (y + -1) h) c
  have h4 := hl (clampEdge (x + -1) w) (clampEdge (y + 0) h) c
  have h5 := hl (clampEdge (x + 0) w) (clampEdge (y + 0) h) c
  have h6 := hl (clampEdge (x + 1) w) (clampEdge (y + 0) h) c
  have h7 := hl (clampEdge (x + -1) w) (clampEdge (y + 1) h) c
  have h8 := hl (clampEdge (x + 0) w) (clampEdge (y + 1) h) c
  have h9 := hl (clampEdge (x + 1) w) (clampEdge (y + 1) h) c
  omega

theorem intToByte_tdiv (s : Nat) (hs : s ≤ 9 * 255) :
    intToByte (Int.tdiv (s : Int) 9) = s / 9 := by
  have h1 : Int.tdiv (s : Int) 9 = ((s / 9 : Nat) : Int) := by
    rw [Int.tdiv_eq_ediv (by omega) (by omega)]; norm_cast
  rw [h1]
  unfold intToByte
  have : s / 9 < 256 := by omega
  omega

/-- The buffer `cpu_box_blur` returns on a covered image, byte by byte: each of the first
`height * width * channels` bytes is the truncated mean of its nine samples, read with
stride `channels`, and the bytes after them are 0. -/
theorem cpu_box_blur_rewritten (img : Image) (hcov : img.Covered) :
    ∃ out, cpu_box_blur img = some { img with pixels := out } ∧
      RewrittenTo (List.replicate img.pixels.length 0)
        (fun j => intToByte (Int.tdiv (boxSum img.pixels img.width img.height img.channels
          ((j / img.channels.toNat % img.width.toNat : Nat) : Int)
          ((j / img.channels.toNat / img.width.toNat : Nat) : Int)
          ((j % img.channels.toNat : Nat) : Int) : Int) 9))
        (fun j => decide (j < img.height.toNat * img.width.toNat * img.channels.toNat)) out := by
  obtain ⟨hW, hH, hC, hL⟩ := hcov.natShape
  set C := img.channels.toNat with hCdef
  set W := img.width.toNat with hWdef
  obtain ⟨t, ht, hInv⟩ := forLoop_raster img.height.toNat W
    (fun k out => RewrittenTo (List.replicate img.pixels.length 0)
      (fun j => intToByte (Int.tdiv (boxSum img.pixels img.width img.height img.channels
        ((j / C % W : Nat) : Int) ((j / C / W : Nat) : Int) ((j % C : Nat) : Int) : Int) 9))
      (fun j => decide (j < k * C)) out)
    (fun y x out => forLoop C (fun c out => boxBlurStore img x y c out) out)
    (by
      intro y x out hy hx hInv
      obtain ⟨t', h1, h2⟩ := forLoop_inv
        (fun c out => RewrittenTo (List.replicate img.pixels.length 0)
          (fun j => intToByte (Int.tdiv (boxSum img.pixels img.width img.height img.channels
            ((j / C % W : Nat) : Int) ((j / C / W : Nat) : Int) ((j % C : Nat) : Int) : Int) 9))
          (fun j => decide (j < (y * W + x) * C + c)) out)
        (fun c out => boxBlurStore img x y c out) C out (by simpa using hInv)
        (by
          intro c out hc hI
          have hlt := raster_byte_lt hy hx hc
          obtain ⟨d1, d2, d3⟩ := raster_decompose (W := W) (y := y) hx hc
          have hx0 : (0 : Int) ≤ (x : Int) := Int.natCast_nonneg x
          have hy0 : (0 : Int) ≤ (y : Int) := Int.natCast_nonneg y
          have hxw : (x : Int) < img.width := by rw [hW]; exact_mod_cast hx
          have hyh : (y : Int) < img.height := by rw [hH]; exact_mod_cast hy
          have hc0 : (0 : Int) ≤ (c : Int) := Int.natCast_nonneg c
          have hcc : (c : Int) < img.channels := by rw [hC]; exact_mod_cast hc
          have e0 : ((y : Int) * img.width + x) * img.channels + c =
              (((y * W + x) * C + c : Nat) : Int) := by
            rw [hW, hC]; push_cast; ring
          obtain ⟨p1, w1, hI'⟩ := hI.write
            (D := fun j => decide (j < (y * W + x) * C + (c + 1)))
            ((y * W + x) * C + c) (by simp only [List.length_replicate]; omega)
            (fun j _ => by rw [Bool.eq_iff_iff]; simp; omega) _ e0
            (intToByte (Int.tdiv (boxSum img.pixels img.width img.height img.channels
              x y c : Int) 9))
            (by simp only [d1, d2, d3])
          refine ⟨p1, ?_, hI'⟩
          simp only [boxBlurStore, boxAccumulate_eq img hcov x y c hc0 hcc,
            pixelIndex_eq img hcov hx0 hxw hy0 hyh,
            pixelOffset_eq img hcov hx0 hxw hy0 hyh hc0 hcc, bind, Option.bind]
          exact w1)
      have e : (y * W + x + 1) * C = (y * W + x) * C + C := by ring
      exact ⟨t', h1, by beta_reduce; rw [e]; exact h2⟩)
    (List.replicate img.pixels.length 0) (RewrittenTo.init _ _ _ (by intro j _; simp))
  refine ⟨t, ?_, hInv⟩
  simp only [cpu_box_blur, ht, bind, Option.bind, pure]

/-- The byte `cpu_box_blur` stores at the linear position `j` of its output. -/
theorem cpu_box_blur_filled (img : Image) (hcov : img.Covered) :
    ∃ out, cpu_box_blur img = some { img with pixels := out } ∧
      FilledTo img.pixels.length
        (fun j => intToByte (Int.tdiv (boxSum img.pixels img.width img.height img.channels
          ((j / img.channels.toNat % img.width.toNat : Nat) : Int)
          ((j / img.channels.toNat / img.width.toNat : Nat) : Int)
          ((j % img.channels.toNat : Nat) : Int) : Int) 9))
        (img.height.toNat * img.width.toNat * img.channels.toNat) out := by
  obtain ⟨out, hout, hlen, hpt⟩ := cpu_box_blur_rewritten img hcov
  obtain ⟨_, _, _, hL⟩ := hcov.natShape
  simp only [List.length_replicate] at hlen hpt
  refine ⟨out, hout, hlen, fun j hj => ?_⟩
  have := hpt j (by omega)
  rw [decide_eq_true hj, if_pos rfl] at this
  exact this

/-- Claim C1.  On a well-formed image (positive width and height, three channels,
`width * height * 3` bytes, that count being an `int` value) `cpu_box_blur` returns an
image of the same shape, no index having overflowed or left the buffer, in which the
byte of channel `c` at `(x, y)` is the truncating quotient by 9 of the sum of the nine
bytes of channel `c` at the clamp-to-edge neighbours `(clamp (x + kx), clamp (y + ky))`,
`kx, ky ∈ {-1, 0, 1}`, every sample being a byte of the buffer the call received. -/
theorem cpu_box_blur_spec (img : Image) (hwf : img.WellFormed) :
    ∃ out, cpu_box_blur img = some out ∧
      out.width = img.width ∧ out.height = img.height ∧ out.channels = img.channels ∧
      out.pixels.length = img.pixels.length ∧
      ∀ x y c : Int, 0 ≤ x → x < img.width → 0 ≤ y → y < img.height → 0 ≤ c → c < 3 →
        out.pixels[((y * img.width + x) * 3 + c).toNat]? =
          some (boxMean img.pixels img.width img.height 3 x y c) := by
  obtain ⟨out, hout, hlen, hfill⟩ := cpu_box_blur_filled img hwf.covered
  refine ⟨_, hout, rfl, rfl, rfl, hlen, ?_⟩
  intro x y c hx0 hx hy0 hy hc0 hc
  obtain ⟨hW, hH, hC, hL⟩ := hwf.covered.natShape
  obtain ⟨hw, hh, hch, hlen', hb, _⟩ := hwf
  obtain ⟨X, rfl⟩ := Int.eq_ofNat_of_zero_le hx0
  obtain ⟨Y, rfl⟩ := Int.eq_ofNat_of_zero_le hy0
  obtain ⟨C, rfl⟩ := Int.eq_ofNat_of_zero_le hc0
  have hC3 : img.channels.toNat = 3 := by omega
  have hX : X < img.width.toNat := by omega
  have hY : Y < img.height.toNat := by omega
  have hCn : C < img.channels.toNat := by omega
  have hidx : (((Y : Int) * img.width + X) * 3 + C).toNat =
      (Y * img.width.toNat + X) * img.channels.toNat + C := by
    conv_lhs => rw [hW]
    have : (((Y : Int) * (img.width.toNat : Int) + X) * 3 + C) =
        (((Y * img.width.toNat + X) * img.channels.toNat + C : Nat) : Int) := by
      rw [hC3]; push_cast; ring
    rw [this, Int.toNat_natCast]
  obtain ⟨d1, d2, d3⟩ := raster_decompose (W := img.width.toNat) (y := Y) hX hCn
  have hlt := raster_byte_lt hY hX hCn
  have := hfill ((Y * img.width.toNat + X) * img.channels.toNat + C) hlt
  simp only [d1, d2, d3] at this
  rw [hidx, this, hch, intToByte_tdiv _ (boxSum_le _ hb _ _ _ _ _ _)]
  rfl

theorem cpu_box_blur_spec_witness :
    Image.WellFormed ⟨2, 2, 3, [0, 10, 20, 30, 40, 50, 60, 70, 80, 90, 100, 255]⟩ ∧
    ∃ out, cpu_box_blur ⟨2, 2, 3, [0, 10, 20, 30, 40, 50, 60, 70, 80, 90, 100, 255]⟩ = some out ∧
      out.width = 2 ∧ out.height = 2 ∧ out.channels = 3 ∧ out.pixels.length = 12 ∧
      ∀ x y c : Int, 0 ≤ x → x < 2 → 0 ≤ y → y < 2 → 0 ≤ c → c < 3 →
        out.pixels[((y * 2 + x) * 3 + c).toNat]? =
          some (boxMean [0, 10, 20, 30, 40, 50, 60, 70, 80, 90, 100, 255] 2 2 3 x y c) :=
  ⟨by decide,
    cpu_box_blur_spec ⟨2, 2, 3, [0, 10, 20, 30, 40, 50, 60, 70, 80, 90, 100, 255]⟩ (by decide)⟩

theorem byteAt_mem (px : List Nat) (w h ch x y c : Int) (hx0 : 0 ≤ x) (hx : x < w)
    (hy0 : 0 ≤ y) (hy : y < h) (hc0 : 0 ≤ c) (hc : c < ch)
    (hlen : w * h * ch ≤ (px.length : Int)) :
    byteAt px w ch x y c ∈ px := by
  have hr := pixel_index_range hx0 hx hy0 hy hc0 hc
  have hlt : ((y * w + x) * ch + c).toNat < px.length := by omega
  unfold byteAt
  rw [List.getD_eq_getElem?_getD, List.getElem?_eq_getElem hlt]
  exact List.getElem_mem _

theorem boxSum_const (px : List Nat) (w h : Int) (hw : 0 < w) (hh : 0 < h) (v : Nat)
    (hlen : (px.length : Int) = w * h * 3) (hall : ∀ p ∈ px, p = v) (x y c : Int) (hc0 : 0 ≤ c)
    (hc : c < 3) : boxSum px w h 3 x y c = 9 * v := by
  have key : ∀ x y : Int, byteAt px w 3 (clampEdge x w) (clampEdge y h) c = v := by
    intro x y
    have hx := clampEdge_range x w hw
    have hy := clampEdge_range y h hh
    exact hall _ (byteAt_mem px w h 3 _ _ c hx.1 hx.2 hy.1 hy.2 hc0 hc (by omega))
  simp only [boxSum, kernelOffsets, List.map, List.sum_cons, List.sum_nil, key]
  omega

/-- Claim C6.  On a well-formed image (its byte count `width * height * 3` being an `int`
value) whose bytes are all 255, `cpu_box_blur` returns an image of the same shape whose
bytes are all 255: the output equals the input, corner and edge pixels included. -/
theorem cpu_box_blur_white (img : Image) (hwf : img.WellFormed)
    (hall : ∀ p ∈ img.pixels, p = 255) :
    ∃ out, cpu_box_blur img = some out ∧ out.pixels.length = img.pixels.length ∧
      (∀ p ∈ out.pixels, p = 255) ∧ out = img := by
  obtain ⟨out, hout, hlen, hfill⟩ := cpu_box_blur_filled img hwf.covered
  obtain ⟨hW, hH, hC, hLn⟩ := hwf.covered.natShape
  obtain ⟨hw, hh, hch, hL, hb, _⟩ := hwf
  have hC3 : img.channels.toNat = 3 := by omega
  have hWn : img.pixels.length = img.height.toNat * img.width.toNat * img.channels.toNat := by
    have : (img.pixels.length : Int) =
        ((img.height.toNat * img.width.toNat * img.channels.toNat : Nat) : Int) := by
      push_cast; rw [← hW, ← hH, ← hC, hL, hch]; ring
    exact_mod_cast this
  have hall' : ∀ p ∈ out, p = 255 := by
    intro p hp
    obtain ⟨j, hj⟩ := List.mem_iff_getElem?.mp hp
    have hjl : j < out.length := by
      by_contra hcon
      rw [List.getElem?_eq_none (by omega)] at hj
      exact Option.noConfusion hj
    have h1 := hfill j (by omega)
    rw [hj] at h1
    have hc3 : ((j % img.channels.toNat : Nat) : Int) < 3 := by
      have := Nat.mod_lt j (show 0 < img.channels.toNat by omega)
      omega
    have hsum : ∀ x y c : Int, 0 ≤ c → c < 3 →
        boxSum img.pixels img.width img.height img.channels x y c = 9 * 255 := by
      intro x y c h0 h3
      rw [hch]
      exact boxSum_const _ _ _ hw hh 255 hL hall _ _ _ h0 h3
    rw [Option.some.inj h1]
    beta_reduce
    rw [hsum _ _ _ (by omega) hc3]
    decide
  have heq : out = img.pixels := by
    apply List.ext_getElem (by omega)
    intro n h1 h2
    rw [hall' _ (List.getElem_mem _), hall _ (List.getElem_mem _)]
  refine ⟨_, hout, hlen, hall', ?_⟩
  rw [heq]

theorem cpu_box_blur_white_witness :
    Image.WellFormed ⟨3, 3, 3, List.replicate 27 255⟩ ∧
    (∀ p ∈ (⟨3, 3, 3, List.replicate 27 255⟩ : Image).pixels, p = 255) ∧
    ∃ out, cpu_box_blur ⟨3, 3, 3, List.replicate 27 255⟩ = some out ∧
      out.pixels.length = 27 ∧ (∀ p ∈ out.pixels, p = 255) ∧
      out = ⟨3, 3, 3, List.replicate 27 255⟩ :=
  ⟨by decide, by decide,
    cpu_box_blur_white ⟨3, 3, 3, List.replicate 27 255⟩ (by decide) (by decide)⟩

/-! ## Rounding to binary32 -/

theorem roundHalfEven_cases (q : ℚ) :
    (roundHalfEven q = ⌊q⌋ ∧ q - ⌊q⌋ ≤ 1 / 2) ∨ (roundHalfEven q = ⌊q⌋ + 1 ∧ 1 / 2 ≤ q - ⌊q⌋) := by
  unfold roundHalfEven
  simp only
  split_ifs with h1 h2 h3
  · left; exact ⟨rfl, h1.le⟩
  · right; exact ⟨rfl, h2.le⟩
  · left; exact ⟨rfl, not_lt.mp h2⟩
  · right; exact ⟨rfl, not_lt.mp h1⟩

theorem roundHalfEven_nearest (q : ℚ) (j : Int) :
    |(roundHalfEven q : ℚ) - q| ≤ |(j : ℚ) - q| := by
  have hfl := Int.floor_le q
  have hlt := Int.lt_floor_add_one q
  have hj : j ≤ ⌊q⌋ ∨ ⌊q⌋ + 1 ≤ j := by omega
  have hjq : (j : ℚ) ≤ ⌊q⌋ ∨ ((⌊q⌋ : ℚ) + 1 ≤ j) := by
    rcases hj with h | h
    · left; exact_mod_cast h
    · right; exact_mod_cast h
  rcases roundHalfEven_cases q with ⟨h, hr⟩ | ⟨h, hr⟩
  · rw [h, abs_le]
    rcases hjq with h' | h'
    · have := neg_le_abs ((j : ℚ) - q)
      constructor <;> linarith
    · have := le_abs_self ((j : ℚ) - q)
      constructor <;> linarith
  · rw [h, abs_le]
    push_cast
    rcases hjq with h' | h'
    · have := neg_le_abs ((j : ℚ) - q)
      constructor <;> linarith
    · have := le_abs_self ((j : ℚ) - q)
      constructor <;> linarith

theorem ulpExp_ge (q : ℚ) : -149 ≤ ulpExp q := by
  unfold ulpExp
  have := le_max_right (Int.log 2 |q|) (-126)
  omega

theorem two_zpow_pos (e : Int) : (0 : ℚ) < 2 ^ e := zpow_pos (by norm_num) e

theorem abs_lt_ulp (q : ℚ) : |q| < 2 ^ (ulpExp q + 24) := by
  have h1 := Int.lt_zpow_succ_log_self (b := 2) (by norm_num) |q|
  rw [Nat.cast_ofNat] at h1
  refine lt_of_lt_of_le h1 (zpow_le_zpow_right₀ (by norm_num) ?_)
  unfold ulpExp
  have := le_max_left (Int.log 2 |q|) (-126)
  omega

theorem roundToF32_representable (q : ℚ) : Representable (roundToF32 q) := by
  refine ⟨roundHalfEven (q / 2 ^ ulpExp q), ulpExp q, ?_, ulpExp_ge q, rfl⟩
  have hpos := two_zpow_pos (ulpExp q)
  have hlt : |q / 2 ^ ulpExp q| < 2 ^ 24 := by
    rw [abs_div, abs_of_pos hpos, div_lt_iff₀ hpos]
    have := abs_lt_ulp q
    rw [zpow_add₀ (by norm_num)] at this
    rw [mul_comm]
    exact_mod_cast this
  rw [abs_lt] at hlt
  have h1 : ⌊q / 2 ^ ulpExp q⌋ < 2 ^ 24 := by
    rw [Int.floor_lt]; exact_mod_cast hlt.2
  have h2 : -(2 ^ 24 : Int) ≤ ⌊q / 2 ^ ulpExp q⌋ := by
    rw [Int.le_floor]; push_cast; exact hlt.1.le
  rw [abs_le]
  rcases roundHalfEven_cases (q / 2 ^ ulpExp q) with ⟨h, _⟩ | ⟨h, _⟩ <;> rw [h] <;>
    constructor <;> omega


theorem roundToF32_zero : roundToF32 0 = 0 := by
  unfold roundToF32 roundHalfEven
  simp

theorem roundToF32_grid (x : ℚ) (j : Int) :
    |roundToF32 x - x| ≤ |(j : ℚ) * 2 ^ ulpExp x - x| := by
  have hpos := two_zpow_pos (ulpExp x)
  have h := roundHalfEven_nearest (x / 2 ^ ulpExp x) j
  have e1 : roundToF32 x - x =
      ((roundHalfEven (x / 2 ^ ulpExp x) : ℚ) - x / 2 ^ ulpExp x) * 2 ^ ulpExp x := by
    unfold roundToF32; field_simp
  have e2 : (j : ℚ) * 2 ^ ulpExp x - x = ((j : ℚ) - x / 2 ^ ulpExp x) * 2 ^ ulpExp x := by
    field_simp
  rw [e1, e2, abs_mul, abs_mul, abs_of_pos hpos]
  exact mul_le_mul_of_nonneg_right h hpos.le

theorem roundToF32_nearest (x f : ℚ) (hf : Representable f) :
    |roundToF32 x - x| ≤ |f - x| := by
  obtain ⟨m, e, hm, he, rfl⟩ := hf
  by_cases hx0 : x = 0
  · subst hx0; simp [roundToF32_zero]
  by_cases hle : ulpExp x ≤ e
  · -- `f` is on the grid of spacing `2 ^ ulpExp x`
    obtain ⟨k, hk⟩ := Int.eq_ofNat_of_zero_le (sub_nonneg.mpr hle)
    have hsplit : (m : ℚ) * 2 ^ e = ((m * 2 ^ k : Int) : ℚ) * 2 ^ ulpExp x := by
      have : e = (k : Int) + ulpExp x := by omega
      rw [this, zpow_add₀ (by norm_num), zpow_natCast]
      push_cast; ring
    rw [hsplit]
    exact roundToF32_grid x _
  · -- `f` is finer than the grid at `x`, hence below the binade of `x`
    push_neg at hle
    have hxpos : 0 < |x| := abs_pos.mpr hx0
    have hL : ulpExp x = Int.log 2 |x| - 23 := by
      have h1 := ulpExp_ge x
      unfold ulpExp at *
      rcases max_cases (Int.log 2 |x|) (-126) with ⟨h, _⟩ | ⟨h, _⟩
      · rw [h]
      · rw [h] at *; omega
    have hlow : (2 : ℚ) ^ (Int.log 2 |x|) ≤ |x| := by
      have := Int.zpow_log_le_self (b := 2) (by norm_num) hxpos
      rwa [Nat.cast_ofNat] at this
    have hfabs : |(m : ℚ) * 2 ^ e| ≤ 2 ^ (Int.log 2 |x|) := by
      rw [abs_mul, abs_of_pos (two_zpow_pos e)]
      have hm' : |(m : ℚ)| ≤ 2 ^ (24 : Int) := by
        have : ((|m| : Int) : ℚ) ≤ ((2 ^ 24 : Int) : ℚ) := by exact_mod_cast hm
        rw [Int.cast_abs] at this
        rw [show ((2 : ℚ) ^ (24 : Int)) = ((2 ^ 24 : Int) : ℚ) by norm_num]
        exact this
      calc |(m : ℚ)| * 2 ^ e ≤ 2 ^ (24 : Int) * 2 ^ e :=
            mul_le_mul_of_nonneg_right hm' (two_zpow_pos e).le
        _ = 2 ^ (24 + e) := by rw [zpow_add₀ (by norm_num)]
        _ ≤ 2 ^ (Int.log 2 |x|) := zpow_le_zpow_right₀ (by norm_num) (by omega)
    have hpow : (2 : ℚ) ^ (Int.log 2 |x|) = ((2 ^ 23 : Int) : ℚ) * 2 ^ ulpExp x := by
      have : Int.log 2 |x| = (23 : Int) + ulpExp x := by omega
      rw [this, zpow_add₀ (by norm_num)]
      norm_num
    rcases lt_or_gt_of_ne hx0 with hneg | hpos
    · have hg := roundToF32_grid x (-(2 ^ 23 : Int))
      rw [Int.cast_neg, neg_mul, ← hpow] at hg
      have hlow := le_trans hlow (le_of_eq (abs_of_neg hneg))
      have h1 := neg_abs_le ((m : ℚ) * 2 ^ e)
      have h2 := le_abs_self ((m : ℚ) * 2 ^ e - x)
      refine le_trans hg ?_
      rw [abs_of_nonneg (by linarith)]
      linarith
    · have hg := roundToF32_grid x (2 ^ 23 : Int)
      rw [← hpow] at hg
      have hlow := le_trans hlow (le_of_eq (abs_of_pos hpos))
      have h1 := le_abs_self ((m : ℚ) * 2 ^ e)
      have h2 := neg_le_abs ((m : ℚ) * 2 ^ e - x)
      refine le_trans hg ?_
      rw [abs_of_nonpos (by linarith)]
      linarith

theorem roundToF32_exact (x : ℚ) (hx : Representable x) : roundToF32 x = x := by
  have := roundToF32_nearest x x hx
  simp at this
  linarith [sub_eq_zero.mp this]

theorem roundToF32_le (x f : ℚ) (hf : Representable f) (h : x ≤ f) : roundToF32 x ≤ f := by
  by_contra hcon
  push_neg at hcon
  have := roundToF32_nearest x f hf
  rw [abs_of_pos (by linarith), abs_of_nonneg (by linarith)] at this
  linarith

theorem roundToF32_ge (x f : ℚ) (hf : Representable f) (h : f ≤ x) : f ≤ roundToF32 x := by
  by_contra hcon
  push_neg at hcon
  have := roundToF32_nearest x f hf
  rw [abs_of_neg (by linarith), abs_of_nonpos (by linarith)] at this
  linarith


theorem representable_dyadic (m : Int) (k : Nat) (hm : |m| ≤ 2 ^ 24) (hk : k ≤ 149) :
    Representable ((m : ℚ) / 2 ^ k) := by
  refine ⟨m, -(k : Int), hm, by omega, ?_⟩
  rw [zpow_neg, zpow_natCast, div_eq_mul_inv]

theorem representable_int (m : Int) (hm : |m| ≤ 2 ^ 24) : Representable (m : ℚ) := by
  have := representable_dyadic m 0 hm (by omega)
  simpa using this

theorem representable_nat (n : Nat) (hn : n ≤ 2 ^ 24) : Representable (n : ℚ) := by
  have := representable_int (n : Int) (by rw [abs_of_nonneg (by omega)]; exact_mod_cast hn)
  simpa using this

theorem representable_neg {q : ℚ} (h : Representable q) : Representable (-q) := by
  obtain ⟨m, e, hm, he, rfl⟩ := h
  exact ⟨-m, e, by rwa [abs_neg], he, by push_cast; ring⟩

/-- The rounding error at magnitude at most `2^k`. -/
theorem roundToF32_err (x : ℚ) (k : Int) (hk : -125 ≤ k) (hx : |x| ≤ 2 ^ k) :
    |roundToF32 x - x| ≤ 2 ^ (k - 24) := by
  have hpos := two_zpow_pos (k - 24)
  have hsplit : (2 : ℚ) ^ k = 2 ^ (24 : Int) * 2 ^ (k - 24) := by
    rw [← zpow_add₀ (by norm_num)]; congr 1; omega
  have hy : |x / 2 ^ (k - 24)| ≤ 2 ^ (24 : Int) := by
    rw [abs_div, abs_of_pos hpos, div_le_iff₀ hpos, ← hsplit]; exact hx
  rw [abs_le] at hy
  have hfl1 := Int.floor_le (x / 2 ^ (k - 24))
  have hfl2 := Int.lt_floor_add_one (x / 2 ^ (k - 24))
  have hm : |⌊x / 2 ^ (k - 24)⌋| ≤ 2 ^ 24 := by
    rw [abs_le]
    constructor
    · rw [Int.le_floor]; push_cast; norm_num at hy ⊢; exact hy.1
    · have : ((⌊x / 2 ^ (k - 24)⌋ : Int) : ℚ) ≤ ((2 ^ 24 : Int) : ℚ) := by
        push_cast; norm_num at hy ⊢; linarith [hy.2]
      exact_mod_cast this
  have hrep : Representable ((⌊x / 2 ^ (k - 24)⌋ : ℚ) * 2 ^ (k - 24)) :=
    ⟨_, k - 24, hm, by omega, rfl⟩
  refine le_trans (roundToF32_nearest x _ hrep) ?_
  have e1 : (⌊x / 2 ^ (k - 24)⌋ : ℚ) * 2 ^ (k - 24) - x =
      ((⌊x / 2 ^ (k - 24)⌋ : ℚ) - x / 2 ^ (k - 24)) * 2 ^ (k - 24) := by field_simp
  rw [e1, abs_mul, abs_of_pos hpos]
  have : |(⌊x / 2 ^ (k - 24)⌋ : ℚ) - x / 2 ^ (k - 24)| ≤ 1 := by
    rw [abs_le]; constructor <;> linarith
  calc _ ≤ 1 * (2 : ℚ) ^ (k - 24) := mul_le_mul_of_nonneg_right this hpos.le
    _ = _ := one_mul _

theorem representable_two_pow_127 : Representable ((2 : ℚ) ^ (127 : Nat)) :=
  ⟨1, 127, by norm_num, by norm_num, by norm_num⟩

/-- No overflow below `2^127`: the rounded value is the result. -/
theorem F32.ofRat_fin (x : ℚ) (hx : |x| ≤ 2 ^ (127 : Nat)) :
    F32.ofRat x = F32.fin (roundToF32 x) := by
  rw [abs_le] at hx
  have h1 := roundToF32_le x _ representable_two_pow_127 hx.2
  have h2 := roundToF32_ge x _ (representable_neg representable_two_pow_127) hx.1
  have : ¬ (2 : ℚ) ^ 128 ≤ |roundToF32 x| := by
    rw [not_le, abs_lt]
    constructor
    · refine lt_of_lt_of_le ?_ h2; norm_num
    · refine lt_of_le_of_lt h1 ?_; norm_num
  simp [F32.ofRat, this]

theorem F32.ofRat_exact (x : ℚ) (hr : Representable x) (hx : |x| ≤ 2 ^ (127 : Nat)) :
    F32.ofRat x = F32.fin x := by
  rw [F32.ofRat_fin x hx, roundToF32_exact x hr]


theorem F32.fin_add (a b : ℚ) : F32.fin a + F32.fin b = F32.ofRat (a + b) := rfl

theorem F32.fin_sub (a b : ℚ) : F32.fin a - F32.fin b = F32.ofRat (a - b) := by
  show F32.ofRat (a + -b) = _
  rw [sub_eq_add_neg]

theorem F32.fin_mul (a b : ℚ) : F32.fin a * F32.fin b = F32.ofRat (a * b) := rfl

theorem F32.fin_div (a b : ℚ) (hb : b ≠ 0) : F32.fin a / F32.fin b = F32.ofRat (a / b) := by
  show F32.div _ _ = _
  simp [F32.div, hb]

theorem F32.clamp_fin (q a b : ℚ) :
    F32.clamp (F32.fin q) (F32.fin a) (F32.fin b) =
      F32.fin (if q < a then a else if b < q then b else q) := by
  unfold F32.clamp F32.lt
  by_cases h1 : q < a
  · simp [h1]
  · by_cases h2 : b < q <;> simp [h1, h2]

theorem F32.lit_nat (n : Nat) (hn : n ≤ 2 ^ 24) : F32.lit (n : ℚ) = F32.fin n := by
  apply F32.ofRat_exact _ (representable_nat n hn)
  rw [abs_of_nonneg (by positivity)]
  calc (n : ℚ) ≤ ((2 ^ 24 : Nat) : ℚ) := by exact_mod_cast hn
    _ ≤ 2 ^ 127 := by norm_num

theorem F32.lit_zero : F32.lit 0 = F32.fin 0 := by
  simpa using F32.lit_nat 0 (by norm_num)

theorem F32.lit_one : F32.lit 1 = F32.fin 1 := by
  simpa using F32.lit_nat 1 (by norm_num)

theorem F32.lit_255 : F32.lit 255 = F32.fin 255 := by
  simpa using F32.lit_nat 255 (by norm_num)

theorem F32.lit_half : F32.lit (1 / 2) = F32.fin (1 / 2) := by
  apply F32.ofRat_exact
  · simpa using representable_dyadic 1 1 (by norm_num) (by norm_num)
  · norm_num [abs_of_pos]

theorem F32.ofInt_nat (n : Nat) (hn : n ≤ 2 ^ 24) : F32.ofInt (n : Int) = F32.fin n := by
  have := F32.lit_nat n hn
  simpa [F32.lit, F32.ofInt] using this

theorem F32.toByte_lt (ub : F32 → Nat) (v : F32) : F32.toByte ub v < 256 := by
  unfold F32.toByte
  split
  · simp only
    split_ifs <;> omega
  · exact Nat.mod_lt _ (by norm_num)

theorem clamp_byte_lt (ub : F32 → Nat) (v : F32) : clamp_byte ub v < 256 :=
  F32.toByte_lt ub _

/-- A value within `2/5` of a byte `g` is stored as `g`. -/
theorem clamp_byte_near (ub : F32 → Nat) (q : ℚ) (g : Nat) (hg : g ≤ 255)
    (h1 : (g : ℚ) - 2 / 5 ≤ q) (h2 : q ≤ g + 2 / 5) : clamp_byte ub (F32.fin q) = g := by
  have hg0 : (0 : ℚ) ≤ g := by positivity
  have hg1 : (g : ℚ) ≤ 255 := by exact_mod_cast hg
  unfold clamp_byte
  simp only [F32.lit_zero, F32.lit_255, F32.lit_half, F32.clamp_fin, F32.fin_add]
  set q' : ℚ := if q < 0 then 0 else if 255 < q then 255 else q with hq'
  have hb : (g : ℚ) - 2 / 5 ≤ q' ∧ q' ≤ g + 2 / 5 := by
    rw [hq']; split_ifs <;> constructor <;> linarith
  have habs : |q' + 1 / 2| ≤ 2 ^ (127 : Nat) := by
    rw [abs_le]; constructor
    · linarith
    · calc q' + 1 / 2 ≤ 256 := by linarith
        _ ≤ 2 ^ 127 := by norm_num
  rw [F32.ofRat_fin _ habs]
  have hlo : (g : ℚ) ≤ roundToF32 (q' + 1 / 2) :=
    roundToF32_ge _ _ (representable_nat g (by omega)) (by linarith)
  have hrep : Representable (((16 * g + 15 : Nat) : Int) / 2 ^ 4 : ℚ) :=
    representable_dyadic _ 4 (by rw [abs_of_nonneg (by omega)]; omega) (by norm_num)
  have hhi : roundToF32 (q' + 1 / 2) ≤ (((16 * g + 15 : Nat) : Int) / 2 ^ 4 : ℚ) :=
    roundToF32_le _ _ hrep (by push_cast; linarith)
  have hfloor : ⌊roundToF32 (q' + 1 / 2)⌋ = (g : Int) := by
    rw [Int.floor_eq_iff]
    constructor
    · exact_mod_cast hlo
    · push_cast at hhi ⊢; linarith
  unfold F32.toByte
  simp only
  rw [if_pos (le_trans hg0 hlo), hfloor, if_pos ⟨by omega, by omega⟩]
  simp


theorem ulpExp_eq (q : ℚ) (L : Int) (hL : -126 ≤ L) (h1 : 2 ^ L ≤ |q|) (h2 : |q| < 2 ^ (L + 1)) :
    ulpExp q = L - 23 := by
  have hpos : 0 < |q| := lt_of_lt_of_le (two_zpow_pos L) h1
  have e1 : L ≤ Int.log 2 |q| := by
    rw [← Int.zpow_le_iff_le_log (by norm_num) hpos]; simpa using h1
  have e2 : Int.log 2 |q| < L + 1 := by
    rw [← Int.lt_zpow_iff_log_lt (by norm_num) hpos]; simpa using h2
  unfold ulpExp
  rw [max_eq_left (by omega)]
  omega

theorem roundHalfEven_eq (n : ℚ) (m : Int) (h : |n - m| < 1 / 2) : roundHalfEven n = m := by
  have h1 := roundHalfEven_nearest n m
  rw [abs_sub_comm (m : ℚ) n] at h1
  have h2 : |(roundHalfEven n : ℚ) - m| < 1 := by
    have hb := h
    rw [abs_lt] at h ⊢
    rw [abs_le] at h1
    constructor <;> linarith
  have h3 : |roundHalfEven n - m| < 1 := by exact_mod_cast h2
  rw [abs_lt] at h3
  omega

/-- Certificate for a rounding: `q` lies in the binade of `2^L` and within half a unit in
the last place of `m * 2^(L-23)`. -/
theorem roundToF32_eq (q : ℚ) (L m : Int) (hL : -126 ≤ L) (h1 : 2 ^ L ≤ |q|)
    (h2 : |q| < 2 ^ (L + 1)) (hm : |q / 2 ^ (L - 23) - m| < 1 / 2) :
    roundToF32 q = m * 2 ^ (L - 23) := by
  unfold roundToF32
  rw [ulpExp_eq q L hL h1 h2, roundHalfEven_eq _ m hm]

theorem roundToF32_within (x : ℚ) (n : Nat) (hx : |x| ≤ 2 ^ n) :
    |roundToF32 x - x| ≤ 2 ^ n / 2 ^ 24 := by
  have := roundToF32_err x (n : Int) (by omega) (by simpa using hx)
  have e : (2 : ℚ) ^ ((n : Int) - 24) = 2 ^ n / 2 ^ 24 := by
    rw [zpow_sub₀ (by norm_num), zpow_natCast]; norm_num
  rw [e] at this
  exact this

theorem F32.ofRat_small (x : ℚ) (hx : |x| ≤ 2 ^ 20) : F32.ofRat x = F32.fin (roundToF32 x) :=
  F32.ofRat_fin x (le_trans hx (by norm_num))

theorem F32.lit_299 : F32.lit (299 / 1000) = F32.fin (10032775 / 2 ^ 25) := by
  unfold F32.lit
  rw [F32.ofRat_small _ (by norm_num [abs_of_pos]),
    roundToF32_eq _ (-2) 10032775 (by norm_num) (by norm_num [abs_of_pos])
      (by norm_num [abs_of_pos]) (by norm_num [abs_lt])]
  norm_num

theorem F32.lit_587 : F32.lit (587 / 1000) = F32.fin (9848226 / 2 ^ 24) := by
  unfold F32.lit
  rw [F32.ofRat_small _ (by norm_num [abs_of_pos]),
    roundToF32_eq _ (-1) 9848226 (by norm_num) (by norm_num [abs_of_pos])
      (by norm_num [abs_of_pos]) (by norm_num [abs_lt])]
  norm_num

theorem F32.lit_114 : F32.lit (114 / 1000) = F32.fin (15300821 / 2 ^ 27) := by
  unfold F32.lit
  rw [F32.ofRat_small _ (by norm_num [abs_of_pos]),
    roundToF32_eq _ (-4) 15300821 (by norm_num) (by norm_num [abs_of_pos])
      (by norm_num [abs_of_pos]) (by norm_num [abs_lt])]
  norm_num

/-! ## Grayscale -/


/-- The luma computed by `to_gray` on three bytes is finite, on the binary32 grid, and
within `1/1000` of `0.299 r + 0.587 g + 0.114 b`. -/
theorem to_gray_spec (r g b : Nat) (hr : r ≤ 255) (hg : g ≤ 255) (hb : b ≤ 255) :
    ∃ q, to_gray r g b = F32.fin q ∧ Representable q ∧
      |q - (299 * r + 587 * g + 114 * b) / 1000| ≤ 1 / 1000 := by
  have hr0 : (0 : ℚ) ≤ r := by positivity
  have hg0 : (0 : ℚ) ≤ g := by positivity
  have hb0 : (0 : ℚ) ≤ b := by positivity
  have hr1 : (r : ℚ) ≤ 255 := by exact_mod_cast hr
  have hg1 : (g : ℚ) ≤ 255 := by exact_mod_cast hg
  have hb1 : (b : ℚ) ≤ 255 := by exact_mod_cast hb
  unfold to_gray
  rw [F32.lit_299, F32.lit_587, F32.lit_114, F32.ofInt_nat r (by omega),
    F32.ofInt_nat g (by omega), F32.ofInt_nat b (by omega)]
  simp only [F32.fin_mul]
  have hA := roundToF32_within (10032775 / 2 ^ 25 * r) 7
    (by rw [abs_le]; constructor <;> norm_num <;> linarith)
  have hB := roundToF32_within (9848226 / 2 ^ 24 * g) 8
    (by rw [abs_le]; constructor <;> norm_num <;> linarith)
  have hC := roundToF32_within (15300821 / 2 ^ 27 * b) 5
    (by rw [abs_le]; constructor <;> norm_num <;> linarith)
  rw [abs_le] at hA hB hC
  norm_num at hA hB hC
  rw [F32.ofRat_small (10032775 / 2 ^ 25 * r)
      (by rw [abs_le]; constructor <;> norm_num <;> linarith),
    F32.ofRat_small (9848226 / 2 ^ 24 * g)
      (by rw [abs_le]; constructor <;> norm_num <;> linarith),
    F32.ofRat_small (15300821 / 2 ^ 27 * b)
      (by rw [abs_le]; constructor <;> norm_num <;> linarith)]
  set A := roundToF32 (10032775 / 2 ^ 25 * r) with hAdef
  set B := roundToF32 (9848226 / 2 ^ 24 * g) with hBdef
  set C := roundToF32 (15300821 / 2 ^ 27 * b) with hCdef
  simp only [F32.fin_add]
  have hAB : |A + B| ≤ 2 ^ 8 := by
    rw [abs_le]; norm_num at hA hB ⊢; constructor <;> linarith
  rw [F32.ofRat_small (A + B) (le_trans hAB (by norm_num))]
  have hS := roundToF32_within (A + B) 8 hAB
  rw [abs_le] at hS
  norm_num at hS
  set S := roundToF32 (A + B) with hSdef
  simp only [F32.fin_add]
  have hSC : |S + C| ≤ 2 ^ 9 := by
    rw [abs_le]; norm_num at hA hB hC hS ⊢; constructor <;> linarith
  rw [F32.ofRat_small (S + C) (le_trans hSC (by norm_num))]
  have hT := roundToF32_within (S + C) 9 hSC
  rw [abs_le] at hT
  norm_num at hT
  refine ⟨_, rfl, roundToF32_representable _, ?_⟩
  rw [abs_le]
  norm_num at hA hB hC hS hT ⊢
  constructor <;> linarith


theorem grayDone_succ (C k j : Nat) (hC : 3 ≤ C) :
    grayDone C (k + 1) j =
      (((grayDone C k j || decide (j = k * C + 2)) || decide (j = k * C + 1)) ||
        decide (j = k * C)) := by
  unfold grayDone
  rw [Bool.eq_iff_iff]
  simp only [Bool.or_eq_true, decide_eq_true_eq, Nat.succ_mul]
  by_cases h1 : j < k * C
  · omega
  · by_cases h2 : j < k * C + C
    · have := (block_div_mod (k := k) (C := C) (j := j) (by omega)
        (by rw [Nat.succ_mul]; exact h2)).2
      omega
    · omega

theorem grayscalePixel_step (ub : F32 → Nat) (img : Image) (hcov : img.Covered) (y x : Nat)
    (hy : y < img.height.toNat) (hx : x < img.width.toNat) (px : List Nat)
    (h : RewrittenTo img.pixels
      (fun j => grayAt ub img.pixels img.channels.toNat (j / img.channels.toNat))
      (grayDone img.channels.toNat (y * img.width.toNat + x)) px) :
    ∃ px', grayscalePixel ub img x y px = some px' ∧
      RewrittenTo img.pixels
        (fun j => grayAt ub img.pixels img.channels.toNat (j / img.channels.toNat))
        (grayDone img.channels.toNat (y * img.width.toNat + x + 1)) px' := by
  obtain ⟨hW, hH, hC, hL⟩ := hcov.natShape
  have hC3 : 3 ≤ img.channels.toNat := by have := hcov.2.2.1; omega
  set C := img.channels.toNat with hCdef
  set W := img.width.toNat with hWdef
  set k := y * W + x with hkdef
  have hk : k < img.height.toNat * W := raster_lt hy hx
  have hkC : (k + 1) * C ≤ img.height.toNat * W * C := Nat.mul_le_mul_right C hk
  rw [Nat.succ_mul] at hkC
  have e0 : ((y : Int) * img.width + x) * img.channels = ((k * C : Nat) : Int) := by
    rw [hW, hC, hkdef]; push_cast; ring
  have hnd : ∀ i, i < 3 → grayDone C k (k * C + i) = false := by
    intro i _
    simp [grayDone]
  have r0 := h.read (k * C) (by omega) (by simpa using hnd 0 (by omega)) _ e0
  have r1 := h.read (k * C + 1) (by omega) (hnd 1 (by omega))
    (((y : Int) * img.width + x) * img.channels + 1) (by rw [e0]; push_cast; ring)
  have r2 := h.read (k * C + 2) (by omega) (hnd 2 (by omega))
    (((y : Int) * img.width + x) * img.channels + 2) (by rw [e0]; push_cast; ring)
  have hf : ∀ i, i < 3 →
      clamp_byte ub (to_gray (img.pixels.getD (k * C) 0) (img.pixels.getD (k * C + 1) 0)
        (img.pixels.getD (k * C + 2) 0)) =
        (fun j => grayAt ub img.pixels C (j / C)) (k * C + i) := by
    intro i hi
    have := (block_div_mod (k := k) (C := C) (j := k * C + i) (by omega)
      (by rw [Nat.succ_mul]; omega)).1
    simp only [this]
    rfl
  obtain ⟨p1, w1, h1⟩ := h.write (D := fun j => grayDone C k j || decide (j = k * C + 2))
    (k * C + 2) (by omega) (fun j _ => rfl)
    (((y : Int) * img.width + x) * img.channels + 2) (by rw [e0]; push_cast; ring) _
    (hf 2 (by omega))
  obtain ⟨p2, w2, h2⟩ := h1.write
    (D := fun j => (grayDone C k j || decide (j = k * C + 2)) || decide (j = k * C + 1))
    (k * C + 1) (by omega) (fun j _ => rfl)
    (((y : Int) * img.width + x) * img.channels + 1) (by rw [e0]; push_cast; ring) _
    (hf 1 (by omega))
  obtain ⟨p3, w3, h3⟩ := h2.write (D := grayDone C (k + 1))
    (k * C) (by omega) (fun j _ => grayDone_succ C k j hC3)
    (((y : Int) * img.width + x) * img.channels) e0 _
    (hf 0 (by omega))
  have hx0 : (0 : Int) ≤ (x : Int) := Int.natCast_nonneg x
  have hy0 : (0 : Int) ≤ (y : Int) := Int.natCast_nonneg y
  have hxw : (x : Int) < img.width := by rw [hW]; exact_mod_cast hx
  have hyh : (y : Int) < img.height := by rw [hH]; exact_mod_cast hy
  have hch := hcov.2.2.1
  refine ⟨p3, ?_, h3⟩
  simp only [grayscalePixel, pixelIndex_eq img hcov hx0 hxw hy0 hyh,
    pixelOffset_eq img hcov hx0 hxw hy0 hyh (c := 1) (by omega) (by omega),
    pixelOffset_eq img hcov hx0 hxw hy0 hyh (c := 2) (by omega) (by omega),
    r0, r1, r2, w1, w2, w3, bind, Option.bind]

/-- The buffer `cpu_grayscale` returns on a covered image, byte by byte. -/
theorem cpu_grayscale_rewritten (ub : F32 → Nat) (img : Image) (hcov : img.Covered) :
    ∃ out, cpu_grayscale ub img = some { img with pixels := out } ∧
      RewrittenTo img.pixels
        (fun j => grayAt ub img.pixels img.channels.toNat (j / img.channels.toNat))
        (grayDone img.channels.toNat (img.height.toNat * img.width.toNat)) out := by
  obtain ⟨t, ht, hInv⟩ := forLoop_raster img.height.toNat img.width.toNat
    (fun k px => RewrittenTo img.pixels
        (fun j => grayAt ub img.pixels img.channels.toNat (j / img.channels.toNat))
        (grayDone img.channels.toNat k) px)
    (fun y x px => grayscalePixel ub img x y px)
    (fun y x px hy hx hInv => grayscalePixel_step ub img hcov y x hy hx px hInv)
    img.pixels (RewrittenTo.init _ _ _ (by intro j _; simp [grayDone]))
  refine ⟨t, ?_, hInv⟩
  simp only [cpu_grayscale, ht, bind, Option.bind, pure]


/-- Natural-number reading of the shape of a well-formed image. -/
theorem Image.WellFormed.natShape3 {img : Image} (h : img.WellFormed) :
    img.width = (img.width.toNat : Int) ∧ img.height = (img.height.toNat : Int) ∧
      img.channels.toNat = 3 ∧
      img.pixels.length = img.height.toNat * img.width.toNat * 3 := by
  obtain ⟨hW, hH, hC, _⟩ := h.covered.natShape
  obtain ⟨hw, hh, hch, hlen, _, _⟩ := h
  refine ⟨hW, hH, by omega, ?_⟩
  have : (img.pixels.length : Int) = ((img.height.toNat * img.width.toNat * 3 : Nat) : Int) := by
    push_cast; rw [← hW, ← hH, hlen]; ring
  exact_mod_cast this

/-- On a well-formed image `cpu_grayscale` succeeds and every byte of pixel `p` becomes the
luma byte of the original pixel `p`. -/
theorem cpu_grayscale_wf (ub : F32 → Nat) (img : Image) (hwf : img.WellFormed) :
    ∃ out, cpu_grayscale ub img = some { img with pixels := out } ∧
      out.length = img.pixels.length ∧
      ∀ j, j < img.pixels.length → out[j]? = some (grayAt ub img.pixels 3 (j / 3)) := by
  obtain ⟨out, hout, hlen, hpt⟩ := cpu_grayscale_rewritten ub img hwf.covered
  obtain ⟨_, _, hC3, hL⟩ := hwf.natShape3
  refine ⟨out, hout, hlen, fun j hj => ?_⟩
  have := hpt j hj
  rw [hC3] at this
  have hd : grayDone 3 (img.height.toNat * img.width.toNat) j = true := by
    simp only [grayDone, decide_eq_true_eq]
    omega
  rw [hd] at this
  simpa using this

/-- The byte stored for a pixel whose luma `0.299 r + 0.587 g + 0.114 b` is within
`0.399` of the integer `v`. -/
theorem clamp_byte_to_gray (ub : F32 → Nat) (r g b v : Nat) (hr : r ≤ 255) (hg : g ≤ 255)
    (hb : b ≤ 255) (hv : v ≤ 255)
    (h1 : (v : ℚ) - 399 / 1000 ≤ (299 * r + 587 * g + 114 * b) / 1000)
    (h2 : ((299 * r + 587 * g + 114 * b) / 1000 : ℚ) ≤ v + 399 / 1000) :
    clamp_byte ub (to_gray r g b) = v := by
  obtain ⟨q, hq, _, herr⟩ := to_gray_spec r g b hr hg hb
  rw [hq]
  rw [abs_le] at herr
  exact clamp_byte_near ub q v hv (by linarith) (by linarith)

theorem clamp_byte_to_gray_self (ub : F32 → Nat) (g : Nat) (hg : g ≤ 255) :
    clamp_byte ub (to_gray g g g) = g :=
  clamp_byte_to_gray ub g g g g hg hg hg hg (by ring_nf; linarith) (by ring_nf; linarith)

theorem grayAt_lt (ub : F32 → Nat) (px : List Nat) (ch p : Nat) : grayAt ub px ch p < 256 :=
  clamp_byte_lt ub _

/-- Idempotence of `cpu_grayscale` on the buffer level. -/
theorem cpu_grayscale_twice (ub : F32 → Nat) (img : Image) (hwf : img.WellFormed) :
    ∃ once, cpu_grayscale ub img = some once ∧ once.WellFormed ∧
      cpu_grayscale ub once = some once := by
  obtain ⟨out, hout, hlen, hpt⟩ := cpu_grayscale_wf ub img hwf
  have hnat := hwf.natShape3
  have hwf1 : Image.WellFormed { img with pixels := out } := by
    obtain ⟨hw, hh, hch, hL, hb, hfit⟩ := hwf
    refine ⟨hw, hh, hch, by simp only [hlen]; exact hL, ?_, hfit⟩
    intro p hp
    obtain ⟨j, hj⟩ := List.mem_iff_getElem?.mp hp
    have hjl : j < out.length := by
      by_contra hcon
      simp only at hj
      rw [List.getElem?_eq_none (by omega)] at hj
      exact Option.noConfusion hj
    have := hpt j (by omega)
    simp only at hj
    rw [hj] at this
    rw [Option.some.inj this]
    exact grayAt_lt _ _ _ _
  obtain ⟨out2, hout2, hlen2, hpt2⟩ := cpu_grayscale_wf ub _ hwf1
  refine ⟨_, hout, hwf1, ?_⟩
  rw [hout2]
  have heq : out2 = out := by
    apply List.ext_getElem?
    intro j
    by_cases hj : j < out.length
    · have h2 := hpt2 j hj
      simp only at h2
      have e0 := hpt (j / 3 * 3) (by omega)
      have e1 := hpt (j / 3 * 3 + 1) (by omega)
      have e2 := hpt (j / 3 * 3 + 2) (by omega)
      have d0 : j / 3 * 3 / 3 = j / 3 := by omega
      have d1 : (j / 3 * 3 + 1) / 3 = j / 3 := by omega
      have d2 : (j / 3 * 3 + 2) / 3 = j / 3 := by omega
      rw [d0] at e0; rw [d1] at e1; rw [d2] at e2
      have key : grayAt ub out 3 (j / 3) = grayAt ub img.pixels 3 (j / 3) := by
        have hg := grayAt_lt ub img.pixels 3 (j / 3)
        conv_lhs => unfold grayAt
        simp only [List.getD_eq_getElem?_getD, e0, e1, e2, Option.getD_some]
        exact clamp_byte_to_gray_self ub _ (by omega)
      rw [h2, hpt j (by omega), key]
    · simp only at hlen2
      rw [List.getElem?_eq_none (by omega), List.getElem?_eq_none (by omega)]
  rw [heq]


theorem Image.Uniform.getD {img : Image} {r g b : Nat} (hu : img.Uniform r g b) (p : Nat) (hp : p * 3 + 2 < img.pixels.length) :
    img.pixels.getD (p * 3) 0 = r ∧ img.pixels.getD (p * 3 + 1) 0 = g ∧
      img.pixels.getD (p * 3 + 2) 0 = b := by
  have h0 := hu (p * 3) (by omega)
  have h1 := hu (p * 3 + 1) (by omega)
  have h2 := hu (p * 3 + 2) (by omega)
  have m0 : p * 3 % 3 = 0 := by omega
  have m1 : (p * 3 + 1) % 3 = 1 := by omega
  have m2 : (p * 3 + 2) % 3 = 2 := by omega
  simp only [m0, m1, m2] at h0 h1 h2
  simp only [List.getD_eq_getElem?_getD, h0, h1, h2]
  simp

/-- On a uniform well-formed image `cpu_grayscale` returns the constant buffer of the luma
byte of the colour. -/
theorem cpu_grayscale_uniform (ub : F32 → Nat) (img : Image) (hwf : img.WellFormed)
    (r g b : Nat) (hu : img.Uniform r g b) :
    cpu_grayscale ub img = some ⟨img.width, img.height, img.channels,
      List.replicate img.pixels.length (clamp_byte ub (to_gray r g b))⟩ := by
  obtain ⟨out, hout, hlen, hpt⟩ := cpu_grayscale_wf ub img hwf
  obtain ⟨_, _, _, hL⟩ := hwf.natShape3
  rw [hout]
  have : out = List.replicate img.pixels.length (clamp_byte ub (to_gray r g b)) := by
    apply List.ext_getElem?
    intro j
    by_cases hj : j < img.pixels.length
    · rw [hpt j hj, List.getElem?_replicate, if_pos hj]
      obtain ⟨e0, e1, e2⟩ := hu.getD (j / 3) (by omega)
      unfold grayAt
      rw [e0, e1, e2]
    · rw [List.getElem?_eq_none (by omega), List.getElem?_eq_none (by simp; omega)]
  rw [this]

theorem scenarioImage_gray (ub : F32 → Nat) :
    cpu_grayscale ub scenarioImage = some ⟨4, 4, 3, List.replicate 48 141⟩ := by
  have h := cpu_grayscale_uniform ub scenarioImage (by decide) 100 150 200 (by decide)
  rw [clamp_byte_to_gray ub 100 150 200 141 (by norm_num) (by norm_num) (by norm_num)
    (by norm_num) (by norm_num) (by norm_num)] at h
  exact h

/-- Claim C2, as the code has it.  On the 4×4 image in which every pixel is
`(100, 150, 200)`, `cpu_grayscale` produces the image in which every pixel is
`(141, 141, 141)`: the luma `0.299 * 100 + 0.587 * 150 + 0.114 * 200 = 140.75` rounded to the
nearest integer and replicated across R, G and B. -/
theorem cpu_grayscale_scenario (ub : F32 → Nat) :
    cpu_grayscale ub ⟨4, 4, 3, (List.replicate 16 [100, 150, 200]).flatten⟩ =
        some ⟨4, 4, 3, List.replicate 48 141⟩ ∧
      ((299 * 100 + 587 * 150 + 114 * 200 : ℚ) / 1000 = 140.75) :=
  ⟨scenarioImage_gray ub, by norm_num⟩

/-- Claim C2 as stated fails: on the scenario image the first byte of the result is 141 and
the result is not the image of pixels `(138, 138, 138)`. -/
theorem cpu_grayscale_scenario_not_138 :
    ∃ out, cpu_grayscale (fun _ => 0) ⟨4, 4, 3, (List.replicate 16 [100, 150, 200]).flatten⟩ =
        some out ∧ out.pixels[0]? = some 141 ∧
      out ≠ ⟨4, 4, 3, List.replicate 48 138⟩ :=
  ⟨_, scenarioImage_gray _, by decide, by decide⟩

/-- Claim C3.  On a well-formed image (its byte count `width * height * 3` being an `int`
value), applying `cpu_grayscale` to the result of `cpu_grayscale` returns that result
unchanged; and a pixel `(g, g, g)` with `g` in `0..255` is mapped to the byte `g`. -/
theorem cpu_grayscale_idempotent (ub : F32 → Nat) (img : Image) (hwf : img.WellFormed) :
    (∃ once, cpu_grayscale ub img = some once ∧ cpu_grayscale ub once = some once) ∧
      ∀ g : Nat, g ≤ 255 → clamp_byte ub (to_gray g g g) = g := by
  obtain ⟨once, h1, _, h2⟩ := cpu_grayscale_twice ub img hwf
  exact ⟨⟨once, h1, h2⟩, fun g hg => clamp_byte_to_gray_self ub g hg⟩

theorem cpu_grayscale_idempotent_witness :
    Image.WellFormed ⟨2, 1, 3, [0, 10, 20, 30, 40, 255]⟩ ∧
    (∃ once, cpu_grayscale (fun _ => 0) ⟨2, 1, 3, [0, 10, 20, 30, 40, 255]⟩ = some once ∧
        cpu_grayscale (fun _ => 0) once = some once) ∧
      ∀ g : Nat, g ≤ 255 → clamp_byte (fun _ => 0) (to_gray g g g) = g :=
  ⟨by decide, cpu_grayscale_idempotent (fun _ => 0) ⟨2, 1, 3, [0, 10, 20, 30, 40, 255]⟩ (by decide)⟩

/-! ## Brightness and contrast -/


/-- The three nested loops of `cpu_brightness` and `cpu_contrast`: when the channel body
reads the byte at `idx + c` and stores `f` of it there, the loops succeed on a covered
image and apply `f` to each of the first `height * width * channels` bytes. -/
theorem forLoop_map_bytes (img : Image) (hcov : img.Covered) (f : Nat → Nat)
    (store : Int → Int → List Nat → Option (List Nat))
    (hstore : ∀ idx c px, store idx c px =
      (intVal (idx + c)).bind fun i => (readAt px i).bind fun p =>
        (intVal (idx + c)).bind fun i' => writeAt px i' (f p)) :
    ∃ out, forLoop img.height.toNat (fun y px =>
        forLoop img.width.toNat (fun x px => do
          let idx ← pixelIndex img x y
          forLoop img.channels.toNat (fun c px => store idx c px) px) px) img.pixels =
          some out ∧
      RewrittenTo img.pixels (fun j => f (img.pixels.getD j 0))
        (fun j => decide (j < img.height.toNat * img.width.toNat * img.channels.toNat)) out := by
  obtain ⟨hW, hH, hC, hL⟩ := hcov.natShape
  set C := img.channels.toNat with hCdef
  set W := img.width.toNat with hWdef
  apply forLoop_raster img.height.toNat W
    (fun k px => RewrittenTo img.pixels (fun j => f (img.pixels.getD j 0))
      (fun j => decide (j < k * C)) px)
    (fun y x px => do
      let idx ← pixelIndex img x y
      forLoop C (fun c px => store idx c px) px)
  · intro y x px hy hx hInv
    have hx0 : (0 : Int) ≤ (x : Int) := Int.natCast_nonneg x
    have hy0 : (0 : Int) ≤ (y : Int) := Int.natCast_nonneg y
    have hxw : (x : Int) < img.width := by rw [hW]; exact_mod_cast hx
    have hyh : (y : Int) < img.height := by rw [hH]; exact_mod_cast hy
    obtain ⟨t', h1, h2⟩ := forLoop_inv
      (fun c px => RewrittenTo img.pixels (fun j => f (img.pixels.getD j 0))
        (fun j => decide (j < (y * W + x) * C + c)) px)
      (fun c px => store (((y : Int) * img.width + x) * img.channels) c px) C px
      (by simpa using hInv)
      (by
        intro c px hc hI
        have hlt := raster_byte_lt hy hx hc
        have hc0 : (0 : Int) ≤ (c : Int) := Int.natCast_nonneg c
        have hcc : (c : Int) < img.channels := by rw [hC]; exact_mod_cast hc
        have e0 : ((y : Int) * img.width + x) * img.channels + c =
            (((y * W + x) * C + c : Nat) : Int) := by
          rw [hW, hC]; push_cast; ring
        have r := hI.read ((y * W + x) * C + c) (by omega) (by simp) _ e0
        obtain ⟨p1, w1, hI'⟩ := hI.write
          (D := fun j => decide (j < (y * W + x) * C + (c + 1)))
          ((y * W + x) * C + c) (by omega)
          (fun j _ => by rw [Bool.eq_iff_iff]; simp; omega) _ e0
          (f (img.pixels.getD ((y * W + x) * C + c) 0)) rfl
        refine ⟨p1, ?_, hI'⟩
        beta_reduce
        rw [hstore, pixelOffset_eq img hcov hx0 hxw hy0 hyh hc0 hcc]
        simp only [Option.bind, r]
        exact w1)
    have e : (y * W + x + 1) * C = (y * W + x) * C + C := by ring
    refine ⟨t', ?_, by rw [e]; exact h2⟩
    simp only [pixelIndex_eq img hcov hx0 hxw hy0 hyh, bind, Option.bind]
    exact h1
  · exact RewrittenTo.init _ _ _ (by intro j _; simp)

/-- For a well-formed image the loops of `forLoop_map_bytes` rewrite every byte. -/
theorem map_bytes_wf {img : Image} (hwf : img.WellFormed) {f : Nat → Nat} {out : List Nat}
    (h : RewrittenTo img.pixels (fun j => f (img.pixels.getD j 0))
      (fun j => decide (j < img.height.toNat * img.width.toNat * img.channels.toNat)) out) :
    out.length = img.pixels.length ∧
      ∀ j, j < img.pixels.length → out[j]? = some (f (img.pixels.getD j 0)) := by
  obtain ⟨_, _, hC3, hL⟩ := hwf.natShape3
  refine ⟨h.1, fun j hj => ?_⟩
  have := h.2 j hj
  rw [hC3] at this
  simpa [show j < img.height.toNat * img.width.toNat * 3 by omega] using this

theorem cpu_brightness_rewritten (ub : F32 → Nat) (img : Image) (hcov : img.Covered)
    (delta : F32) :
    ∃ out, cpu_brightness ub img delta = some { img with pixels := out } ∧
      RewrittenTo img.pixels
        (fun j => brightnessByte ub (F32.clamp delta (F32.lit (-1)) (F32.lit 1))
          (img.pixels.getD j 0))
        (fun j => decide (j < img.height.toNat * img.width.toNat * img.channels.toNat)) out := by
  obtain ⟨out, h1, h2⟩ := forLoop_map_bytes img hcov
    (brightnessByte ub (F32.clamp delta (F32.lit (-1)) (F32.lit 1)))
    (fun idx c px => brightnessStore ub (F32.clamp delta (F32.lit (-1)) (F32.lit 1)) idx c px)
    (fun idx c px => rfl)
  refine ⟨out, ?_, h2⟩
  unfold cpu_brightness
  dsimp only
  rw [h1]
  rfl

theorem cpu_contrast_rewritten (ub : F32 → Nat) (img : Image) (hcov : img.Covered)
    (factor : F32) :
    ∃ out, cpu_contrast ub img factor = some { img with pixels := out } ∧
      RewrittenTo img.pixels
        (fun j => contrastByte ub (F32.max factor (F32.lit 0)) (img.pixels.getD j 0))
        (fun j => decide (j < img.height.toNat * img.width.toNat * img.channels.toNat)) out := by
  obtain ⟨out, h1, h2⟩ := forLoop_map_bytes img hcov
    (contrastByte ub (F32.max factor (F32.lit 0)))
    (fun idx c px => contrastStore ub (F32.max factor (F32.lit 0)) idx c px)
    (fun idx c px => rfl)
  refine ⟨out, ?_, h2⟩
  unfold cpu_contrast
  dsimp only
  rw [h1]
  rfl


theorem representable_zero : Representable 0 := by
  simpa using representable_nat 0 (by norm_num)

theorem representable_one : Representable 1 := by
  simpa using representable_nat 1 (by norm_num)

theorem representable_half : Representable (1 / 2) := by
  simpa using representable_dyadic 1 1 (by norm_num) (by norm_num)

theorem F32.lit_neg_one : F32.lit (-1) = F32.fin (-1) := by
  apply F32.ofRat_exact _ (representable_neg representable_one)
  norm_num

/-- The normalisation `static_cast<float>(p) / 255.0f` of a byte. -/
theorem F32.div_255 (p : Nat) (hp : p ≤ 255) :
    ∃ v, F32.ofInt p / F32.lit 255 = F32.fin v ∧ Representable v ∧ 0 ≤ v ∧ v ≤ 1 ∧
      |v - (p : ℚ) / 255| ≤ 1 / 2 ^ 24 := by
  have hp0 : (0 : ℚ) ≤ p := by positivity
  have hp1 : (p : ℚ) ≤ 255 := by exact_mod_cast hp
  have h0 : (0 : ℚ) ≤ (p : ℚ) / 255 := by positivity
  have h1 : (p : ℚ) / 255 ≤ 1 := by rw [div_le_one (by norm_num)]; exact hp1
  have habs : |(p : ℚ) / 255| ≤ 2 ^ 0 := by rw [abs_of_nonneg h0]; simpa using h1
  refine ⟨roundToF32 ((p : ℚ) / 255), ?_, roundToF32_representable _,
    roundToF32_ge _ _ representable_zero h0, roundToF32_le _ _ representable_one h1, ?_⟩
  · rw [F32.ofInt_nat p (by omega), F32.lit_255, F32.fin_div _ _ (by norm_num),
      F32.ofRat_small _ (le_trans habs (by norm_num))]
  · simpa using roundToF32_within _ 0 habs

/-- The final `clamp_byte(v * 255.0f)` of the pointwise filters, for `v` close to `p / 255`. -/
theorem clamp_byte_scale (ub : F32 → Nat) (v : ℚ) (p : Nat) (hp : p ≤ 255)
    (hv : |v - (p : ℚ) / 255| ≤ 1 / 2 ^ 20) :
    clamp_byte ub (F32.fin v * F32.lit 255) = p := by
  have hp0 : (0 : ℚ) ≤ p := by positivity
  have hp1 : (p : ℚ) ≤ 255 := by exact_mod_cast hp
  rw [abs_le] at hv
  norm_num at hv
  have e : (p : ℚ) / 255 * 255 = p := by field_simp
  have hb : |v * 255| ≤ 2 ^ 9 := by
    rw [abs_le]; constructor <;> norm_num <;> nlinarith
  rw [F32.lit_255, F32.fin_mul, F32.ofRat_small _ (le_trans hb (by norm_num))]
  have herr := roundToF32_within _ 9 hb
  rw [abs_le] at herr
  norm_num at herr
  apply clamp_byte_near ub _ p hp <;> nlinarith

theorem brightnessByte_zero (ub : F32 → Nat) (p : Nat) (hp : p ≤ 255) :
    brightnessByte ub (F32.clamp (F32.fin 0) (F32.lit (-1)) (F32.lit 1)) p = p := by
  obtain ⟨v, hv, hrep, h0, h1, herr⟩ := F32.div_255 p hp
  unfold brightnessByte
  simp only [hv, F32.lit_neg_one, F32.lit_one, F32.lit_zero, F32.clamp_fin, F32.fin_add]
  norm_num
  rw [F32.ofRat_exact v hrep (by rw [abs_of_nonneg h0]; linarith [show (1 : ℚ) ≤ 2 ^ 127 by norm_num]),
    F32.clamp_fin, if_neg (not_lt.mpr h0), if_neg (not_lt.mpr h1)]
  exact clamp_byte_scale ub v p hp (le_trans herr (by norm_num))

theorem brightnessByte_one (ub : F32 → Nat) (p : Nat) (hp : p ≤ 255) :
    brightnessByte ub (F32.clamp (F32.fin 1) (F32.lit (-1)) (F32.lit 1)) p = 255 := by
  obtain ⟨v, hv, hrep, h0, h1, herr⟩ := F32.div_255 p hp
  unfold brightnessByte
  simp only [hv, F32.lit_neg_one, F32.lit_one, F32.lit_zero, F32.clamp_fin, F32.fin_add]
  norm_num
  have hb : |v + 1| ≤ 2 ^ 20 := by
    rw [abs_of_nonneg (by linarith)]; norm_num; linarith
  have hge : (1 : ℚ) ≤ roundToF32 (v + 1) :=
    roundToF32_ge _ _ representable_one (by linarith)
  rw [F32.ofRat_small _ hb, F32.clamp_fin, if_neg (by linarith)]
  have : (if 1 < roundToF32 (v + 1) then (1 : ℚ) else roundToF32 (v + 1)) = 1 := by
    split_ifs with h
    · rfl
    · linarith
  rw [this]
  have := clamp_byte_scale ub 1 255 (by norm_num) (by norm_num)
  simpa using this

theorem brightnessByte_neg_one (ub : F32 → Nat) (p : Nat) (hp : p ≤ 255) :
    brightnessByte ub (F32.clamp (F32.fin (-1)) (F32.lit (-1)) (F32.lit 1)) p = 0 := by
  obtain ⟨v, hv, hrep, h0, h1, herr⟩ := F32.div_255 p hp
  unfold brightnessByte
  simp only [hv, F32.lit_neg_one, F32.lit_one, F32.lit_zero, F32.clamp_fin, F32.fin_add]
  norm_num
  have hb : |v + -1| ≤ 2 ^ 20 := by
    rw [abs_of_nonpos (by linarith)]; norm_num; linarith
  have hle : roundToF32 (v + -1) ≤ 0 :=
    roundToF32_le _ _ representable_zero (by linarith)
  rw [F32.ofRat_small _ hb, F32.clamp_fin]
  have : (if roundToF32 (v + -1) < 0 then (0 : ℚ)
      else if 1 < roundToF32 (v + -1) then 1 else roundToF32 (v + -1)) = 0 := by
    split_ifs with h h'
    · rfl
    · linarith
    · linarith
  rw [this]
  have := clamp_byte_scale ub 0 0 (by norm_num) (by norm_num)
  simpa using this


/-- The result of a byte-wise traversal of a well-formed image as a `map`. -/
theorem map_bytes_eq {img : Image} (hwf : img.WellFormed) {f g : Nat → Nat} {out : List Nat}
    (h : RewrittenTo img.pixels (fun j => f (img.pixels.getD j 0))
      (fun j => decide (j < img.height.toNat * img.width.toNat * img.channels.toNat)) out)
    (hfg : ∀ p, p ≤ 255 → f p = g p) : out = img.pixels.map g := by
  obtain ⟨hlen, hpt⟩ := map_bytes_wf hwf h
  apply List.ext_getElem?
  intro j
  by_cases hj : j < img.pixels.length
  · rw [hpt j hj, List.getElem?_map, List.getD_eq_getElem?_getD, List.getElem?_eq_getElem hj]
    simp only [Option.getD_some, Option.map_some']
    have := hwf.2.2.2.2.1 _ (List.getElem_mem hj)
    rw [hfg _ (by omega)]
  · rw [List.getElem?_eq_none (by omega), List.getElem?_eq_none (by simp; omega)]

theorem contrastByte_one (ub : F32 → Nat) (p : Nat) (hp : p ≤ 255) :
    contrastByte ub (F32.max (F32.fin 1) (F32.lit 0)) p = p := by
  obtain ⟨v, hv, hrep, h0, h1, herr⟩ := F32.div_255 p hp
  have hmax : F32.max (F32.fin 1) (F32.fin 0) = F32.fin 1 := by
    simp [F32.max, F32.lt]
  unfold contrastByte
  simp only [F32.lit_zero, hmax, hv, F32.lit_half, F32.lit_one, F32.fin_sub]
  -- `a = fl (v - 1/2)`
  have hab : |v - 1 / 2| ≤ 2 ^ 0 := by rw [abs_le]; constructor <;> norm_num <;> linarith
  have ha_err := roundToF32_within _ 0 hab
  have ha_lo : -(1 / 2 : ℚ) ≤ roundToF32 (v - 1 / 2) :=
    roundToF32_ge _ _ (representable_neg representable_half) (by linarith)
  have ha_hi : roundToF32 (v - 1 / 2) ≤ 1 / 2 :=
    roundToF32_le _ _ representable_half (by linarith)
  rw [F32.ofRat_small _ (le_trans hab (by norm_num))]
  set a := roundToF32 (v - 1 / 2) with hadef
  have harep : Representable a := roundToF32_representable _
  -- `a * 1.0f = a`
  rw [F32.fin_mul, mul_one, F32.ofRat_exact a harep
    (by rw [abs_le]; constructor <;> norm_num <;> linarith), F32.fin_add]
  -- `b = fl (a + 1/2)`
  have hbb : |a + 1 / 2| ≤ 2 ^ 0 := by rw [abs_le]; constructor <;> norm_num <;> linarith
  have hb_err := roundToF32_within _ 0 hbb
  have hb_lo : (0 : ℚ) ≤ roundToF32 (a + 1 / 2) :=
    roundToF32_ge _ _ representable_zero (by linarith)
  have hb_hi : roundToF32 (a + 1 / 2) ≤ 1 :=
    roundToF32_le _ _ representable_one (by linarith)
  rw [F32.ofRat_small _ (le_trans hbb (by norm_num))]
  set b := roundToF32 (a + 1 / 2) with hbdef
  rw [F32.clamp_fin, if_neg (not_lt.mpr hb_lo), if_neg (not_lt.mpr hb_hi)]
  apply clamp_byte_scale ub b p hp
  rw [abs_le] at herr ha_err hb_err ⊢
  norm_num at herr ha_err hb_err ⊢
  constructor <;> linarith

/-- Claim C4.  On a well-formed image (its byte count `width * height * 3` being an `int`
value), `cpu_brightness` with `delta = 0` leaves every byte within 1 of its input value,
with `delta = 1` sets every byte to 255 and with `delta = -1` sets every byte to 0; the
shape is kept in each case. -/
theorem cpu_brightness_bounds (ub : F32 → Nat) (img : Image) (hwf : img.WellFormed) :
    (∃ out, cpu_brightness ub img (F32.fin 0) = some out ∧
        out.pixels.length = img.pixels.length ∧
        ∀ j, j < img.pixels.length →
          |(out.pixels.getD j 0 : Int) - (img.pixels.getD j 0 : Int)| ≤ 1) ∧
      (∃ out, cpu_brightness ub img (F32.fin 1) = some out ∧
        out.pixels.length = img.pixels.length ∧ ∀ p ∈ out.pixels, p = 255) ∧
      (∃ out, cpu_brightness ub img (F32.fin (-1)) = some out ∧
        out.pixels.length = img.pixels.length ∧ ∀ p ∈ out.pixels, p = 0) := by
  refine ⟨?_, ?_, ?_⟩
  · obtain ⟨out, h1, h2⟩ := cpu_brightness_rewritten ub img hwf.covered (F32.fin 0)
    have := map_bytes_eq hwf h2 (g := id) (fun p hp => brightnessByte_zero ub p hp)
    rw [List.map_id] at this
    subst this
    exact ⟨_, h1, rfl, fun j _ => by simp⟩
  · obtain ⟨out, h1, h2⟩ := cpu_brightness_rewritten ub img hwf.covered (F32.fin 1)
    have := map_bytes_eq hwf h2 (g := fun _ => 255) (fun p hp => brightnessByte_one ub p hp)
    subst this
    refine ⟨_, h1, by simp, fun p hp => ?_⟩
    simp only [List.mem_map] at hp
    obtain ⟨_, _, rfl⟩ := hp
    rfl
  · obtain ⟨out, h1, h2⟩ := cpu_brightness_rewritten ub img hwf.covered (F32.fin (-1))
    have := map_bytes_eq hwf h2 (g := fun _ => 0) (fun p hp => brightnessByte_neg_one ub p hp)
    subst this
    refine ⟨_, h1, by simp, fun p hp => ?_⟩
    simp only [List.mem_map] at hp
    obtain ⟨_, _, rfl⟩ := hp
    rfl

theorem cpu_brightness_bounds_witness :
    Image.WellFormed ⟨2, 1, 3, [0, 10, 20, 30, 40, 255]⟩ ∧
    ((∃ out, cpu_brightness (fun _ => 0) ⟨2, 1, 3, [0, 10, 20, 30, 40, 255]⟩ (F32.fin 0) =
          some out ∧ out.pixels.length = 6 ∧
        ∀ j, j < 6 →
          |(out.pixels.getD j 0 : Int) - (([0, 10, 20, 30, 40, 255] : List Nat).getD j 0 : Int)|
            ≤ 1) ∧
      (∃ out, cpu_brightness (fun _ => 0) ⟨2, 1, 3, [0, 10, 20, 30, 40, 255]⟩ (F32.fin 1) =
          some out ∧ out.pixels.length = 6 ∧ ∀ p ∈ out.pixels, p = 255) ∧
      (∃ out, cpu_brightness (fun _ => 0) ⟨2, 1, 3, [0, 10, 20, 30, 40, 255]⟩ (F32.fin (-1)) =
          some out ∧ out.pixels.length = 6 ∧ ∀ p ∈ out.pixels, p = 0)) :=
  ⟨by decide,
    cpu_brightness_bounds (fun _ => 0) ⟨2, 1, 3, [0, 10, 20, 30, 40, 255]⟩ (by decide)⟩

/-- Claim C5.  On a well-formed image (its byte count `width * height * 3` being an `int`
value), `cpu_contrast` with `factor = 1.0` leaves every byte within 1 of its input value
(and keeps the shape). -/
theorem cpu_contrast_identity (ub : F32 → Nat) (img : Image) (hwf : img.WellFormed) :
    ∃ out, cpu_contrast ub img (F32.fin 1) = some out ∧
      out.width = img.width ∧ out.height = img.height ∧ out.channels = img.channels ∧
      out.pixels.length = img.pixels.length ∧
      ∀ j, j < img.pixels.length →
        |(out.pixels.getD j 0 : Int) - (img.pixels.getD j 0 : Int)| ≤ 1 := by
  obtain ⟨out, h1, h2⟩ := cpu_contrast_rewritten ub img hwf.covered (F32.fin 1)
  have := map_bytes_eq hwf h2 (g := id) (fun p hp => contrastByte_one ub p hp)
  rw [List.map_id] at this
  subst this
  exact ⟨_, h1, rfl, rfl, rfl, rfl, fun j _ => by simp⟩

theorem cpu_contrast_identity_witness :
    Image.WellFormed ⟨2, 1, 3, [0, 10, 20, 30, 40, 255]⟩ ∧
    ∃ out, cpu_contrast (fun _ => 0) ⟨2, 1, 3, [0, 10, 20, 30, 40, 255]⟩ (F32.fin 1) = some out ∧
      out.width = 2 ∧ out.height = 1 ∧ out.channels = 3 ∧ out.pixels.length = 6 ∧
      ∀ j, j < 6 →
        |(out.pixels.getD j 0 : Int) - (([0, 10, 20, 30, 40, 255] : List Nat).getD j 0 : Int)|
          ≤ 1 :=
  ⟨by decide,
    cpu_contrast_identity (fun _ => 0) ⟨2, 1, 3, [0, 10, 20, 30, 40, 255]⟩ (by decide)⟩

/-! ## Edge detection -/


theorem sobelFold_const (v : F32) :
    sobelFold (fun _ _ => v) =
      (F32.lit 0 + v * F32.ofInt (-1) + v * F32.ofInt 0 + v * F32.ofInt 1
          + v * F32.ofInt (-2) + v * F32.ofInt 0 + v * F32.ofInt 2
          + v * F32.ofInt (-1) + v * F32.ofInt 0 + v * F32.ofInt 1,
        F32.lit 0 + v * F32.ofInt 1 + v * F32.ofInt 2 + v * F32.ofInt 1
          + v * F32.ofInt 0 + v * F32.ofInt 0 + v * F32.ofInt 0
          + v * F32.ofInt (-1) + v * F32.ofInt (-2) + v * F32.ofInt (-1)) := rfl

theorem F32.ofInt_small (k : Int) (hk : |k| ≤ 2 ^ 24) : F32.ofInt k = F32.fin k := by
  apply F32.ofRat_exact _ (representable_int k hk)
  have : |(k : ℚ)| ≤ ((2 ^ 24 : Int) : ℚ) := by
    rw [← Int.cast_abs]; exact_mod_cast hk
  exact le_trans this (by norm_num)

theorem representable_two_mul {q : ℚ} (h : Representable q) : Representable (2 * q) := by
  obtain ⟨m, e, hm, he, rfl⟩ := h
  refine ⟨m, e + 1, hm, by omega, ?_⟩
  rw [zpow_add₀ (by norm_num)]; ring


theorem F32.add_exact (a b : ℚ) (hrep : Representable (a + b)) (hb : |a + b| ≤ 2 ^ 20) :
    F32.fin a + F32.fin b = F32.fin (a + b) := by
  rw [F32.fin_add, F32.ofRat_exact _ hrep (le_trans hb (by norm_num))]

theorem F32.add_round (a b : ℚ) (h : |a + b| ≤ 2 ^ 11) :
    F32.fin a + F32.fin b = F32.fin (roundToF32 (a + b)) ∧
      |roundToF32 (a + b) - (a + b)| ≤ 1 / 2 ^ 13 ∧ Representable (roundToF32 (a + b)) := by
  refine ⟨?_, ?_, roundToF32_representable _⟩
  · rw [F32.fin_add, F32.ofRat_small _ (le_trans h (by norm_num))]
  · have := roundToF32_within _ 11 h
    norm_num at this ⊢
    exact this

/-- The square root of a small non-negative `float` is a small non-negative `float`. -/
theorem F32.sqrt_small (u : ℚ) (h0 : 0 ≤ u) (h1 : u ≤ 1 / 2 ^ 21) :
    ∃ m, F32.sqrt (F32.fin u) = F32.fin m ∧ 0 ≤ m ∧ m ≤ 1 / 2 ^ 10 := by
  unfold F32.sqrt
  simp only [if_neg (not_lt.mpr h0)]
  set n := ⌊u * 2 ^ 200⌋.toNat with hn
  set r := Nat.sqrt n with hr
  set sticky : ℚ := if (r : ℚ) * r = u * 2 ^ 200 then 0 else 1 with hs
  have hs0 : 0 ≤ sticky := by rw [hs]; split_ifs <;> norm_num
  have hs1 : sticky ≤ 1 := by rw [hs]; split_ifs <;> norm_num
  have hnq : (n : ℚ) ≤ 2 ^ 179 := by
    have h2 : (n : ℚ) ≤ u * 2 ^ 200 := by
      rw [hn, Int.floor_toNat]; exact Nat.floor_le (by positivity)
    calc (n : ℚ) ≤ u * 2 ^ 200 := h2
      _ ≤ 1 / 2 ^ 21 * 2 ^ 200 := mul_le_mul_of_nonneg_right h1 (by positivity)
      _ = 2 ^ 179 := by norm_num
  have hn179 : n ≤ 2 ^ 179 := by exact_mod_cast hnq
  have hr90 : r < 2 ^ 90 := by
    have hrr : r * r ≤ n := Nat.sqrt_le n
    by_contra hc
    push_neg at hc
    have := Nat.mul_le_mul hc hc
    have e : 2 ^ 90 * 2 ^ 90 = 2 ^ 180 := by norm_num
    have e2 : 2 ^ 179 < 2 ^ 180 := by norm_num
    omega
  have hrq : (r : ℚ) ≤ 2 ^ 90 - 1 := by
    have : r + 1 ≤ 2 ^ 90 := hr90
    have : ((r + 1 : Nat) : ℚ) ≤ ((2 ^ 90 : Nat) : ℚ) := by exact_mod_cast this
    rw [Nat.cast_add, Nat.cast_one, Nat.cast_pow, Nat.cast_ofNat] at this
    linarith
  have hr0 : (0 : ℚ) ≤ r := Nat.cast_nonneg r
  have hval0 : (0 : ℚ) ≤ (2 * r + sticky) / 2 ^ 101 :=
    div_nonneg (add_nonneg (mul_nonneg (by norm_num) hr0) hs0) (by norm_num)
  have hval1 : (2 * r + sticky) / 2 ^ 101 ≤ (1 : ℚ) / 2 ^ 10 := by
    rw [div_le_div_iff₀ (by positivity) (by positivity)]
    have : (2 * (r : ℚ) + sticky) ≤ 2 ^ 91 := by
      have : (2 : ℚ) ^ 91 = 2 * 2 ^ 90 := by norm_num
      linarith
    calc (2 * (r : ℚ) + sticky) * 2 ^ 10 ≤ 2 ^ 91 * 2 ^ 10 :=
          mul_le_mul_of_nonneg_right this (by positivity)
      _ = 1 * 2 ^ 101 := by norm_num
  have hrep : Representable ((1 : ℚ) / 2 ^ 10) := by
    simpa using representable_dyadic 1 10 (by norm_num) (by norm_num)
  refine ⟨roundToF32 ((2 * r + sticky) / 2 ^ 101), ?_, roundToF32_ge _ _ representable_zero hval0,
    roundToF32_le _ _ hrep hval1⟩
  rw [F32.ofRat_small]
  rw [abs_of_nonneg hval0]
  exact le_trans hval1 (by norm_num)


/-- On a neighbourhood whose nine lumas are one and the same `float` `G`, `cpu_sobel`
stores 0: `sum_x` cancels exactly and `sum_y` is left with rounding error far below 1/2. -/
theorem sobelByte_const (ub : F32 → Nat) (G : ℚ) (hrep : Representable G) (hG : |G| ≤ 257) :
    sobelByte ub (fun _ _ => F32.fin G) = 0 := by
  rw [abs_le] at hG
  have hb : ∀ q : ℚ, |q| ≤ 1100 → |q| ≤ 2 ^ 20 := fun q h => le_trans h (by norm_num)
  have hm1 : F32.fin G * F32.ofInt (-1) = F32.fin (-G) := by
    rw [F32.ofInt_small _ (by norm_num), F32.fin_mul,
      F32.ofRat_exact _ (by simpa using representable_neg hrep)
        (by rw [abs_le]; constructor <;> norm_num <;> linarith)]
    norm_num
  have h0 : F32.fin G * F32.ofInt 0 = F32.fin 0 := by
    rw [F32.ofInt_small _ (by norm_num), F32.fin_mul,
      F32.ofRat_exact _ (by simpa using representable_zero) (by norm_num)]
    norm_num
  have h1 : F32.fin G * F32.ofInt 1 = F32.fin G := by
    rw [F32.ofInt_small _ (by norm_num), F32.fin_mul,
      F32.ofRat_exact _ (by simpa using hrep)
        (by rw [abs_le]; constructor <;> norm_num <;> linarith)]
    norm_num
  have h2 : F32.fin G * F32.ofInt 2 = F32.fin (2 * G) := by
    rw [F32.ofInt_small _ (by norm_num), F32.fin_mul,
      F32.ofRat_exact _ (by simpa [mul_comm] using representable_two_mul hrep)
        (by rw [abs_le]; constructor <;> norm_num <;> linarith)]
    norm_num [mul_comm]
  have hm2 : F32.fin G * F32.ofInt (-2) = F32.fin (-(2 * G)) := by
    rw [F32.ofInt_small _ (by norm_num), F32.fin_mul,
      F32.ofRat_exact _
        (by simpa [mul_comm] using representable_neg (representable_two_mul hrep))
        (by rw [abs_le]; constructor <;> norm_num <;> linarith)]
    norm_num [mul_comm]
  -- the exact steps of the two accumulations
  have e1 : F32.fin 0 + F32.fin (-G) = F32.fin (-G) := by
    have := F32.add_exact 0 (-G) (by simpa using representable_neg hrep)
      (hb _ (by rw [abs_le]; constructor <;> norm_num <;> linarith))
    simpa using this
  have e2 : F32.fin (-G) + F32.fin 0 = F32.fin (-G) := by
    have := F32.add_exact (-G) 0 (by simpa using representable_neg hrep)
      (hb _ (by rw [abs_le]; constructor <;> norm_num <;> linarith))
    simpa using this
  have e3 : F32.fin (-G) + F32.fin G = F32.fin 0 := by
    have := F32.add_exact (-G) G (by simpa using representable_zero) (by norm_num)
    simpa using this
  have e4 : F32.fin 0 + F32.fin (-(2 * G)) = F32.fin (-(2 * G)) := by
    have := F32.add_exact 0 (-(2 * G))
      (by simpa using representable_neg (representable_two_mul hrep))
      (hb _ (by rw [abs_le]; constructor <;> norm_num <;> linarith))
    simpa using this
  have e5 : F32.fin (-(2 * G)) + F32.fin 0 = F32.fin (-(2 * G)) := by
    have := F32.add_exact (-(2 * G)) 0
      (by simpa using representable_neg (representable_two_mul hrep))
      (hb _ (by rw [abs_le]; constructor <;> norm_num <;> linarith))
    simpa using this
  have e6 : F32.fin (-(2 * G)) + F32.fin (2 * G) = F32.fin 0 := by
    have := F32.add_exact (-(2 * G)) (2 * G) (by simpa using representable_zero) (by norm_num)
    simpa using this
  have e7 : F32.fin 0 + F32.fin G = F32.fin G := by
    have := F32.add_exact 0 G (by simpa using hrep)
      (hb _ (by rw [abs_le]; constructor <;> norm_num <;> linarith))
    simpa using this
  -- the rounded steps of `sum_y`
  obtain ⟨a2, r2, p2⟩ := F32.add_round G (2 * G)
    (by rw [abs_le]; constructor <;> norm_num <;> linarith)
  set t2 := roundToF32 (G + 2 * G) with ht2
  rw [abs_le] at r2
  obtain ⟨a3, r3, p3⟩ := F32.add_round t2 G
    (by rw [abs_le]; constructor <;> norm_num <;> linarith)
  set t3 := roundToF32 (t2 + G) with ht3
  rw [abs_le] at r3
  have a4 : F32.fin t3 + F32.fin 0 = F32.fin t3 := by
    have := F32.add_exact t3 0 (by simpa using p3)
      (hb _ (by rw [abs_le]; constructor <;> norm_num <;> linarith))
    simpa using this
  obtain ⟨a7, r7, p7⟩ := F32.add_round t3 (-G)
    (by rw [abs_le]; constructor <;> norm_num <;> linarith)
  set t7 := roundToF32 (t3 + -G) with ht7
  rw [abs_le] at r7
  obtain ⟨a8, r8, p8⟩ := F32.add_round t7 (-(2 * G))
    (by rw [abs_le]; constructor <;> norm_num <;> linarith)
  set t8 := roundToF32 (t7 + -(2 * G)) with ht8
  rw [abs_le] at r8
  obtain ⟨a9, r9, p9⟩ := F32.add_round t8 (-G)
    (by rw [abs_le]; constructor <;> norm_num <;> linarith)
  set t9 := roundToF32 (t8 + -G) with ht9
  rw [abs_le] at r9
  have ht9b : -(10 / 2 ^ 14 : ℚ) ≤ t9 ∧ t9 ≤ 10 / 2 ^ 14 := by
    constructor <;> norm_num at r2 r3 r7 r8 r9 ⊢ <;> linarith
  unfold sobelByte
  rw [sobelFold_const]
  simp only [hm1, h0, h1, h2, hm2, F32.lit_zero, e1, e2, e3, e4, e5, e6, e7, a2, a3, a4, a7, a8,
    a9]
  -- magnitude
  have hsq0 : F32.fin 0 * F32.fin 0 = F32.fin 0 := by
    rw [F32.fin_mul, F32.ofRat_exact _ (by simpa using representable_zero) (by norm_num)]
    norm_num
  have hsq_lo : (0 : ℚ) ≤ t9 * t9 := mul_self_nonneg t9
  have hsq_hi : t9 * t9 ≤ 1 / 2 ^ 21 := by
    have : t9 * t9 ≤ (10 / 2 ^ 14) * (10 / 2 ^ 14) := by
      rw [← abs_mul_abs_self t9]
      have habs : |t9| ≤ 10 / 2 ^ 14 := abs_le.mpr ht9b
      exact mul_le_mul habs habs (abs_nonneg _) (by norm_num)
    exact le_trans this (by norm_num)
  have hrep21 : Representable ((1 : ℚ) / 2 ^ 21) := by
    simpa using representable_dyadic 1 21 (by norm_num) (by norm_num)
  have hu0 : (0 : ℚ) ≤ roundToF32 (t9 * t9) := roundToF32_ge _ _ representable_zero hsq_lo
  have hu1 : roundToF32 (t9 * t9) ≤ 1 / 2 ^ 21 := roundToF32_le _ _ hrep21 hsq_hi
  have hsq : F32.fin t9 * F32.fin t9 = F32.fin (roundToF32 (t9 * t9)) := by
    rw [F32.fin_mul, F32.ofRat_small]
    rw [abs_of_nonneg hsq_lo]
    exact le_trans hsq_hi (by norm_num)
  have hsum : F32.fin 0 + F32.fin (roundToF32 (t9 * t9)) = F32.fin (roundToF32 (t9 * t9)) := by
    have := F32.add_exact 0 (roundToF32 (t9 * t9))
      (by simpa using roundToF32_representable (t9 * t9))
      (by rw [zero_add, abs_of_nonneg hu0]; exact le_trans hu1 (by norm_num))
    simpa using this
  rw [hsq0, hsq, hsum]
  obtain ⟨m, hm, hm0, hm1'⟩ := F32.sqrt_small _ hu0 hu1
  rw [hm]
  have := clamp_byte_near ub m 0 (by norm_num) (by norm_num; linarith) (by norm_num at hm1' ⊢; linarith)
  simpa using this


theorem sample_gray_eq (img : Image) (hcov : img.Covered) (x y : Int) :
    sample_gray img x y =
      some (grayAtXY img.pixels img.width img.height img.channels x y) := by
  have hcov' := hcov
  obtain ⟨hw, hh, hch, hlen, hfit⟩ := hcov
  have hx := clampEdge_range x _ hw
  have hy := clampEdge_range y _ hh
  have r0 := pixel_index_range hx.1 hx.2 hy.1 hy.2 (c := 0) (n := img.channels) (by omega)
    (by omega)
  have r1 := pixel_index_range hx.1 hx.2 hy.1 hy.2 (c := 1) (n := img.channels) (by omega)
    (by omega)
  have r2 := pixel_index_range hx.1 hx.2 hy.1 hy.2 (c := 2) (n := img.channels) (by omega)
    (by omega)
  have e0 := readAt_of_lt img.pixels _ r0.1 (lt_of_lt_of_le r0.2 hlen)
  have e1 := readAt_of_lt img.pixels _ r1.1 (lt_of_lt_of_le r1.2 hlen)
  have e2 := readAt_of_lt img.pixels _ r2.1 (lt_of_lt_of_le r2.2 hlen)
  rw [add_zero] at e0
  unfold sample_gray grayAtXY byteAt
  simp only [clampInt_eq _ _ hw, clampInt_eq _ _ hh,
    pixelIndex_eq img hcov' hx.1 hx.2 hy.1 hy.2,
    pixelOffset_eq img hcov' hx.1 hx.2 hy.1 hy.2 (c := 1) (by omega) (by omega),
    pixelOffset_eq img hcov' hx.1 hx.2 hy.1 hy.2 (c := 2) (by omega) (by omega),
    e0, e1, e2, bind, Option.bind, pure, add_zero]

theorem sobelAccumulate_eq (img : Image) (hcov : img.Covered) (x y : Int) :
    sobelAccumulate img x y = some (sobelFold fun kx ky =>
      grayAtXY img.pixels img.width img.height img.channels (x + kx) (y + ky)) := by
  simp only [sobelAccumulate, sobelFold, kernelOffsets, List.foldlM, List.foldl,
    sample_gray_eq img hcov, bind, Option.bind, pure]

theorem sobelPixel_step (ub : F32 → Nat) (img : Image) (hcov : img.Covered) (y x : Nat)
    (hy : y < img.height.toNat) (hx : x < img.width.toNat) (f : Nat → Nat)
    (hf : ∀ i, i < 3 → f ((y * img.width.toNat + x) * img.channels.toNat + i) =
      sobelByte ub fun kx ky =>
        grayAtXY img.pixels img.width img.height img.channels (x + kx) (y + ky))
    (out : List Nat)
    (h : RewrittenTo (List.replicate img.pixels.length 0) f
      (grayDone img.channels.toNat (y * img.width.toNat + x)) out) :
    ∃ out', sobelPixel ub img x y out = some out' ∧
      RewrittenTo (List.replicate img.pixels.length 0) f
        (grayDone img.channels.toNat (y * img.width.toNat + x + 1)) out' := by
  obtain ⟨hW, hH, hC, hL⟩ := hcov.natShape
  have hC3 : 3 ≤ img.channels.toNat := by have := hcov.2.2.1; omega
  set C := img.channels.toNat with hCdef
  set W := img.width.toNat with hWdef
  set k := y * W + x with hkdef
  have hk : k < img.height.toNat * W := raster_lt hy hx
  have hkC : (k + 1) * C ≤ img.height.toNat * W * C := Nat.mul_le_mul_right C hk
  rw [Nat.succ_mul] at hkC
  have hlen0 : (List.replicate img.pixels.length 0).length = img.pixels.length := by simp
  have e0 : ((y : Int) * img.width + x) * img.channels = ((k * C : Nat) : Int) := by
    rw [hW, hC, hkdef]; push_cast; ring
  obtain ⟨p1, w1, h1⟩ := h.write (D := fun j => grayDone C k j || decide (j = k * C + 2))
    (k * C + 2) (by omega) (fun j _ => rfl)
    (((y : Int) * img.width + x) * img.channels + 2) (by rw [e0]; push_cast; ring) _
    (hf 2 (by omega)).symm
  obtain ⟨p2, w2, h2⟩ := h1.write
    (D := fun j => (grayDone C k j || decide (j = k * C + 2)) || decide (j = k * C + 1))
    (k * C + 1) (by omega) (fun j _ => rfl)
    (((y : Int) * img.width + x) * img.channels + 1) (by rw [e0]; push_cast; ring) _
    (hf 1 (by omega)).symm
  obtain ⟨p3, w3, h3⟩ := h2.write (D := grayDone C (k + 1))
    (k * C) (by omega) (fun j _ => grayDone_succ C k j hC3)
    (((y : Int) * img.width + x) * img.channels) e0 _
    (hf 0 (by omega)).symm
  have hx0 : (0 : Int) ≤ (x : Int) := Int.natCast_nonneg x
  have hy0 : (0 : Int) ≤ (y : Int) := Int.natCast_nonneg y
  have hxw : (x : Int) < img.width := by rw [hW]; exact_mod_cast hx
  have hyh : (y : Int) < img.height := by rw [hH]; exact_mod_cast hy
  have hch := hcov.2.2.1
  refine ⟨p3, ?_, h3⟩
  simp only [sobelPixel, sobelAccumulate_eq img hcov, sobelByte,
    pixelIndex_eq img hcov hx0 hxw hy0 hyh,
    pixelOffset_eq img hcov hx0 hxw hy0 hyh (c := 1) (by omega) (by omega),
    pixelOffset_eq img hcov hx0 hxw hy0 hyh (c := 2) (by omega) (by omega)] at w1 w2 w3 ⊢
  simp only [pixelOffset_eq img hcov hx0 hxw hy0 hyh (c := 1) (by omega) (by omega),
    pixelOffset_eq img hcov hx0 hxw hy0 hyh (c := 2) (by omega) (by omega), w1, w2, w3, bind,
    Option.bind]

/-- The buffer `cpu_sobel` returns on a covered image, byte by byte. -/
theorem cpu_sobel_rewritten (ub : F32 → Nat) (img : Image) (hcov : img.Covered) :
    ∃ out, cpu_sobel ub img = some { img with pixels := out } ∧
      RewrittenTo (List.replicate img.pixels.length 0)
        (fun j => sobelByte ub fun kx ky =>
          grayAtXY img.pixels img.width img.height img.channels
            (((j / img.channels.toNat % img.width.toNat : Nat) : Int) + kx)
            (((j / img.channels.toNat / img.width.toNat : Nat) : Int) + ky))
        (grayDone img.channels.toNat (img.height.toNat * img.width.toNat)) out := by
  have hC3 : 3 ≤ img.channels.toNat := by have := hcov.2.2.1; omega
  obtain ⟨t, ht, hInv⟩ := forLoop_raster img.height.toNat img.width.toNat
    (fun k out => RewrittenTo (List.replicate img.pixels.length 0)
        (fun j => sobelByte ub fun kx ky =>
          grayAtXY img.pixels img.width img.height img.channels
            (((j / img.channels.toNat % img.width.toNat : Nat) : Int) + kx)
            (((j / img.channels.toNat / img.width.toNat : Nat) : Int) + ky))
        (grayDone img.channels.toNat k) out)
    (fun y x out => sobelPixel ub img x y out)
    (fun y x out hy hx hInv => sobelPixel_step ub img hcov y x hy hx _
      (fun i hi => by
        obtain ⟨_, d2, d3⟩ := raster_decompose (W := img.width.toNat) (C := img.channels.toNat)
          (y := y) (c := i) hx (by omega)
        simp only [d2, d3]) out hInv)
    (List.replicate img.pixels.length 0)
    (RewrittenTo.init _ _ _ (by intro j _; simp [grayDone]))
  refine ⟨t, ?_, hInv⟩
  simp only [cpu_sobel, ht, bind, Option.bind, pure]


theorem Image.Uniform.bytes_le {img : Image} {r g b : Nat} (hu : img.Uniform r g b)
    (hwf : img.WellFormed) : r ≤ 255 ∧ g ≤ 255 ∧ b ≤ 255 := by
  obtain ⟨hw, hh, hch, hlen, hb, _⟩ := hwf
  have hpos : 0 < img.width * img.height := mul_pos hw hh
  have h3 : 3 ≤ img.pixels.length := by omega
  have h0 := hu 0 (by omega)
  have h1 := hu 1 (by omega)
  have h2 := hu 2 (by omega)
  simp only [Nat.zero_mod, if_true] at h0
  norm_num at h1 h2
  have := hb _ (List.getElem?_mem h0)
  have := hb _ (List.getElem?_mem h1)
  have := hb _ (List.getElem?_mem h2)
  omega

theorem grayAtXY_uniform {img : Image} {r g b : Nat} (hu : img.Uniform r g b)
    (hwf : img.WellFormed) (x y : Int) :
    grayAtXY img.pixels img.width img.height img.channels x y = to_gray r g b := by
  obtain ⟨hw, hh, hch, hlen, hb, _⟩ := hwf
  have hx := clampEdge_range x _ hw
  have hy := clampEdge_range y _ hh
  have hr := pixel_index_range hx.1 hx.2 hy.1 hy.2 (c := 2) (n := 3) (by omega) (by omega)
  have ht : 0 ≤ clampEdge y img.height * img.width + clampEdge x img.width :=
    add_nonneg (mul_nonneg hy.1 hw.le) hx.1
  obtain ⟨e0, e1, e2⟩ := hu.getD
    (clampEdge y img.height * img.width + clampEdge x img.width).toNat (by omega)
  unfold grayAtXY byteAt
  rw [hch]
  have i0 : ((clampEdge y img.height * img.width + clampEdge x img.width) * 3 + 0).toNat =
      (clampEdge y img.height * img.width + clampEdge x img.width).toNat * 3 := by omega
  have i1 : ((clampEdge y img.height * img.width + clampEdge x img.width) * 3 + 1).toNat =
      (clampEdge y img.height * img.width + clampEdge x img.width).toNat * 3 + 1 := by omega
  have i2 : ((clampEdge y img.height * img.width + clampEdge x img.width) * 3 + 2).toNat =
      (clampEdge y img.height * img.width + clampEdge x img.width).toNat * 3 + 2 := by omega
  rw [i0, i1, i2, e0, e1, e2]

/-- Claim C7.  On a well-formed image in which all pixels have the same colour (of any
size whose byte count `width * height * 3` is an `int` value, 1×1 included), `cpu_sobel`
returns an image of the same shape whose bytes are all 0. -/
theorem cpu_sobel_flat (ub : F32 → Nat) (img : Image) (hwf : img.WellFormed) (r g b : Nat)
    (hu : img.Uniform r g b) :
    ∃ out, cpu_sobel ub img = some out ∧
      out.width = img.width ∧ out.height = img.height ∧ out.channels = img.channels ∧
      out.pixels.length = img.pixels.length ∧ ∀ p ∈ out.pixels, p = 0 := by
  obtain ⟨out, hout, hlen, hpt⟩ := cpu_sobel_rewritten ub img hwf.covered
  obtain ⟨hr, hg, hb⟩ := hu.bytes_le hwf
  obtain ⟨G, hG, hrep, herr⟩ := to_gray_spec r g b hr hg hb
  have hGb : |G| ≤ 257 := by
    have hr' : (r : ℚ) ≤ 255 := by exact_mod_cast hr
    have hg' : (g : ℚ) ≤ 255 := by exact_mod_cast hg
    have hb' : (b : ℚ) ≤ 255 := by exact_mod_cast hb
    have hr0 : (0 : ℚ) ≤ r := by positivity
    have hg0 : (0 : ℚ) ≤ g := by positivity
    have hb0 : (0 : ℚ) ≤ b := by positivity
    rw [abs_le] at herr ⊢
    constructor <;> linarith
  have hzero : ∀ X Y : Int, (sobelByte ub fun kx ky =>
      grayAtXY img.pixels img.width img.height img.channels (X + kx) (Y + ky)) = 0 := by
    intro X Y
    have : (fun kx ky => grayAtXY img.pixels img.width img.height img.channels (X + kx) (Y + ky))
        = fun _ _ => F32.fin G := by
      funext kx ky
      rw [grayAtXY_uniform hu hwf, hG]
    rw [this]
    exact sobelByte_const ub G hrep hGb
  simp only [List.length_replicate] at hlen hpt
  refine ⟨_, hout, rfl, rfl, rfl, hlen, ?_⟩
  intro p hp
  obtain ⟨j, hj⟩ := List.mem_iff_getElem?.mp hp
  have hjl : j < out.length := by
    by_contra hcon
    simp only at hj
    rw [List.getElem?_eq_none (by omega)] at hj
    exact Option.noConfusion hj
  have h1 := hpt j (by omega)
  simp only at hj
  rw [hj, hzero] at h1
  have h2 : (List.replicate img.pixels.length 0).getD j 0 = 0 := by
    rw [List.getD_eq_getElem?_getD, List.getElem?_replicate]
    split_ifs <;> rfl
  rw [h2] at h1
  simpa using h1

theorem cpu_sobel_flat_witness :
    Image.WellFormed
      ⟨3, 2, 3, [7, 100, 255, 7, 100, 255, 7, 100, 255, 7, 100, 255, 7, 100, 255, 7, 100, 255]⟩ ∧
    Image.Uniform
      ⟨3, 2, 3, [7, 100, 255, 7, 100, 255, 7, 100, 255, 7, 100, 255, 7, 100, 255, 7, 100, 255]⟩
      7 100 255 ∧
    ∃ out, cpu_sobel (fun _ => 0)
        ⟨3, 2, 3, [7, 100, 255, 7, 100, 255, 7, 100, 255, 7, 100, 255, 7, 100, 255, 7, 100, 255]⟩ =
        some out ∧
      out.width = 3 ∧ out.height = 2 ∧ out.channels = 3 ∧
      out.pixels.length = 18 ∧ ∀ p ∈ out.pixels, p = 0 :=
  ⟨by decide, by decide,
    cpu_sobel_flat (fun _ => 0)
      ⟨3, 2, 3, [7, 100, 255, 7, 100, 255, 7, 100, 255, 7, 100, 255, 7, 100, 255, 7, 100, 255]⟩
      (by decide) 7 100 255 (by decide)⟩

/-! ## Totality and shape -/


theorem RewrittenTo.bytes_lt {orig : List Nat} {f : Nat → Nat} {done : Nat → Bool}
    {out : List Nat} (h : RewrittenTo orig f done out) (hf : ∀ j, f j < 256)
    (ho : ∀ p ∈ orig, p < 256) : ∀ p ∈ out, p < 256 := by
  intro p hp
  obtain ⟨j, hj⟩ := List.mem_iff_getElem?.mp hp
  have hjl : j < out.length := by
    by_contra hcon
    rw [List.getElem?_eq_none (by omega)] at hj
    exact Option.noConfusion hj
  have h1 := h.2 j (by rw [← h.1]; exact hjl)
  rw [hj] at h1
  rw [Option.some.inj h1]
  split_ifs
  · exact hf j
  · rw [List.getD_eq_getElem?_getD, List.getElem?_eq_getElem (by rw [← h.1]; exact hjl)]
    exact ho _ (List.getElem_mem _)

theorem intToByte_lt (n : Int) : intToByte n < 256 := by
  unfold intToByte; omega

/-- A buffer of the right length and of bytes makes the image well formed again. -/
theorem Image.WellFormed.with_pixels {img : Image} (hwf : img.WellFormed) (out : List Nat)
    (hlen : out.length = img.pixels.length) (hb : ∀ p ∈ out, p < 256) :
    Image.WellFormed { img with pixels := out } := by
  obtain ⟨hw, hh, hch, hL, _, hfit⟩ := hwf
  exact ⟨hw, hh, hch, by simp only [hlen]; exact hL, hb, hfit⟩

/-- Claim C8.  On a well-formed image (positive width and height, three channels,
`width * height * 3` bytes, that count being an `int` value) and for every parameter value
(infinities and NaN included), each of `cpu_grayscale`, `cpu_brightness`, `cpu_contrast`,
`cpu_box_blur` and `cpu_sobel` returns a result, which in this model means that every
index it computed was within `int` and every index it read or wrote was inside the
buffer, and the result is a well-formed image (three channels, `width * height * 3`
bytes) of the same width and height. -/
theorem cpu_filters_total (ub : F32 → Nat) (img : Image) (hwf : img.WellFormed)
    (delta factor : F32) :
    (∃ out, cpu_grayscale ub img = some out ∧ out.WellFormed ∧
        out.width = img.width ∧ out.height = img.height) ∧
      (∃ out, cpu_brightness ub img delta = some out ∧ out.WellFormed ∧
        out.width = img.width ∧ out.height = img.height) ∧
      (∃ out, cpu_contrast ub img factor = some out ∧ out.WellFormed ∧
        out.width = img.width ∧ out.height = img.height) ∧
      (∃ out, cpu_box_blur img = some out ∧ out.WellFormed ∧
        out.width = img.width ∧ out.height = img.height) ∧
      (∃ out, cpu_sobel ub img = some out ∧ out.WellFormed ∧
        out.width = img.width ∧ out.height = img.height) := by
  have hbytes := hwf.2.2.2.2.1
  refine ⟨?_, ?_, ?_, ?_, ?_⟩
  · obtain ⟨out, h1, h2⟩ := cpu_grayscale_rewritten ub img hwf.covered
    exact ⟨_, h1, hwf.with_pixels out h2.1 (h2.bytes_lt (fun j => grayAt_lt _ _ _ _) hbytes),
      rfl, rfl⟩
  · obtain ⟨out, h1, h2⟩ := cpu_brightness_rewritten ub img hwf.covered delta
    exact ⟨_, h1, hwf.with_pixels out h2.1 (h2.bytes_lt (fun j => clamp_byte_lt _ _) hbytes),
      rfl, rfl⟩
  · obtain ⟨out, h1, h2⟩ := cpu_contrast_rewritten ub img hwf.covered factor
    exact ⟨_, h1, hwf.with_pixels out h2.1 (h2.bytes_lt (fun j => clamp_byte_lt _ _) hbytes),
      rfl, rfl⟩
  · obtain ⟨out, h1, hlen, hfill⟩ := cpu_box_blur_filled img hwf.covered
    obtain ⟨_, _, hC3, hL⟩ := hwf.natShape3
    refine ⟨_, h1, hwf.with_pixels out hlen ?_, rfl, rfl⟩
    intro p hp
    obtain ⟨j, hj⟩ := List.mem_iff_getElem?.mp hp
    have hjl : j < out.length := by
      by_contra hcon
      rw [List.getElem?_eq_none (by omega)] at hj
      exact Option.noConfusion hj
    have h3 := hfill j (by rw [hC3]; omega)
    rw [hj] at h3
    rw [Option.some.inj h3]
    exact intToByte_lt _
  · obtain ⟨out, h1, h2⟩ := cpu_sobel_rewritten ub img hwf.covered
    refine ⟨_, h1, hwf.with_pixels out (by simpa using h2.1)
      (h2.bytes_lt (fun j => clamp_byte_lt _ _) ?_), rfl, rfl⟩
    intro p hp
    rw [List.eq_of_mem_replicate hp]
    norm_num

theorem cpu_filters_total_witness :
    Image.WellFormed ⟨2, 1, 3, [0, 10, 20, 30, 40, 255]⟩ ∧
    ((∃ out, cpu_grayscale (fun _ => 0) ⟨2, 1, 3, [0, 10, 20, 30, 40, 255]⟩ = some out ∧
        out.WellFormed ∧ out.width = 2 ∧ out.height = 1) ∧
      (∃ out, cpu_brightness (fun _ => 0) ⟨2, 1, 3, [0, 10, 20, 30, 40, 255]⟩ F32.nan =
          some out ∧ out.WellFormed ∧ out.width = 2 ∧ out.height = 1) ∧
      (∃ out, cpu_contrast (fun _ => 0) ⟨2, 1, 3, [0, 10, 20, 30, 40, 255]⟩ (F32.inf false) =
          some out ∧ out.WellFormed ∧ out.width = 2 ∧ out.height = 1) ∧
      (∃ out, cpu_box_blur ⟨2, 1, 3, [0, 10, 20, 30, 40, 255]⟩ = some out ∧
        out.WellFormed ∧ out.width = 2 ∧ out.height = 1) ∧
      (∃ out, cpu_sobel (fun _ => 0) ⟨2, 1, 3, [0, 10, 20, 30, 40, 255]⟩ = some out ∧
        out.WellFormed ∧ out.width = 2 ∧ out.height = 1)) :=
  ⟨by decide, cpu_filters_total (fun _ => 0) ⟨2, 1, 3, [0, 10, 20, 30, 40, 255]⟩ (by decide)
    F32.nan (F32.inf false)⟩

/-! ## Malformed images -/

/-- Claim C9 as stated fails: `cpu_box_blur` neither rejects the 1×1 three-channel image
whose buffer has four bytes, which it returns with the last byte changed, nor the 2×1
image with four channels, which it blurs channel by channel. -/
theorem malformed_image_accepted :
    (([10, 20, 30, 40] : List Nat).length : Int) ≠ 1 * 1 * 3 ∧
      cpu_box_blur ⟨1, 1, 3, [10, 20, 30, 40]⟩ = some ⟨1, 1, 3, [10, 20, 30, 0]⟩ ∧
      cpu_box_blur ⟨2, 1, 4, [10, 20, 30, 40, 50, 60, 70, 80]⟩ =
        some ⟨2, 1, 4, [23, 33, 43, 53, 36, 46, 56, 66]⟩ := by
  refine ⟨by decide, by decide, by decide⟩

/-- Claim C9, as the code has it.  The filters do not validate the image.  On an image with
positive width and height, at least three channels, a buffer of at least
`width * height * channels` bytes and `width * height * channels` within `int`, whether or
not the channel count is 3 and the buffer length is exactly `width * height * channels`,
each of the five filters returns the image with a buffer of the same length, processed
with stride `channels`:
`cpu_grayscale` replaces the first three channels of each of the `width * height` pixels
by the luma byte of that pixel and leaves every other byte as it was;
`cpu_brightness` and `cpu_contrast` replace each of the first `width * height * channels`
bytes by its image and leave the bytes after them as they were;
`cpu_box_blur` returns a buffer of zeros in which each of the first
`width * height * channels` bytes is the truncated mean of its nine samples;
`cpu_sobel` returns a buffer of zeros in which the first three channels of each of the
`width * height` pixels hold the gradient magnitude of that pixel. -/
theorem cpu_filters_accept_covered (ub : F32 → Nat) (img : Image) (hcov : img.Covered)
    (delta factor : F32) :
    (∃ out, cpu_grayscale ub img = some { img with pixels := out } ∧
        RewrittenTo img.pixels
          (fun j => grayAt ub img.pixels img.channels.toNat (j / img.channels.toNat))
          (grayDone img.channels.toNat (img.height.toNat * img.width.toNat)) out) ∧
      (∃ out, cpu_brightness ub img delta = some { img with pixels := out } ∧
        RewrittenTo img.pixels
          (fun j => brightnessByte ub (F32.clamp delta (F32.lit (-1)) (F32.lit 1))
            (img.pixels.getD j 0))
          (fun j => decide (j < img.height.toNat * img.width.toNat * img.channels.toNat))
          out) ∧
      (∃ out, cpu_contrast ub img factor = some { img with pixels := out } ∧
        RewrittenTo img.pixels
          (fun j => contrastByte ub (F32.max factor (F32.lit 0)) (img.pixels.getD j 0))
          (fun j => decide (j < img.height.toNat * img.width.toNat * img.channels.toNat))
          out) ∧
      (∃ out, cpu_box_blur img = some { img with pixels := out } ∧
        RewrittenTo (List.replicate img.pixels.length 0)
          (fun j => intToByte (Int.tdiv
            (boxSum img.pixels img.width img.height img.channels
              ((j / img.channels.toNat % img.width.toNat : Nat) : Int)
              ((j / img.channels.toNat / img.width.toNat : Nat) : Int)
              ((j % img.channels.toNat : Nat) : Int) : Int) 9))
          (fun j => decide (j < img.height.toNat * img.width.toNat * img.channels.toNat))
          out) ∧
      (∃ out, cpu_sobel ub img = some { img with pixels := out } ∧
        RewrittenTo (List.replicate img.pixels.length 0)
          (fun j => sobelByte ub fun kx ky =>
            grayAtXY img.pixels img.width img.height img.channels
              (((j / img.channels.toNat % img.width.toNat : Nat) : Int) + kx)
              (((j / img.channels.toNat / img.width.toNat : Nat) : Int) + ky))
          (grayDone img.channels.toNat (img.height.toNat * img.width.toNat)) out) :=
  ⟨cpu_grayscale_rewritten ub img hcov, cpu_brightness_rewritten ub img hcov delta,
    cpu_contrast_rewritten ub img hcov factor, cpu_box_blur_rewritten img hcov,
    cpu_sobel_rewritten ub img hcov⟩

theorem cpu_filters_accept_covered_witness :
    fourChannelImage.Covered ∧
    ((∃ out, cpu_grayscale (fun _ => 0) fourChannelImage =
          some { fourChannelImage with pixels := out } ∧
        RewrittenTo fourChannelImage.pixels
          (fun j => grayAt (fun _ => 0) fourChannelImage.pixels fourChannelImage.channels.toNat
            (j / fourChannelImage.channels.toNat))
          (grayDone fourChannelImage.channels.toNat
            (fourChannelImage.height.toNat * fourChannelImage.width.toNat)) out) ∧
      (∃ out, cpu_brightness (fun _ => 0) fourChannelImage (F32.fin 0) =
          some { fourChannelImage with pixels := out } ∧
        RewrittenTo fourChannelImage.pixels
          (fun j => brightnessByte (fun _ => 0)
            (F32.clamp (F32.fin 0) (F32.lit (-1)) (F32.lit 1))
            (fourChannelImage.pixels.getD j 0))
          (fun j => decide (j < fourChannelImage.height.toNat *
            fourChannelImage.width.toNat * fourChannelImage.channels.toNat))
          out) ∧
      (∃ out, cpu_contrast (fun _ => 0) fourChannelImage (F32.fin 1) =
          some { fourChannelImage with pixels := out } ∧
        RewrittenTo fourChannelImage.pixels
          (fun j => contrastByte (fun _ => 0) (F32.max (F32.fin 1) (F32.lit 0))
            (fourChannelImage.pixels.getD j 0))
          (fun j => decide (j < fourChannelImage.height.toNat *
            fourChannelImage.width.toNat * fourChannelImage.channels.toNat))
          out) ∧
      (∃ out, cpu_box_blur fourChannelImage = some { fourChannelImage with pixels := out } ∧
        RewrittenTo (List.replicate fourChannelImage.pixels.length 0)
          (fun j => intToByte (Int.tdiv
            (boxSum fourChannelImage.pixels fourChannelImage.width fourChannelImage.height
              fourChannelImage.channels
              ((j / fourChannelImage.channels.toNat % fourChannelImage.width.toNat : Nat) : Int)
              ((j / fourChannelImage.channels.toNat / fourChannelImage.width.toNat : Nat) : Int)
              ((j % fourChannelImage.channels.toNat : Nat) : Int) : Int) 9))
          (fun j => decide (j < fourChannelImage.height.toNat *
            fourChannelImage.width.toNat * fourChannelImage.channels.toNat))
          out) ∧
      (∃ out, cpu_sobel (fun _ => 0) fourChannelImage =
          some { fourChannelImage with pixels := out } ∧
        RewrittenTo (List.replicate fourChannelImage.pixels.length 0)
          (fun j => sobelByte (fun _ => 0) fun kx ky =>
            grayAtXY fourChannelImage.pixels fourChannelImage.width fourChannelImage.height
              fourChannelImage.channels
              (((j / fourChannelImage.channels.toNat % fourChannelImage.width.toNat : Nat) :
                Int) + kx)
              (((j / fourChannelImage.channels.toNat / fourChannelImage.width.toNat : Nat) :
                Int) + ky))
          (grayDone fourChannelImage.channels.toNat
            (fourChannelImage.height.toNat * fourChannelImage.width.toNat)) out)) :=
  ⟨by decide, cpu_filters_accept_covered (fun _ => 0) fourChannelImage (by decide) (F32.fin 0)
    (F32.fin 1)⟩

/-! ## The "Apply filter" step -/

/-- When the sequential engine throws, the parallel engine is not invoked and the state is
left as it was. -/
theorem applyFilter_cpu_failure (cpu gpu : FilterType → F32 → F32 → Image → EngineRun)
    (cpu_ms gpu_ms : ℚ) (clicked : Bool) (s : GuiState)
    (hf : s.current_filter ≠ FilterType.None)
    (hcpu : cpu s.current_filter s.brightness_delta s.contrast_factor s.original_image =
      EngineRun.threw) :
    (applyFilter cpu gpu cpu_ms gpu_ms clicked s).gpu_invoked = false ∧
      (applyFilter cpu gpu cpu_ms gpu_ms clicked s).state = s := by
  unfold applyFilter
  split_ifs
  · simp only [hcpu, and_self]
  · simp only [and_self]

/-- When the sequential engine returns and the parallel engine throws, the handler has
already stored the sequential time of this run; the other values are left as they
were. -/
theorem applyFilter_gpu_failure (cpu gpu : FilterType → F32 → F32 → Image → EngineRun)
    (cpu_ms gpu_ms : ℚ) (s : GuiState) (cpu_image : Image)
    (hi : s.has_image = true) (hf : s.current_filter ≠ FilterType.None)
    (hcpu : cpu s.current_filter s.brightness_delta s.contrast_factor s.original_image =
      EngineRun.returned cpu_image)
    (hgpu : gpu s.current_filter s.brightness_delta s.contrast_factor s.original_image =
      EngineRun.threw) :
    (applyFilter cpu gpu cpu_ms gpu_ms true s).state = { s with last_cpu_ms := cpu_ms } := by
  unfold applyFilter
  simp only [hi, Bool.and_self, if_true, if_neg hf, hcpu, hgpu]

theorem cpuSwitch_shownState (ub : F32 → Nat) :
    cpuSwitch ub FilterType.Grayscale (F32.fin 0) (F32.fin 1) ⟨1, 1, 3, [10, 20, 30]⟩ =
      EngineRun.returned ⟨1, 1, 3, [18, 18, 18]⟩ := by
  have h := cpu_grayscale_uniform ub ⟨1, 1, 3, [10, 20, 30]⟩ (by decide) 10 20 30 (by decide)
  rw [clamp_byte_to_gray ub 10 20 30 18 (by norm_num) (by norm_num) (by norm_num)
    (by norm_num) (by norm_num) (by norm_num)] at h
  simp only [cpuSwitch, h]
  rfl

/-- Claim C10 at a failing input.  The GUI shows the timings of an earlier run (1 ms, 2 ms,
speed-up 1/2); "Apply filter" is pressed, `cpu_grayscale` returns after 5 ms and the
parallel engine throws.  The parallel engine was invoked, the exception was caught, and
`last_cpu_ms` is now 5 while `last_gpu_ms`, `last_speedup`, `have_timings` and the processed
image are those of the earlier run. -/
theorem applyFilter_stale_timing :
    applyFilter (cpuSwitch fun _ => 0) (fun _ _ _ _ => EngineRun.threw) 5 7 true shownState =
        ⟨{ shownState with last_cpu_ms := 5 }, true, true⟩ ∧
      shownState.last_cpu_ms = 1 ∧ shownState.have_timings = true ∧ (5 : ℚ) ≠ 1 := by
  refine ⟨?_, rfl, rfl, by norm_num⟩
  have h := cpuSwitch_shownState (fun _ => 0)
  unfold applyFilter
  simp only [shownState, Bool.and_self, if_true, h]
  rfl

/-! ## Parallel engine: units of work and schedules -/

theorem runUnits_length (sched : List Nat) (unit : Nat → Nat → Nat) (out : List Nat) :
    (runUnits sched unit out).length = out.length := by
  induction sched generalizing out with
  | nil => rfl
  | cons p s ih =>
      have h := ih (((out.set (3 * p) (unit p 0)).set (3 * p + 1) (unit p 1)).set (3 * p + 2)
        (unit p 2))
      simpa [runUnits] using h

theorem unit_store_getD (out : List Nat) (u : Nat → Nat) (p j : Nat) (hj : j < out.length) :
    (((out.set (3 * p) (u 0)).set (3 * p + 1) (u 1)).set (3 * p + 2) (u 2)).getD j 0 =
      if j / 3 = p then u (j % 3) else out.getD j 0 := by
  rw [List.getD_eq_getElem?_getD, List.getD_eq_getElem?_getD]
  simp only [List.getElem?_set, List.length_set]
  by_cases h2 : 3 * p + 2 = j
  · have h3 : j / 3 = p := by omega
    have h4 : j % 3 = 2 := by omega
    simp [h2, h3, h4, hj]
  · by_cases h1 : 3 * p + 1 = j
    · have h3 : j / 3 = p := by omega
      have h4 : j % 3 = 1 := by omega
      simp [h2, h1, h3, h4, hj]
    · by_cases h0 : 3 * p = j
      · have h3 : j / 3 = p := by omega
        have h4 : j % 3 = 0 := by omega
        simp [h2, h1, h0, h3, h4, hj]
      · have h3 : j / 3 ≠ p := by omega
        simp [h2, h1, h0, h3]

theorem runUnits_getD (sched : List Nat) (unit : Nat → Nat → Nat) (out : List Nat) (j : Nat)
    (hj : j < out.length) :
    (runUnits sched unit out).getD j 0 =
      if j / 3 ∈ sched then unit (j / 3) (j % 3) else out.getD j 0 := by
  induction sched generalizing out with
  | nil => simp [runUnits]
  | cons p s ih =>
      have h := ih (((out.set (3 * p) (unit p 0)).set (3 * p + 1) (unit p 1)).set (3 * p + 2)
        (unit p 2)) (by simpa using hj)
      have hstep : runUnits (p :: s) unit out = runUnits s unit
          (((out.set (3 * p) (unit p 0)).set (3 * p + 1) (unit p 1)).set (3 * p + 2)
            (unit p 2)) := rfl
      rw [hstep, h, unit_store_getD out (unit p) p j hj]
      by_cases hs : j / 3 ∈ s
      · simp [hs]
      · by_cases hp : j / 3 = p
        · simp [hp]
        · simp [hs, hp]

theorem Image.Schedule.mem {img : Image} {sched : List Nat} (h : img.Schedule sched)
    (hwf : img.WellFormed) (j : Nat) (hj : j < img.pixels.length) : j / 3 ∈ sched := by
  obtain ⟨hw, hh, -, hlen, -, -⟩ := hwf
  rw [h.mem_iff, List.mem_range]
  have h1 : ((img.width * img.height).toNat : Int) = img.width * img.height :=
    Int.toNat_of_nonneg (by positivity)
  omega

/-- Bytes of the output of a parallel run on a well-formed image. -/
theorem runUnits_scheduled {img : Image} {sched : List Nat} (h : img.Schedule sched)
    (hwf : img.WellFormed) (unit : Nat → Nat → Nat) (j : Nat) (hj : j < img.pixels.length) :
    (runUnits sched unit (List.replicate img.pixels.length 0)).getD j 0 =
      unit (j / 3) (j % 3) := by
  rw [runUnits_getD _ _ _ _ (by simpa using hj), if_pos (h.mem hwf j hj)]


/-! ## Parallel engine: rounding, summation orders and gradient magnitudes -/

theorem roundByte_eq (ub : F32 → Nat) (v : F32) : roundByte ub v = clamp_byte ub v := rfl

/-- The byte stored for a finite value `q`: the integer part of a number `z` within `2^-16`
of the clamped value plus one half. -/
theorem clamp_byte_fin (ub : F32 → Nat) (q : ℚ) :
    ∃ z : ℚ, (clamp_byte ub (F32.fin q) : Int) = ⌊z⌋ ∧ 0 ≤ z ∧
      |z - ((if q < 0 then 0 else if 255 < q then 255 else q) + 1 / 2)| ≤ 1 / 2 ^ 16 := by
  unfold clamp_byte
  simp only [F32.lit_zero, F32.lit_255, F32.lit_half, F32.clamp_fin, F32.fin_add]
  set c : ℚ := if q < 0 then 0 else if 255 < q then 255 else q with hc
  have hb : 0 ≤ c ∧ c ≤ 255 := by
    rw [hc]; split_ifs <;> constructor <;> linarith
  have habs : |c + 1 / 2| ≤ 2 ^ (8 : Nat) := by
    rw [abs_le]; constructor <;> norm_num <;> linarith [hb.1, hb.2]
  have habs' : |c + 1 / 2| ≤ 2 ^ (127 : Nat) := le_trans habs (by norm_num)
  rw [F32.ofRat_fin _ habs']
  have hlo : (1 / 2 : ℚ) ≤ roundToF32 (c + 1 / 2) :=
    roundToF32_ge _ _ representable_half (by linarith [hb.1])
  have hrep : Representable (((511 : Int) : ℚ) / 2 ^ 1) :=
    representable_dyadic _ 1 (by norm_num) (by norm_num)
  have hhi : roundToF32 (c + 1 / 2) ≤ ((511 : Int) : ℚ) / 2 ^ 1 :=
    roundToF32_le _ _ hrep (by push_cast; linarith [hb.2])
  have hz0 : (0 : ℚ) ≤ roundToF32 (c + 1 / 2) := by linarith
  refine ⟨roundToF32 (c + 1 / 2), ?_, hz0, ?_⟩
  · have hf0 : 0 ≤ ⌊roundToF32 (c + 1 / 2)⌋ := Int.floor_nonneg.mpr hz0
    have hf1 : ⌊roundToF32 (c + 1 / 2)⌋ ≤ 255 := by
      have : ⌊roundToF32 (c + 1 / 2)⌋ < 256 := by
        rw [Int.floor_lt]; push_cast at hhi ⊢; linarith
      omega
    unfold F32.toByte
    simp only
    rw [if_pos hz0, if_pos ⟨hf0, hf1⟩]
    exact Int.toNat_of_nonneg hf0
  · have := roundToF32_within (c + 1 / 2) 8 habs
    calc |roundToF32 (c + 1 / 2) - (c + 1 / 2)| ≤ 2 ^ 8 / 2 ^ 24 := this
      _ = 1 / 2 ^ 16 := by norm_num

/-- Raising a value by at most `3/4` raises the byte stored for it by at most 1, whatever
the two engines do in an undefined conversion. -/
theorem clamp_byte_le_succ (ub ub' : F32 → Nat) (q1 q2 : ℚ) (h : q1 ≤ q2 + 3 / 4) :
    clamp_byte ub (F32.fin q1) ≤ clamp_byte ub' (F32.fin q2) + 1 := by
  obtain ⟨z1, e1, -, b1⟩ := clamp_byte_fin ub q1
  obtain ⟨z2, e2, -, b2⟩ := clamp_byte_fin ub' q2
  have hc : (if q1 < 0 then (0 : ℚ) else if 255 < q1 then 255 else q1) ≤
      (if q2 < 0 then (0 : ℚ) else if 255 < q2 then 255 else q2) + 3 / 4 := by
    split_ifs <;> linarith
  rw [abs_le] at b1 b2
  have hz : z1 ≤ z2 + 1 := by
    have : (1 : ℚ) / 2 ^ 16 ≤ 1 / 16 := by norm_num
    linarith [b1.2, b2.1]
  have hfl : ⌊z1⌋ ≤ ⌊z2⌋ + 1 := by
    calc ⌊z1⌋ ≤ ⌊z2 + 1⌋ := Int.floor_le_floor hz
      _ = ⌊z2⌋ + 1 := Int.floor_add_one z2
  omega

/-- Two values within `3/4` of each other are stored as bytes that differ by at most 1. -/
theorem clamp_byte_close (ub ub' : F32 → Nat) (q1 q2 : ℚ) (h : |q1 - q2| ≤ 3 / 4) :
    |(clamp_byte ub (F32.fin q1) : Int) - (clamp_byte ub' (F32.fin q2) : Int)| ≤ 1 := by
  rw [abs_le] at h
  have h1 := clamp_byte_le_succ ub ub' q1 q2 (by linarith [h.2])
  have h2 := clamp_byte_le_succ ub' ub q2 q1 (by linarith [h.1])
  rw [abs_le]; omega

theorem SumOrder.terms_length_pos (o : SumOrder) : 0 < o.terms.length := by
  induction o with
  | term i => simp [SumOrder.terms]
  | plus l r ihl _ => simp only [SumOrder.terms, List.length_append]; omega

theorem getD_rat_bound (qs : List ℚ) (B : ℚ) (hB : 0 ≤ B)
    (hq : ∀ q ∈ qs, Representable q ∧ |q| ≤ B) (i : Nat) :
    Representable (qs.getD i 0) ∧ |qs.getD i 0| ≤ B := by
  rw [List.getD_eq_getElem?_getD]
  rcases h : qs[i]? with _ | q
  · simpa using ⟨representable_zero, hB⟩
  · simpa using hq q (List.getElem?_mem h)

theorem SumOrder.exact_bound (o : SumOrder) (qs : List ℚ) (B : ℚ) (hB : 0 ≤ B)
    (hq : ∀ q ∈ qs, Representable q ∧ |q| ≤ B) :
    |(o.terms.map fun i => qs.getD i 0).sum| ≤ o.terms.length * B := by
  induction o with
  | term i => simpa [SumOrder.terms] using (getD_rat_bound qs B hB hq i).2
  | plus l r ihl ihr =>
      simp only [SumOrder.terms, List.map_append, List.sum_append, List.length_append,
        Nat.cast_add]
      calc |(l.terms.map fun i => qs.getD i 0).sum + (r.terms.map fun i => qs.getD i 0).sum|
          ≤ |(l.terms.map fun i => qs.getD i 0).sum| + |(r.terms.map fun i => qs.getD i 0).sum| :=
            abs_add _ _
        _ ≤ l.terms.length * B + r.terms.length * B := add_le_add ihl ihr
        _ = (l.terms.length + r.terms.length) * B := by ring

/-- A floating-point sum of representable terms of magnitude at most `B`, added in any
order: as long as the number of terms times `B + 2^n / 2^24` stays within `2^n`, every
addition loses at most `2^n / 2^24`. -/
theorem SumOrder.sum_fin (o : SumOrder) (qs : List ℚ) (B : ℚ) (n : Nat) (hB : 0 ≤ B)
    (hn : n ≤ 20) (hq : ∀ q ∈ qs, Representable q ∧ |q| ≤ B)
    (hsize : (o.terms.length : ℚ) * (B + 2 ^ n / 2 ^ 24) ≤ 2 ^ n) :
    ∃ v, o.sum (qs.map F32.fin) = F32.fin v ∧ Representable v ∧
      |v - (o.terms.map fun i => qs.getD i 0).sum| ≤
        ((o.terms.length : ℚ) - 1) * (2 ^ n / 2 ^ 24) := by
  have hε : (0 : ℚ) ≤ 2 ^ n / 2 ^ 24 := by positivity
  have h20 : (2 : ℚ) ^ n ≤ 2 ^ 20 := pow_le_pow_right₀ (by norm_num) hn
  have hround : ∀ x : ℚ, |x| ≤ 2 ^ n → |roundToF32 x - x| ≤ 2 ^ n / 2 ^ 24 :=
    fun x hx => roundToF32_within x n hx
  generalize (2 : ℚ) ^ n / 2 ^ 24 = ε at hε hsize hround ⊢
  induction o with
  | term i =>
      refine ⟨qs.getD i 0, ?_, (getD_rat_bound qs B hB hq i).1, ?_⟩
      · simp only [SumOrder.sum, F32.lit_zero]
        exact List.getD_map ..
      · simp [SumOrder.terms]
  | plus l r ihl ihr =>
      have hl0 := l.terms_length_pos
      have hr0 := r.terms_length_pos
      have hl1 : (1 : ℚ) ≤ l.terms.length := by exact_mod_cast hl0
      have hr1 : (1 : ℚ) ≤ r.terms.length := by exact_mod_cast hr0
      simp only [SumOrder.terms, List.length_append, Nat.cast_add] at hsize
      have hBε : 0 ≤ B + ε := by linarith
      obtain ⟨v1, e1, -, b1⟩ := ihl (by nlinarith)
      obtain ⟨v2, e2, -, b2⟩ := ihr (by nlinarith)
      have s1 := l.exact_bound qs B hB hq
      have s2 := r.exact_bound qs B hB hq
      simp only [SumOrder.terms, List.map_append, List.sum_append, List.length_append,
        Nat.cast_add]
      generalize (l.terms.map fun i => qs.getD i 0).sum = S1 at b1 s1 ⊢
      generalize (r.terms.map fun i => qs.getD i 0).sum = S2 at b2 s2 ⊢
      generalize (l.terms.length : ℚ) = nl at *
      generalize (r.terms.length : ℚ) = nr at *
      rw [abs_le] at b1 b2 s1 s2
      have habs : |v1 + v2| ≤ 2 ^ n := by
        rw [abs_le]
        constructor <;> nlinarith
      refine ⟨roundToF32 (v1 + v2), ?_, roundToF32_representable _, ?_⟩
      · simp only [SumOrder.sum, e1, e2, F32.fin_add]
        exact F32.ofRat_small _ (le_trans habs h20)
      · have hr := hround (v1 + v2) habs
        rw [abs_le] at hr ⊢
        constructor <;> nlinarith

/-- The square root of a non-negative `float` `s ≤ (2^n)²`: a `float` `m ≥ 0` within
`2^(n+1) / 2^24 + 2^-101` of a rational `R ≥ 0` with `R² ≤ s < (R + 2^-100)²`. -/
theorem F32.sqrt_spec (s : ℚ) (h0 : 0 ≤ s) (n : Nat) (hn : n ≤ 19) (h1 : s ≤ (2 ^ n) ^ 2) :
    ∃ m R : ℚ, F32.sqrt (F32.fin s) = F32.fin m ∧ 0 ≤ m ∧ 0 ≤ R ∧ R ^ 2 ≤ s ∧
      s < (R + 1 / 2 ^ 100) ^ 2 ∧ |m - R| ≤ 2 ^ (n + 1) / 2 ^ 24 + 1 / 2 ^ 101 := by
  have e200 : (2 : ℚ) ^ 200 = 2 ^ 100 * 2 ^ 100 := by norm_num
  have e101 : (2 : ℚ) ^ 101 = 2 * 2 ^ 100 := by norm_num
  have h100 : (1 : ℚ) ≤ 2 ^ 100 := by norm_num
  have h20 : (2 : ℚ) ^ (n + 1) ≤ 2 ^ 20 := pow_le_pow_right₀ (by norm_num) (by omega)
  unfold F32.sqrt
  simp only [if_neg (not_lt.mpr h0)]
  rw [e200, e101]
  clear e200 e101
  generalize (2 : ℚ) ^ 100 = c at h100 ⊢
  have hc : 0 < c := by linarith
  set N := ⌊s * (c * c)⌋.toNat with hN
  set r := Nat.sqrt N with hr
  set sticky : ℚ := if (r : ℚ) * r = s * (c * c) then 0 else 1 with hs
  have hs0 : 0 ≤ sticky := by rw [hs]; split_ifs <;> norm_num
  have hs1 : sticky ≤ 1 := by rw [hs]; split_ifs <;> norm_num
  have hpos : (0 : ℚ) ≤ s * (c * c) := mul_nonneg h0 (by positivity)
  have hN1 : (N : ℚ) ≤ s * (c * c) := by
    rw [hN, Int.floor_toNat]; exact Nat.floor_le hpos
  have hN2 : s * (c * c) < (N : ℚ) + 1 := by
    rw [hN, Int.floor_toNat]; exact Nat.lt_floor_add_one _
  have hr1 : ((r * r : Nat) : ℚ) ≤ N := by exact_mod_cast Nat.sqrt_le N
  have hr2 : ((N + 1 : Nat) : ℚ) ≤ (((r + 1) * (r + 1) : Nat) : ℚ) := by
    exact_mod_cast Nat.lt_succ_sqrt N
  push_cast at hr1 hr2
  have hr0 : (0 : ℚ) ≤ r := Nat.cast_nonneg r
  have hR0 : (0 : ℚ) ≤ r / c := div_nonneg hr0 hc.le
  have hRsq : ((r : ℚ) / c) ^ 2 ≤ s := by
    rw [div_pow, div_le_iff₀ (by positivity)]
    calc (r : ℚ) ^ 2 = r * r := by ring
      _ ≤ s * (c * c) := le_trans hr1 hN1
      _ = s * c ^ 2 := by ring
  have hRup : s < ((r : ℚ) / c + 1 / c) ^ 2 := by
    rw [← add_div, div_pow, lt_div_iff₀ (by positivity)]
    calc s * c ^ 2 = s * (c * c) := by ring
      _ < (N : ℚ) + 1 := hN2
      _ ≤ ((r : ℚ) + 1) * (r + 1) := hr2
      _ = ((r : ℚ) + 1) ^ 2 := by ring
  have hpn : (0 : ℚ) < 2 ^ n := by positivity
  have hRn : (r : ℚ) / c ≤ 2 ^ n := by
    by_contra hcon
    push_neg at hcon
    have : ((2 : ℚ) ^ n) ^ 2 < ((r : ℚ) / c) ^ 2 := by nlinarith
    linarith
  have hρ : (2 * (r : ℚ) + sticky) / (2 * c) = r / c + sticky / (2 * c) := by
    rw [add_div, mul_div_mul_left _ _ (two_ne_zero)]
  have hst0 : (0 : ℚ) ≤ sticky / (2 * c) := div_nonneg hs0 (by positivity)
  have hst1 : sticky / (2 * c) ≤ 1 / (2 * c) :=
    div_le_div_of_nonneg_right hs1 (by positivity)
  have h101 : (1 : ℚ) / (2 * c) ≤ 1 := by
    rw [div_le_one (by positivity)]; linarith
  have hn1 : (1 : ℚ) ≤ 2 ^ n := one_le_pow₀ (by norm_num)
  have hpow : (2 : ℚ) ^ (n + 1) = 2 * 2 ^ n := by ring
  have hval0 : (0 : ℚ) ≤ (2 * r + sticky) / (2 * c) := by rw [hρ]; linarith
  have hval1 : |(2 * (r : ℚ) + sticky) / (2 * c)| ≤ 2 ^ (n + 1) := by
    rw [abs_of_nonneg hval0, hρ, hpow]; linarith
  have herr := roundToF32_within _ (n + 1) hval1
  refine ⟨roundToF32 ((2 * r + sticky) / (2 * c)), r / c,
    by rw [F32.ofRat_small _ (le_trans hval1 h20)],
    roundToF32_ge _ _ representable_zero hval0, hR0, hRsq, hRup, ?_⟩
  rw [abs_le] at herr ⊢
  rw [hρ] at herr ⊢
  constructor <;> linarith [herr.1, herr.2]

theorem SumOrder.Covers.sum_eq {o : SumOrder} {n : Nat} (h : o.Covers n) (f : Nat → ℚ) :
    (o.terms.map f).sum = ((List.range n).map f).sum :=
  (List.Perm.map f h).sum_eq

theorem SumOrder.Covers.length {o : SumOrder} {n : Nat} (h : o.Covers n) :
    o.terms.length = n := by
  rw [List.Perm.length_eq h, List.length_range]

/-- The luma of three bytes with its products added in any order is finite, on the binary32
grid, at most 258 and within `2^-14` of the exact sum of the three rounded products. -/
theorem lumaIn_spec (o : SumOrder) (ho : o.Covers 3) (r g b : Nat) (hr : r ≤ 255)
    (hg : g ≤ 255) (hb : b ≤ 255) :
    ∃ v, lumaIn o r g b = F32.fin v ∧ Representable v ∧ |v| ≤ 258 ∧
      |v - (roundToF32 (10032775 / 2 ^ 25 * r) + roundToF32 (9848226 / 2 ^ 24 * g) +
        roundToF32 (15300821 / 2 ^ 27 * b))| ≤ 1 / 2 ^ 14 := by
  have hr0 : (0 : ℚ) ≤ r := by positivity
  have hg0 : (0 : ℚ) ≤ g := by positivity
  have hb0 : (0 : ℚ) ≤ b := by positivity
  have hr1 : (r : ℚ) ≤ 255 := by exact_mod_cast hr
  have hg1 : (g : ℚ) ≤ 255 := by exact_mod_cast hg
  have hb1 : (b : ℚ) ≤ 255 := by exact_mod_cast hb
  unfold lumaIn
  rw [F32.lit_299, F32.lit_587, F32.lit_114, F32.ofInt_nat r (by omega),
    F32.ofInt_nat g (by omega), F32.ofInt_nat b (by omega)]
  simp only [F32.fin_mul]
  rw [F32.ofRat_small (10032775 / 2 ^ 25 * r)
      (by rw [abs_le]; constructor <;> norm_num <;> linarith),
    F32.ofRat_small (9848226 / 2 ^ 24 * g)
      (by rw [abs_le]; constructor <;> norm_num <;> linarith),
    F32.ofRat_small (15300821 / 2 ^ 27 * b)
      (by rw [abs_le]; constructor <;> norm_num <;> linarith)]
  have hA0 : (0 : ℚ) ≤ roundToF32 (10032775 / 2 ^ 25 * r) :=
    roundToF32_ge _ _ representable_zero (by positivity)
  have hB0 : (0 : ℚ) ≤ roundToF32 (9848226 / 2 ^ 24 * g) :=
    roundToF32_ge _ _ representable_zero (by positivity)
  have hC0 : (0 : ℚ) ≤ roundToF32 (15300821 / 2 ^ 27 * b) :=
    roundToF32_ge _ _ representable_zero (by positivity)
  have hA1 : roundToF32 (10032775 / 2 ^ 25 * r) ≤ ((77 : Nat) : ℚ) :=
    roundToF32_le _ _ (representable_nat 77 (by norm_num)) (by norm_num; linarith)
  have hB1 : roundToF32 (9848226 / 2 ^ 24 * g) ≤ ((150 : Nat) : ℚ) :=
    roundToF32_le _ _ (representable_nat 150 (by norm_num)) (by norm_num; linarith)
  have hC1 : roundToF32 (15300821 / 2 ^ 27 * b) ≤ ((30 : Nat) : ℚ) :=
    roundToF32_le _ _ (representable_nat 30 (by norm_num)) (by norm_num; linarith)
  set A := roundToF32 (10032775 / 2 ^ 25 * r) with hAdef
  set B := roundToF32 (9848226 / 2 ^ 24 * g) with hBdef
  set C := roundToF32 (15300821 / 2 ^ 27 * b) with hCdef
  push_cast at hA1 hB1 hC1
  have hq : ∀ q ∈ [A, B, C], Representable q ∧ |q| ≤ 150 := by
    intro q hq
    simp only [List.mem_cons, List.mem_singleton, List.not_mem_nil, or_false] at hq
    rcases hq with rfl | rfl | rfl
    · exact ⟨roundToF32_representable _, by rw [abs_le]; constructor <;> linarith⟩
    · exact ⟨roundToF32_representable _, by rw [abs_le]; constructor <;> linarith⟩
    · exact ⟨roundToF32_representable _, by rw [abs_le]; constructor <;> linarith⟩
  obtain ⟨v, hv, hrep, herr⟩ := SumOrder.sum_fin o [A, B, C] 150 9 (by norm_num) (by norm_num)
    hq (by rw [ho.length]; norm_num)
  rw [ho.length, ho.sum_eq] at herr
  have hsum : ((List.range 3).map fun i => [A, B, C].getD i 0).sum = A + B + C := by
    simp [List.range_succ, add_assoc]
  rw [hsum] at herr
  have herr' : |v - (A + B + C)| ≤ 1 / 2 ^ 14 := by
    refine le_trans herr ?_
    norm_num
  refine ⟨v, hv, hrep, ?_, herr'⟩
  rw [abs_le] at herr' ⊢
  norm_num at herr'
  constructor <;> linarith

theorem to_gray_eq_lumaIn (r g b : Nat) :
    to_gray r g b = lumaIn (.plus (.plus (.term 0) (.term 1)) (.term 2)) r g b := rfl

/-- The lumas of three bytes computed by the two engines differ by at most `2^-13`. -/
theorem lumaIn_close (o : SumOrder) (ho : o.Covers 3) (r g b : Nat) (hr : r ≤ 255)
    (hg : g ≤ 255) (hb : b ≤ 255) :
    ∃ v1 v2, to_gray r g b = F32.fin v1 ∧ lumaIn o r g b = F32.fin v2 ∧
      Representable v1 ∧ Representable v2 ∧ |v1| ≤ 258 ∧ |v2| ≤ 258 ∧
      |v1 - v2| ≤ 1 / 2 ^ 13 := by
  obtain ⟨v1, e1, r1, b1, c1⟩ := lumaIn_spec (.plus (.plus (.term 0) (.term 1)) (.term 2))
    (by decide) r g b hr hg hb
  obtain ⟨v2, e2, r2, b2, c2⟩ := lumaIn_spec o ho r g b hr hg hb
  refine ⟨v1, v2, e1, e2, r1, r2, b1, b2, ?_⟩
  rw [abs_le] at c1 c2 ⊢
  norm_num at c1 c2 ⊢
  constructor <;> linarith

/-- The gradient magnitude `sqrt(x*x + y*y)` of two finite sums with `x² + y² ≤ 2^k`:
the sum of the rounded squares is a `float` `s` within `2^k / 2^22` of `x² + y²`, and the
rounded root `m` is within `2^(n+1) / 2^24 + 2^-101` of a rational `R` with
`R² ≤ s < (R + 2^-100)²`. -/
theorem magnitude_spec (x y : ℚ) (k n : Nat) (hk : k + 1 ≤ 2 * n) (hn : n ≤ 19)
    (hT : x ^ 2 + y ^ 2 ≤ 2 ^ k) :
    ∃ m R s : ℚ, F32.sqrt (F32.fin x * F32.fin x + F32.fin y * F32.fin y) = F32.fin m ∧
      0 ≤ m ∧ 0 ≤ R ∧ R ^ 2 ≤ s ∧ s < (R + 1 / 2 ^ 100) ^ 2 ∧
      |m - R| ≤ 2 ^ (n + 1) / 2 ^ 24 + 1 / 2 ^ 101 ∧ |s - (x ^ 2 + y ^ 2)| ≤ 2 ^ k / 2 ^ 22 := by
  have hk38 : k ≤ 37 := by omega
  have hp : (2 : ℚ) ^ k ≤ 2 ^ 37 := pow_le_pow_right₀ (by norm_num) hk38
  have hp0 : (0 : ℚ) < 2 ^ k := by positivity
  have hbig : (2 : ℚ) ^ 39 ≤ 2 ^ (127 : Nat) := by norm_num
  have h37 : (2 : ℚ) ^ 37 ≤ 2 ^ 39 := by norm_num
  have hpow : (2 : ℚ) ^ (k + 1) = 2 * 2 ^ k := by ring
  have hpn : (2 : ℚ) ^ (k + 1) ≤ (2 ^ n) ^ 2 := by
    rw [← pow_mul, mul_comm]; exact pow_le_pow_right₀ (by norm_num) hk
  have e22 : (2 : ℚ) ^ k / 2 ^ 22 = 4 * (2 ^ k / 2 ^ 24) := by
    rw [div_eq_iff (by norm_num)]; ring
  have e25 : (2 : ℚ) ^ (k + 1) / 2 ^ 24 = 2 * (2 ^ k / 2 ^ 24) := by
    rw [hpow]; ring
  have e4 : (2 : ℚ) ^ k / 2 ^ 24 ≤ 2 ^ k / 4 :=
    div_le_div_of_nonneg_left hp0.le (by norm_num) (by norm_num)
  have hε0 : (0 : ℚ) ≤ 2 ^ k / 2 ^ 24 := by positivity
  have hround : ∀ q : ℚ, |q| ≤ 2 ^ k → |roundToF32 q - q| ≤ 2 ^ k / 2 ^ 24 :=
    fun q hq => roundToF32_within q k hq
  have hround' : ∀ q : ℚ, |q| ≤ 2 ^ (k + 1) → |roundToF32 q - q| ≤ 2 ^ (k + 1) / 2 ^ 24 :=
    fun q hq => roundToF32_within q (k + 1) hq
  rw [e22]
  rw [e25, hpow] at hround'
  rw [hpow] at hpn
  clear e22 e25 hpow
  generalize (2 : ℚ) ^ k / 2 ^ 24 = ε at *
  generalize (2 : ℚ) ^ k = P at *
  have hx2 : 0 ≤ x * x := mul_self_nonneg x
  have hy2 : 0 ≤ y * y := mul_self_nonneg y
  have hT' : x * x + y * y ≤ P := by
    have : x * x + y * y = x ^ 2 + y ^ 2 := by ring
    rw [this]; exact hT
  have hxk : |x * x| ≤ P := by rw [abs_of_nonneg hx2]; linarith
  have hyk : |y * y| ≤ P := by rw [abs_of_nonneg hy2]; linarith
  have eu := hround (x * x) hxk
  have ev := hround (y * y) hyk
  have hu0 : 0 ≤ roundToF32 (x * x) := roundToF32_ge _ _ representable_zero hx2
  have hv0 : 0 ≤ roundToF32 (y * y) := roundToF32_ge _ _ representable_zero hy2
  simp only [F32.fin_mul]
  rw [F32.ofRat_fin (x * x) (by linarith), F32.ofRat_fin (y * y) (by linarith)]
  have hxy : x ^ 2 + y ^ 2 = x * x + y * y := by ring
  rw [hxy]
  generalize x * x = X at *
  generalize y * y = Y at *
  generalize roundToF32 X = u at eu hu0 ⊢
  generalize roundToF32 Y = v at ev hv0 ⊢
  rw [abs_le] at eu ev
  have huv : |u + v| ≤ 2 * P := by
    rw [abs_of_nonneg (by linarith)]
    linarith
  have es := hround' (u + v) huv
  have hs0 : 0 ≤ roundToF32 (u + v) := roundToF32_ge _ _ representable_zero (by linarith)
  simp only [F32.fin_add]
  rw [F32.ofRat_fin (u + v) (by rw [abs_le] at huv ⊢; constructor <;> linarith)]
  generalize roundToF32 (u + v) = s at es hs0 ⊢
  rw [abs_le] at es
  have hsT : |s - (X + Y)| ≤ 4 * ε := by
    rw [abs_le]
    constructor <;> linarith
  have hsn : s ≤ (2 ^ n) ^ 2 := by
    rw [abs_le] at hsT
    linarith
  obtain ⟨m, R, hm, hm0, hR0, hR1, hR2, hmR⟩ := F32.sqrt_spec s hs0 n hn hsn
  exact ⟨m, R, s, hm, hm0, hR0, hR1, hR2, hmR, hsT⟩

/-- A value of at least 255 is stored as 255. -/
theorem clamp_byte_top (ub : F32 → Nat) (q : ℚ) (h : 255 ≤ q) :
    clamp_byte ub (F32.fin q) = 255 := by
  obtain ⟨z, e, -, b⟩ := clamp_byte_fin ub q
  have hc : (if q < 0 then (0 : ℚ) else if 255 < q then 255 else q) = 255 := by
    split_ifs <;> linarith
  rw [hc, abs_le] at b
  have hz : ⌊z⌋ = 255 := by
    rw [Int.floor_eq_iff]
    norm_num at b ⊢
    constructor <;> linarith [b.1, b.2]
  omega

theorem abs_lt_of_sq_lt_sq_pos {a b : ℚ} (hb : 0 ≤ b) (h : a ^ 2 < b ^ 2) : |a| < b := by
  have := sq_lt_sq.mp h
  rwa [abs_of_nonneg hb] at this

theorem sq_diff_le {a b d M : ℚ} (hd : |a - b| ≤ d) (hb : |b| ≤ M) :
    a ^ 2 - b ^ 2 ≤ d * (2 * M + d) := by
  have hd0 : 0 ≤ d := le_trans (abs_nonneg _) hd
  have h1 : |a + b| ≤ 2 * M + d := by
    have : a + b = (a - b) + 2 * b := by ring
    rw [this]
    calc |a - b + 2 * b| ≤ |a - b| + |2 * b| := abs_add _ _
      _ = |a - b| + 2 * |b| := by rw [abs_mul]; norm_num
      _ ≤ 2 * M + d := by linarith
  calc a ^ 2 - b ^ 2 = (a - b) * (a + b) := by ring
    _ ≤ |(a - b) * (a + b)| := le_abs_self _
    _ = |a - b| * |a + b| := abs_mul _ _
    _ ≤ d * (2 * M + d) := mul_le_mul hd h1 (abs_nonneg _) hd0

/-- Sums `(x1, y1)` and `(x2, y2)` of the two engines that differ by at most `1/32` in each
component give gradient magnitudes whose stored bytes differ by at most 1 (one
direction). -/
theorem magnitude_le_succ (ub ub' : F32 → Nat) (x1 y1 x2 y2 : ℚ) (hx : |x1 - x2| ≤ 1 / 32)
    (hy : |y1 - y2| ≤ 1 / 32) (bx : |x2| ≤ 2 ^ 13) (bY : |y2| ≤ 2 ^ 13) :
    clamp_byte ub (F32.sqrt (F32.fin x1 * F32.fin x1 + F32.fin y1 * F32.fin y1)) ≤
      clamp_byte ub' (F32.sqrt (F32.fin x2 * F32.fin x2 + F32.fin y2 * F32.fin y2)) + 1 := by
  have e100 : (1 : ℚ) / 2 ^ 100 ≤ 1 / 2 ^ 13 := by norm_num
  have e101 : (1 : ℚ) / 2 ^ 101 ≤ 1 / 2 ^ 13 := by norm_num
  have p100 : (0 : ℚ) < 1 / 2 ^ 100 := by norm_num
  rcases le_or_lt ((2 : ℚ) ^ 17) (x2 ^ 2 + y2 ^ 2) with hA | hB
  · -- the magnitude of the second engine is far above 255
    have hT : x2 ^ 2 + y2 ^ 2 ≤ 2 ^ 27 := by
      have h1 : x2 ^ 2 ≤ (2 ^ 13) ^ 2 :=
        sq_le_sq.mpr (by rwa [abs_of_nonneg (by norm_num : (0 : ℚ) ≤ 2 ^ 13)])
      have h2 : y2 ^ 2 ≤ (2 ^ 13) ^ 2 :=
        sq_le_sq.mpr (by rwa [abs_of_nonneg (by norm_num : (0 : ℚ) ≤ 2 ^ 13)])
      norm_num at h1 h2 ⊢
      linarith
    obtain ⟨m, R, s, hm, hm0, hR0, hR1, hR2, hmR, hsT⟩ :=
      magnitude_spec x2 y2 27 14 (by norm_num) (by norm_num) hT
    generalize (1 : ℚ) / 2 ^ 100 = t100 at e100 p100 hR2
    generalize (1 : ℚ) / 2 ^ 101 = t101 at e101 hmR
    rw [abs_le] at hmR hsT
    norm_num at hmR hsT hA e100 e101
    have hR300 : 300 < R + t100 := by
      by_contra hc
      push_neg at hc
      have : (R + t100) ^ 2 ≤ 300 ^ 2 := by
        apply pow_le_pow_left₀ (by linarith) hc
      norm_num at this
      linarith
    rw [hm, clamp_byte_top ub' m (by linarith)]
    have := clamp_byte_lt ub (F32.sqrt (F32.fin x1 * F32.fin x1 + F32.fin y1 * F32.fin y1))
    omega
  · -- both magnitudes are small: compare them through their squares
    have h512 : (2 : ℚ) ^ 17 < 512 ^ 2 := by norm_num
    have hx2 : |x2| < 512 :=
      abs_lt_of_sq_lt_sq_pos (by norm_num) (by linarith [sq_nonneg y2])
    have hy2 : |y2| < 512 :=
      abs_lt_of_sq_lt_sq_pos (by norm_num) (by linarith [sq_nonneg x2])
    have hx1 : x1 ^ 2 - x2 ^ 2 ≤ 1 / 32 * (2 * 512 + 1 / 32) := sq_diff_le hx hx2.le
    have hy1 : y1 ^ 2 - y2 ^ 2 ≤ 1 / 32 * (2 * 512 + 1 / 32) := sq_diff_le hy hy2.le
    have hT1 : x1 ^ 2 + y1 ^ 2 ≤ 2 ^ 20 := by
      norm_num at hx1 hy1 hB ⊢; linarith
    obtain ⟨m1, R1, s1, hm1, hm10, hR10, hR11, hR12, hmR1, hsT1⟩ :=
      magnitude_spec x1 y1 20 11 (by norm_num) (by norm_num) hT1
    obtain ⟨m2, R2, s2, hm2, hm20, hR20, hR21, hR22, hmR2, hsT2⟩ :=
      magnitude_spec x2 y2 17 9 (by norm_num) (by norm_num) hB.le
    generalize (1 : ℚ) / 2 ^ 100 = t100 at e100 p100 hR12 hR22
    generalize (1 : ℚ) / 2 ^ 101 = t101 at e101 hmR1 hmR2
    rw [abs_le] at hmR1 hmR2 hsT1 hsT2
    norm_num at hmR1 hmR2 hsT1 hsT2 e100 e101
    rw [hm1, hm2]
    apply clamp_byte_le_succ
    by_contra hcon
    push_neg at hcon
    -- lower bound on `s1`, upper bound on `s2`
    have hlow : (m2 + 3 / 4 - 1 / 2 ^ 11) ^ 2 ≤ s1 := by
      have : (m2 + 3 / 4 - 1 / 2 ^ 11) ^ 2 ≤ R1 ^ 2 :=
        pow_le_pow_left₀ (by norm_num; linarith) (by norm_num; linarith) 2
      linarith
    have hupp : s2 < (m2 + 1 / 2 ^ 11) ^ 2 := by
      have : (R2 + t100) ^ 2 ≤ (m2 + 1 / 2 ^ 11) ^ 2 :=
        pow_le_pow_left₀ (by linarith) (by norm_num; linarith) 2
      linarith
    have hT2half : x2 ^ 2 + y2 ^ 2 < (m2 + 1 / 2) ^ 2 := by
      have e : (m2 + 1 / 2) ^ 2 - (m2 + 1 / 2 ^ 11) ^ 2 =
          (1 / 2 - 1 / 2 ^ 11) * (2 * m2 + 1 / 2 + 1 / 2 ^ 11) := by ring
      generalize (m2 + 1 / 2) ^ 2 = a at e ⊢
      generalize (m2 + 1 / 2 ^ 11) ^ 2 = b at e hupp
      linarith
    have hx2m : |x2| < m2 + 1 / 2 :=
      abs_lt_of_sq_lt_sq_pos (by linarith) (by linarith [sq_nonneg y2])
    have hy2m : |y2| < m2 + 1 / 2 :=
      abs_lt_of_sq_lt_sq_pos (by linarith) (by linarith [sq_nonneg x2])
    have hx1m : x1 ^ 2 - x2 ^ 2 ≤ 1 / 32 * (2 * (m2 + 1 / 2) + 1 / 32) := sq_diff_le hx hx2m.le
    have hy1m : y1 ^ 2 - y2 ^ 2 ≤ 1 / 32 * (2 * (m2 + 1 / 2) + 1 / 32) := sq_diff_le hy hy2m.le
    have e1 : (m2 + 3 / 4 - 1 / 2 ^ 11) ^ 2 - (m2 + 1 / 2 ^ 11) ^ 2 =
        (3 / 4 - 2 / 2 ^ 11) * (2 * m2 + 3 / 4) := by ring
    generalize (m2 + 3 / 4 - 1 / 2 ^ 11) ^ 2 = a at e1 hlow
    generalize (m2 + 1 / 2 ^ 11) ^ 2 = b at e1 hupp
    linarith

theorem sobelFold_fst (s : Int → Int → F32) :
    (sobelFold s).1 = (seqOrder 9).sum (F32.lit 0 :: kernelTerms gx s) := rfl

theorem sobelFold_snd (s : Int → Int → F32) :
    (sobelFold s).2 = (seqOrder 9).sum (F32.lit 0 :: kernelTerms gy s) := rfl

theorem F32.mul_kernel (a : ℚ) (ha : Representable a) (hb : |a| ≤ 258) (k : Int)
    (hk : k = 0 ∨ k = 1 ∨ k = -1 ∨ k = 2 ∨ k = -2) :
    F32.fin a * F32.ofInt k = F32.fin (a * k) ∧ Representable (a * k) ∧ |a * (k : ℚ)| ≤ 516 := by
  have hk24 : |k| ≤ 2 ^ 24 := by rcases hk with rfl | rfl | rfl | rfl | rfl <;> norm_num
  have hrep : Representable (a * k) := by
    rcases hk with rfl | rfl | rfl | rfl | rfl
    · simpa using representable_zero
    · simpa using ha
    · simpa using representable_neg ha
    · have := representable_two_mul ha
      rwa [mul_comm] at this
    · have := representable_neg (representable_two_mul ha)
      have e : a * ((-2 : Int) : ℚ) = -(2 * a) := by push_cast; ring
      rwa [e]
  have hbd : |a * (k : ℚ)| ≤ 516 := by
    rw [abs_mul]
    have hk2 : |(k : ℚ)| ≤ 2 := by
      rcases hk with rfl | rfl | rfl | rfl | rfl <;> norm_num
    calc |a| * |(k : ℚ)| ≤ 258 * 2 := mul_le_mul hb hk2 (abs_nonneg _) (by norm_num)
      _ = 516 := by norm_num
  refine ⟨?_, hrep, hbd⟩
  rw [F32.ofInt_small k hk24, F32.fin_mul]
  exact F32.ofRat_exact _ hrep (le_trans hbd (by norm_num))

theorem kernel_entries :
    (∀ ky ∈ kernelOffsets, ∀ kx ∈ kernelOffsets,
      kernelAt gx (ky + 1) (kx + 1) = 0 ∨ kernelAt gx (ky + 1) (kx + 1) = 1 ∨
        kernelAt gx (ky + 1) (kx + 1) = -1 ∨ kernelAt gx (ky + 1) (kx + 1) = 2 ∨
        kernelAt gx (ky + 1) (kx + 1) = -2) ∧
    (∀ ky ∈ kernelOffsets, ∀ kx ∈ kernelOffsets,
      kernelAt gy (ky + 1) (kx + 1) = 0 ∨ kernelAt gy (ky + 1) (kx + 1) = 1 ∨
        kernelAt gy (ky + 1) (kx + 1) = -1 ∨ kernelAt gy (ky + 1) (kx + 1) = 2 ∨
        kernelAt gy (ky + 1) (kx + 1) = -2) := by
  decide

theorem kernelTerms_fin (K : List (List Int))
    (hK : ∀ ky ∈ kernelOffsets, ∀ kx ∈ kernelOffsets,
      kernelAt K (ky + 1) (kx + 1) = 0 ∨ kernelAt K (ky + 1) (kx + 1) = 1 ∨
        kernelAt K (ky + 1) (kx + 1) = -1 ∨ kernelAt K (ky + 1) (kx + 1) = 2 ∨
        kernelAt K (ky + 1) (kx + 1) = -2)
    (s : Int → Int → F32) (g : Int → Int → ℚ) (hs : ∀ kx ky, s kx ky = F32.fin (g kx ky))
    (hg : ∀ kx ky, Representable (g kx ky) ∧ |g kx ky| ≤ 258) :
    kernelTerms K s = (kernelTermsQ K g).map F32.fin ∧
      ∀ q ∈ kernelTermsQ K g, Representable q ∧ |q| ≤ 516 := by
  have key : ∀ ky ∈ kernelOffsets, ∀ kx ∈ kernelOffsets,
      s kx ky * F32.ofInt (kernelAt K (ky + 1) (kx + 1)) =
          F32.fin (g kx ky * (kernelAt K (ky + 1) (kx + 1) : ℚ)) ∧
        Representable (g kx ky * (kernelAt K (ky + 1) (kx + 1) : ℚ)) ∧
        |g kx ky * (kernelAt K (ky + 1) (kx + 1) : ℚ)| ≤ 516 := fun ky hky kx hkx => by
    rw [hs]; exact F32.mul_kernel _ (hg kx ky).1 (hg kx ky).2 _ (hK ky hky kx hkx)
  constructor
  · unfold kernelTerms kernelTermsQ
    rw [List.map_flatMap]
    apply List.flatMap_congr
    intro ky hky
    rw [List.map_map]
    apply List.map_congr_left
    intro kx hkx
    exact (key ky hky kx hkx).1
  · intro q hq
    unfold kernelTermsQ at hq
    rw [List.mem_flatMap] at hq
    obtain ⟨ky, hky, hq⟩ := hq
    rw [List.mem_map] at hq
    obtain ⟨kx, hkx, rfl⟩ := hq
    exact (key ky hky kx hkx).2

theorem sum_range_getD (l : List ℚ) (n : Nat) (h : l.length = n) :
    ((List.range n).map fun i => l.getD i 0).sum = l.sum := by
  have : (List.range n).map (fun i => l.getD i 0) = l := by
    apply List.ext_getElem
    · simp [h]
    · intro i h1 h2
      simp [List.getD_eq_getElem?_getD, List.getElem?_eq_getElem h2]
  rw [this]

theorem kernelTermsQ_length (K : List (List Int)) (g : Int → Int → ℚ) :
    (kernelTermsQ K g).length = 9 := by
  simp [kernelTermsQ, kernelOffsets]

theorem kernelTermsQ_close (K : List (List Int))
    (hK : ∀ ky ∈ kernelOffsets, ∀ kx ∈ kernelOffsets,
      kernelAt K (ky + 1) (kx + 1) = 0 ∨ kernelAt K (ky + 1) (kx + 1) = 1 ∨
        kernelAt K (ky + 1) (kx + 1) = -1 ∨ kernelAt K (ky + 1) (kx + 1) = 2 ∨
        kernelAt K (ky + 1) (kx + 1) = -2)
    (g1 g2 : Int → Int → ℚ) (δ : ℚ) (hclose : ∀ kx ky, |g1 kx ky - g2 kx ky| ≤ δ) :
    |(kernelTermsQ K g1).sum - (kernelTermsQ K g2).sum| ≤ 18 * δ := by
  have key : ∀ ky ∈ kernelOffsets, ∀ kx ∈ kernelOffsets,
      |g1 kx ky * (kernelAt K (ky + 1) (kx + 1) : ℚ) -
        g2 kx ky * (kernelAt K (ky + 1) (kx + 1) : ℚ)| ≤ 2 * δ := fun ky hky kx hkx => by
    have hδ : 0 ≤ δ := le_trans (abs_nonneg _) (hclose 0 0)
    rw [← sub_mul, abs_mul]
    have hk2 : |(kernelAt K (ky + 1) (kx + 1) : ℚ)| ≤ 2 := by
      rcases hK ky hky kx hkx with h | h | h | h | h <;> rw [h] <;> norm_num
    calc |g1 kx ky - g2 kx ky| * |(kernelAt K (ky + 1) (kx + 1) : ℚ)| ≤ δ * 2 :=
          mul_le_mul (hclose kx ky) hk2 (abs_nonneg _) hδ
      _ = 2 * δ := by ring
  have k1 := key (-1) (by decide) (-1) (by decide)
  have k2 := key (-1) (by decide) 0 (by decide)
  have k3 := key (-1) (by decide) 1 (by decide)
  have k4 := key 0 (by decide) (-1) (by decide)
  have k5 := key 0 (by decide) 0 (by decide)
  have k6 := key 0 (by decide) 1 (by decide)
  have k7 := key 1 (by decide) (-1) (by decide)
  have k8 := key 1 (by decide) 0 (by decide)
  have k9 := key 1 (by decide) 1 (by decide)
  simp only [kernelTermsQ, kernelOffsets, List.flatMap_cons, List.flatMap_nil, List.map_cons,
    List.map_nil, List.cons_append, List.nil_append, List.append_nil, List.sum_cons,
    List.sum_nil]
  rw [abs_le] at k1 k2 k3 k4 k5 k6 k7 k8 k9 ⊢
  constructor <;> linarith

/-- The sums of the nine products of a kernel with lumas that differ by at most `2^-13`
between the engines, added one after the other from `0.0f` by the sequential engine and in
any order by the parallel one, are finite, at most `2^13` and within `1/32` of each
other. -/
theorem kernel_sums_close (K : List (List Int))
    (hK : ∀ ky ∈ kernelOffsets, ∀ kx ∈ kernelOffsets,
      kernelAt K (ky + 1) (kx + 1) = 0 ∨ kernelAt K (ky + 1) (kx + 1) = 1 ∨
        kernelAt K (ky + 1) (kx + 1) = -1 ∨ kernelAt K (ky + 1) (kx + 1) = 2 ∨
        kernelAt K (ky + 1) (kx + 1) = -2)
    (o : SumOrder) (ho : o.Covers 9) (s1 s2 : Int → Int → F32) (g1 g2 : Int → Int → ℚ)
    (hs1 : ∀ kx ky, s1 kx ky = F32.fin (g1 kx ky))
    (hs2 : ∀ kx ky, s2 kx ky = F32.fin (g2 kx ky))
    (hg1 : ∀ kx ky, Representable (g1 kx ky) ∧ |g1 kx ky| ≤ 258)
    (hg2 : ∀ kx ky, Representable (g2 kx ky) ∧ |g2 kx ky| ≤ 258)
    (hclose : ∀ kx ky, |g1 kx ky - g2 kx ky| ≤ 1 / 2 ^ 13) :
    ∃ x1 x2, (seqOrder 9).sum (F32.lit 0 :: kernelTerms K s1) = F32.fin x1 ∧
      o.sum (kernelTerms K s2) = F32.fin x2 ∧ |x1 - x2| ≤ 1 / 32 ∧
      |x1| ≤ 2 ^ 13 ∧ |x2| ≤ 2 ^ 13 := by
  obtain ⟨e1, q1⟩ := kernelTerms_fin K hK s1 g1 hs1 hg1
  obtain ⟨e2, q2⟩ := kernelTerms_fin K hK s2 g2 hs2 hg2
  have hq1 : ∀ q ∈ (0 : ℚ) :: kernelTermsQ K g1, Representable q ∧ |q| ≤ 516 := by
    intro q hq
    rcases List.mem_cons.mp hq with rfl | h
    · exact ⟨representable_zero, by norm_num⟩
    · exact q1 q h
  have hseq : (seqOrder 9).Covers 10 := by decide
  obtain ⟨x1, hx1, -, c1⟩ := SumOrder.sum_fin (seqOrder 9) (0 :: kernelTermsQ K g1) 516 13
    (by norm_num) (by norm_num) hq1 (by rw [hseq.length]; norm_num)
  obtain ⟨x2, hx2, -, c2⟩ := SumOrder.sum_fin o (kernelTermsQ K g2) 516 13
    (by norm_num) (by norm_num) q2 (by rw [ho.length]; norm_num)
  rw [hseq.length, hseq.sum_eq,
    sum_range_getD _ 10 (by simp [kernelTermsQ_length]), List.sum_cons, zero_add] at c1
  rw [ho.length, ho.sum_eq, sum_range_getD _ 9 (kernelTermsQ_length K g2)] at c2
  have hd := kernelTermsQ_close K hK g1 g2 _ hclose
  have b1 := (seqOrder 9).exact_bound (0 :: kernelTermsQ K g1) 516 (by norm_num) hq1
  rw [hseq.length, hseq.sum_eq,
    sum_range_getD _ 10 (by simp [kernelTermsQ_length]), List.sum_cons, zero_add] at b1
  have b2 := o.exact_bound (kernelTermsQ K g2) 516 (by norm_num) q2
  rw [ho.length, ho.sum_eq, sum_range_getD _ 9 (kernelTermsQ_length K g2)] at b2
  refine ⟨x1, x2, ?_, ?_, ?_, ?_, ?_⟩
  · rw [e1, F32.lit_zero]; exact hx1
  · rw [e2]; exact hx2
  all_goals
    rw [abs_le] at c1 c2 hd b1 b2 ⊢
    norm_num at c1 c2 hd b1 b2 ⊢
    constructor <;> linarith

/-- Neighbourhoods whose lumas differ by at most `2^-13` between the engines give stored
gradient magnitudes that differ by at most 1, whatever the order of the sums `Gx` and
`Gy` in the parallel engine. -/
theorem sobelByte_close (ub ub' : F32 → Nat) (ox oy : SumOrder) (hox : ox.Covers 9)
    (hoy : oy.Covers 9) (s1 s2 : Int → Int → F32)
    (h : ∀ kx ky, ∃ a b, s1 kx ky = F32.fin a ∧ s2 kx ky = F32.fin b ∧ Representable a ∧
      Representable b ∧ |a| ≤ 258 ∧ |b| ≤ 258 ∧ |a - b| ≤ 1 / 2 ^ 13) :
    |(sobelByteIn ub' ox oy s2 : Int) - (sobelByte ub s1 : Int)| ≤ 1 := by
  choose g1 g2 hs1 hs2 hr1 hr2 hb1 hb2 hc using h
  obtain ⟨x1, x2, ex1, ex2, hx, bx1, bx2⟩ := kernel_sums_close gx kernel_entries.1 ox hox
    s1 s2 g1 g2 hs1 hs2 (fun kx ky => ⟨hr1 kx ky, hb1 kx ky⟩)
    (fun kx ky => ⟨hr2 kx ky, hb2 kx ky⟩) hc
  obtain ⟨y1, y2, ey1, ey2, hy, by1, by2⟩ := kernel_sums_close gy kernel_entries.2 oy hoy
    s1 s2 g1 g2 hs1 hs2 (fun kx ky => ⟨hr1 kx ky, hb1 kx ky⟩)
    (fun kx ky => ⟨hr2 kx ky, hb2 kx ky⟩) hc
  unfold sobelByteIn sobelByte
  simp only [roundByte_eq, sobelFold_fst, sobelFold_snd, ex1, ex2, ey1, ey2]
  have h12 := magnitude_le_succ ub ub' x1 y1 x2 y2 hx hy bx2 by2
  have h21 := magnitude_le_succ ub' ub x2 y2 x1 y1 (by rwa [abs_sub_comm])
    (by rwa [abs_sub_comm]) bx1 by1
  rw [abs_le]
  omega

theorem F32.ofRat_ne_nan (q : ℚ) : F32.ofRat q ≠ F32.nan := by
  unfold F32.ofRat
  simp only
  split_ifs <;> simp

theorem F32.add_fin_ne_nan (x : F32) (b : ℚ) (hx : x ≠ F32.nan) : x + F32.fin b ≠ F32.nan := by
  cases x with
  | nan => exact absurd rfl hx
  | inf s => intro h; cases h
  | fin a => exact F32.ofRat_ne_nan _

theorem F32.fin_mul_ne_nan (a : ℚ) (ha : a ≠ 0) (y : F32) (hy : y ≠ F32.nan) :
    F32.fin a * y ≠ F32.nan := by
  cases y with
  | nan => exact absurd rfl hy
  | inf s =>
      show F32.mul (F32.fin a) (F32.inf s) ≠ F32.nan
      simp [F32.mul, ha]
  | fin b => exact F32.ofRat_ne_nan _

/-- The function `std::clamp` with finite bounds `a ≤ b` maps every value but a NaN to a
finite value in `[a, b]`. -/
theorem F32.clamp_ne_nan (v : F32) (hv : v ≠ F32.nan) (a b : ℚ) (hab : a ≤ b) :
    ∃ c, F32.clamp v (F32.fin a) (F32.fin b) = F32.fin c ∧ a ≤ c ∧ c ≤ b := by
  cases v with
  | nan => exact absurd rfl hv
  | inf s =>
      cases s
      · exact ⟨b, by simp [F32.clamp, F32.lt], hab, le_refl b⟩
      · exact ⟨a, by simp [F32.clamp, F32.lt], le_refl a, hab⟩
  | fin q =>
      refine ⟨_, F32.clamp_fin q a b, ?_, ?_⟩ <;> split_ifs <;> linarith

theorem F32.max_ne_nan (v : F32) (hv : v ≠ F32.nan) (b : ℚ) :
    F32.max v (F32.fin b) ≠ F32.nan := by
  unfold F32.max
  split_ifs
  · intro h; cases h
  · exact hv

/-- The byte stored for a finite value does not depend on the outcome of undefined
conversions. -/
theorem clamp_byte_fin_ub (ub ub' : F32 → Nat) (q : ℚ) :
    clamp_byte ub (F32.fin q) = clamp_byte ub' (F32.fin q) := by
  unfold clamp_byte
  simp only [F32.lit_zero, F32.lit_255, F32.lit_half, F32.clamp_fin, F32.fin_add]
  set c : ℚ := if q < 0 then 0 else if 255 < q then 255 else q with hc
  have hb : 0 ≤ c ∧ c ≤ 255 := by
    rw [hc]; split_ifs <;> constructor <;> linarith
  have habs' : |c + 1 / 2| ≤ 2 ^ (127 : Nat) := by
    rw [abs_le]; constructor <;> norm_num <;> linarith [hb.1, hb.2]
  rw [F32.ofRat_fin _ habs']
  have hlo : (1 / 2 : ℚ) ≤ roundToF32 (c + 1 / 2) :=
    roundToF32_ge _ _ representable_half (by linarith [hb.1])
  have hrep : Representable (((511 : Int) : ℚ) / 2 ^ 1) :=
    representable_dyadic _ 1 (by norm_num) (by norm_num)
  have hhi : roundToF32 (c + 1 / 2) ≤ ((511 : Int) : ℚ) / 2 ^ 1 :=
    roundToF32_le _ _ hrep (by push_cast; linarith [hb.2])
  have hz0 : (0 : ℚ) ≤ roundToF32 (c + 1 / 2) := by linarith
  have hf0 : 0 ≤ ⌊roundToF32 (c + 1 / 2)⌋ := Int.floor_nonneg.mpr hz0
  have hf1 : ⌊roundToF32 (c + 1 / 2)⌋ ≤ 255 := by
    have : ⌊roundToF32 (c + 1 / 2)⌋ < 256 := by
      rw [Int.floor_lt]; push_cast at hhi ⊢; linarith
    omega
  unfold F32.toByte
  simp only
  rw [if_pos hz0, if_pos ⟨hf0, hf1⟩, if_pos ⟨hf0, hf1⟩]

/-- A clamped value in `[0, 1]`, scaled back by `255.0f` and rounded, is stored as the same
byte whatever the outcome of undefined conversions. -/
theorem clamp_byte_scaled_ub (ub ub' : F32 → Nat) (x : F32) (hx : x ≠ F32.nan) :
    clamp_byte ub (F32.clamp x (F32.lit 0) (F32.lit 1) * F32.lit 255) =
      clamp_byte ub' (F32.clamp x (F32.lit 0) (F32.lit 1) * F32.lit 255) := by
  rw [F32.lit_zero, F32.lit_one, F32.lit_255]
  obtain ⟨c, hc, h0, h1⟩ := F32.clamp_ne_nan x hx 0 1 (by norm_num)
  rw [hc, F32.fin_mul, F32.ofRat_small _ (by
    rw [abs_le]; constructor <;> norm_num <;> linarith)]
  exact clamp_byte_fin_ub ub ub' _

/-- For a `delta` that is not a NaN the byte `cpu_brightness` stores does not depend on the
outcome of undefined conversions: none is reached. -/
theorem brightnessByte_ub (ub ub' : F32 → Nat) (delta : F32) (hd : delta ≠ F32.nan) (p : Nat)
    (hp : p ≤ 255) :
    brightnessByte ub (F32.clamp delta (F32.lit (-1)) (F32.lit 1)) p =
      brightnessByte ub' (F32.clamp delta (F32.lit (-1)) (F32.lit 1)) p := by
  unfold brightnessByte
  simp only
  apply clamp_byte_scaled_ub
  obtain ⟨v, hv, -, -, -, -⟩ := F32.div_255 p hp
  rw [hv, F32.lit_neg_one, F32.lit_one]
  obtain ⟨d, hd', -, -⟩ := F32.clamp_ne_nan delta hd (-1) 1 (by norm_num)
  rw [hd']
  exact F32.ofRat_ne_nan _


/-- For a `factor` that is not a NaN the byte `cpu_contrast` stores does not depend on the
outcome of undefined conversions: a normalised byte is never `0.5`, so even an infinite
`factor` gives no NaN. -/
theorem contrastByte_ub (ub ub' : F32 → Nat) (factor : F32) (hf : factor ≠ F32.nan) (p : Nat)
    (hp : p ≤ 255) :
    contrastByte ub (F32.max factor (F32.lit 0)) p =
      contrastByte ub' (F32.max factor (F32.lit 0)) p := by
  unfold contrastByte
  simp only
  apply clamp_byte_scaled_ub
  obtain ⟨v, hv, -, hv0, hv1, herr⟩ := F32.div_255 p hp
  rw [hv, F32.lit_half, F32.lit_zero, F32.fin_sub, F32.ofRat_small _ (by
    rw [abs_le]; constructor <;> norm_num <;> linarith)]
  apply F32.add_fin_ne_nan
  apply F32.fin_mul_ne_nan _ _ _ (F32.max_ne_nan factor hf 0)
  rw [abs_le] at herr
  have hrep : Representable ((1 : ℚ) / 2 ^ 10) := by
    simpa using representable_dyadic 1 10 (by norm_num) (by norm_num)
  rcases Nat.lt_or_ge p 128 with h | h
  · have hp' : (p : ℚ) ≤ 127 := by exact_mod_cast Nat.lt_succ_iff.mp h
    have hle : v - 1 / 2 ≤ -(1 / 2 ^ 10) := by
      have : (p : ℚ) / 255 ≤ 127 / 255 := by
        apply div_le_div_of_nonneg_right hp' (by norm_num)
      norm_num at herr ⊢
      linarith
    have := roundToF32_le _ _ (representable_neg hrep) hle
    have hpos : (0 : ℚ) < 1 / 2 ^ 10 := by norm_num
    linarith
  · have hp' : (128 : ℚ) ≤ p := by exact_mod_cast h
    have hge : (1 : ℚ) / 2 ^ 10 ≤ v - 1 / 2 := by
      have : (128 : ℚ) / 255 ≤ p / 255 := by
        apply div_le_div_of_nonneg_right hp' (by norm_num)
      norm_num at herr ⊢
      linarith
    have := roundToF32_ge _ _ hrep hge
    have hpos : (0 : ℚ) < 1 / 2 ^ 10 := by norm_num
    linarith


/-- For a NaN `delta` the conversion to a byte in `clamp_byte` is undefined: the byte stored
is whatever the implementation produces there. -/
theorem brightnessByte_nan (ub : F32 → Nat) (p : Nat) (hp : p ≤ 255) :
    brightnessByte ub (F32.clamp F32.nan (F32.lit (-1)) (F32.lit 1)) p = ub F32.nan % 256 := by
  obtain ⟨v, hv, -, -, -, -⟩ := F32.div_255 p hp
  unfold brightnessByte clamp_byte
  simp only
  rw [hv, F32.lit_neg_one, F32.lit_one, F32.lit_zero, F32.lit_255, F32.lit_half]
  rfl

/-! ## Parallel engine against the sequential engine -/

theorem getD_byte_le (px : List Nat) (hb : ∀ p ∈ px, p < 256) (i : Nat) : px.getD i 0 ≤ 255 := by
  rw [List.getD_eq_getElem?_getD]
  rcases h : px[i]? with _ | v
  · simp
  · have := hb v (List.getElem?_mem h)
    simp only [Option.getD_some]
    omega

theorem getD_of_getElem? {l : List Nat} {j v : Nat} (h : l[j]? = some v) : l.getD j 0 = v := by
  rw [List.getD_eq_getElem?_getD, h]; rfl

/-- The luma bytes of the two engines differ by at most 1. -/
theorem roundByte_lumaIn_close (ubc ubg : F32 → Nat) (o : SumOrder) (ho : o.Covers 3)
    (r g b : Nat) (hr : r ≤ 255) (hg : g ≤ 255) (hb : b ≤ 255) :
    |(roundByte ubg (lumaIn o r g b) : Int) - (clamp_byte ubc (to_gray r g b) : Int)| ≤ 1 := by
  obtain ⟨v1, v2, e1, e2, -, -, -, -, hc⟩ := lumaIn_close o ho r g b hr hg hb
  rw [roundByte_eq, e1, e2]
  apply clamp_byte_close
  rw [abs_sub_comm]
  exact le_trans hc (by norm_num)

/-- Grayscale: the parallel engine is within 1 of the sequential engine in every byte. -/
theorem apply_grayscale_close (ubc ubg : F32 → Nat) (o : SumOrder) (sched : List Nat)
    (img : Image) (hwf : img.WellFormed) (hs : img.Schedule sched) (ho : o.Covers 3) :
    ∃ c, cpu_grayscale ubc img = some c ∧ (apply_grayscale ubg o sched img).Within1 c := by
  obtain ⟨out, hout, hlen, hpt⟩ := cpu_grayscale_wf ubc img hwf
  refine ⟨_, hout, rfl, rfl, rfl, ?_, ?_⟩
  · simp only [apply_grayscale, runUnits_length, List.length_replicate, hlen]
  · intro j hj
    have hj' : j < img.pixels.length := by simpa [hlen] using hj
    have h1 := getD_of_getElem? (hpt j hj')
    simp only [apply_grayscale]
    rw [h1, runUnits_scheduled hs hwf _ j hj']
    unfold grayAt
    rw [mul_comm (j / 3) 3]
    exact roundByte_lumaIn_close ubc ubg o ho _ _ _ (getD_byte_le _ hwf.2.2.2.2.1 _)
      (getD_byte_le _ hwf.2.2.2.2.1 _) (getD_byte_le _ hwf.2.2.2.2.1 _)

/-- Brightness: for a `delta` that is not a NaN the parallel engine stores the bytes of the
sequential engine. -/
theorem apply_brightness_close (ubc ubg : F32 → Nat) (sched : List Nat) (img : Image)
    (hwf : img.WellFormed) (hs : img.Schedule sched) (delta : F32) (hd : delta ≠ F32.nan) :
    ∃ c, cpu_brightness ubc img delta = some c ∧
      (apply_brightness ubg sched img delta).Within1 c := by
  obtain ⟨out, hout, hrw⟩ := cpu_brightness_rewritten ubc img hwf.covered delta
  obtain ⟨hlen, hpt⟩ := map_bytes_wf hwf hrw
  refine ⟨_, hout, rfl, rfl, rfl, ?_, ?_⟩
  · simp only [apply_brightness, runUnits_length, List.length_replicate, hlen]
  · intro j hj
    have hj' : j < img.pixels.length := by simpa [hlen] using hj
    have h1 := getD_of_getElem? (hpt j hj')
    simp only [apply_brightness]
    rw [h1, runUnits_scheduled hs hwf _ j hj', Nat.div_add_mod,
      brightnessByte_ub ubc ubg delta hd _ (getD_byte_le _ hwf.2.2.2.2.1 _)]
    simp [brightnessByte, roundByte_eq]

/-- Contrast: for a `factor` that is not a NaN the parallel engine stores the bytes of the
sequential engine. -/
theorem apply_contrast_close (ubc ubg : F32 → Nat) (sched : List Nat) (img : Image)
    (hwf : img.WellFormed) (hs : img.Schedule sched) (factor : F32)
    (hf : factor ≠ F32.nan) :
    ∃ c, cpu_contrast ubc img factor = some c ∧
      (apply_contrast ubg sched img factor).Within1 c := by
  obtain ⟨out, hout, hrw⟩ := cpu_contrast_rewritten ubc img hwf.covered factor
  obtain ⟨hlen, hpt⟩ := map_bytes_wf hwf hrw
  refine ⟨_, hout, rfl, rfl, rfl, ?_, ?_⟩
  · simp only [apply_contrast, runUnits_length, List.length_replicate, hlen]
  · intro j hj
    have hj' : j < img.pixels.length := by simpa [hlen] using hj
    have h1 := getD_of_getElem? (hpt j hj')
    simp only [apply_contrast]
    rw [h1, runUnits_scheduled hs hwf _ j hj', Nat.div_add_mod,
      contrastByte_ub ubc ubg factor hf _ (getD_byte_le _ hwf.2.2.2.2.1 _)]
    simp [contrastByte, roundByte_eq]

/-- Box blur: the parallel engine stores the bytes of the sequential engine. -/
theorem apply_box_blur_close (sched : List Nat) (img : Image) (hwf : img.WellFormed)
    (hs : img.Schedule sched) :
    ∃ c, cpu_box_blur img = some c ∧ (apply_box_blur sched img).Within1 c := by
  obtain ⟨out, hout, hlen, hfill⟩ := cpu_box_blur_filled img hwf.covered
  obtain ⟨hW, hH, hC3, hL⟩ := hwf.natShape3
  refine ⟨_, hout, rfl, rfl, rfl, ?_, ?_⟩
  · simp only [apply_box_blur, runUnits_length, List.length_replicate, hlen]
  · intro j hj
    have hj' : j < img.pixels.length := by simpa [hlen] using hj
    have h1 := getD_of_getElem? (hfill j (by rw [hC3]; omega))
    beta_reduce at h1
    simp only [apply_box_blur]
    rw [h1, runUnits_scheduled hs hwf _ j hj', hC3, hwf.2.2.1,
      intToByte_tdiv _ (boxSum_le _ hwf.2.2.2.2.1 _ _ _ _ _ _)]
    simp [boxMean]

/-- Edge detection: the parallel engine is within 1 of the sequential engine in every
byte. -/
theorem apply_sobel_close (ubc ubg : F32 → Nat) (ol ox oy : SumOrder) (sched : List Nat)
    (img : Image) (hwf : img.WellFormed) (hs : img.Schedule sched) (hol : ol.Covers 3)
    (hox : ox.Covers 9) (hoy : oy.Covers 9) :
    ∃ c, cpu_sobel ubc img = some c ∧ (apply_sobel ubg ol ox oy sched img).Within1 c := by
  obtain ⟨out, hout, hlen, hpt⟩ := cpu_sobel_rewritten ubc img hwf.covered
  obtain ⟨hW, hH, hC3, hL⟩ := hwf.natShape3
  simp only [List.length_replicate] at hlen hpt
  refine ⟨_, hout, rfl, rfl, rfl, ?_, ?_⟩
  · simp only [apply_sobel, runUnits_length, List.length_replicate, hlen]
  · intro j hj
    have hj' : j < img.pixels.length := by simpa [hlen] using hj
    have hdone : grayDone img.channels.toNat (img.height.toNat * img.width.toNat) j = true := by
      unfold grayDone
      rw [hC3]
      simp only [decide_eq_true_eq]
      omega
    have h1 := getD_of_getElem? (hpt j hj')
    rw [hdone, if_pos rfl, hC3, hwf.2.2.1] at h1
    simp only [apply_sobel]
    rw [h1, runUnits_scheduled hs hwf _ j hj']
    apply sobelByte_close ubc ubg ox oy hox hoy
    intro kx ky
    obtain ⟨v1, v2, e1, e2, r1, r2, b1, b2, hc⟩ := lumaIn_close ol hol
      (byteAt img.pixels img.width 3
        (clampEdge (((j / 3 % img.width.toNat : Nat) : Int) + kx) img.width)
        (clampEdge (((j / 3 / img.width.toNat : Nat) : Int) + ky) img.height) 0)
      (byteAt img.pixels img.width 3
        (clampEdge (((j / 3 % img.width.toNat : Nat) : Int) + kx) img.width)
        (clampEdge (((j / 3 / img.width.toNat : Nat) : Int) + ky) img.height) 1)
      (byteAt img.pixels img.width 3
        (clampEdge (((j / 3 % img.width.toNat : Nat) : Int) + kx) img.width)
        (clampEdge (((j / 3 / img.width.toNat : Nat) : Int) + ky) img.height) 2)
      (by have := byteAt_lt img.pixels hwf.2.2.2.2.1 img.width 3
            (clampEdge (((j / 3 % img.width.toNat : Nat) : Int) + kx) img.width)
            (clampEdge (((j / 3 / img.width.toNat : Nat) : Int) + ky) img.height) 0
          omega)
      (by have := byteAt_lt img.pixels hwf.2.2.2.2.1 img.width 3
            (clampEdge (((j / 3 % img.width.toNat : Nat) : Int) + kx) img.width)
            (clampEdge (((j / 3 / img.width.toNat : Nat) : Int) + ky) img.height) 1
          omega)
      (by have := byteAt_lt img.pixels hwf.2.2.2.2.1 img.width 3
            (clampEdge (((j / 3 % img.width.toNat : Nat) : Int) + kx) img.width)
            (clampEdge (((j / 3 / img.width.toNat : Nat) : Int) + ky) img.height) 2
          omega)
    exact ⟨v1, v2, e1, e2, r1, r2, b1, b2, hc⟩


end CudaPix
